import Mathlib

/-!
Verification of the `jsonrepair` repair parser (src/src/regular/jsonrepair.ts).

The input text is modelled as a `List Char` (JavaScript indexes strings by
UTF-16 code units; for the BMP characters handled by every classifier of this
program a code unit is a character, and `charCodeAt i` is `Char.toNat` of the
character at index `i`, with out-of-range access modelled by `Option`).
The parser state is the pair of the cursor `i` and the output buffer.
The mutually recursive recognizers are embedded as one fuel-indexed step
function `run` over an explicit call type `Req`, so that every definition is
executable by kernel reduction; `jsonrepair` instantiates the fuel with a
bound that dominates the recursion depth of the source on its input.

The file `src/utils/stringUtils.ts` (character classifiers and output
back-patch primitives) and `src/utils/JSONRepairError.ts` are imported by the
source file but are not part of the repository snapshot; those definitions
are modelled from the spec (section 3 "Character classifiers", section 2
"Output Builder") and are marked `Modelled from the spec:` below.
-/

set_option maxRecDepth 20000

namespace JsonRepair

/-- Modelled from the spec: whitespace is space, tab, CR, LF
(`stringUtils.isWhitespace`, file absent from the snapshot). -/
def isWhitespace (c : Char) : Bool :=
  c = ' ' || c = '\t' || c = '\r' || c = '\n'

/-- Modelled from the spec: special whitespace is NBSP (U+00A0), en/em spaces
(U+2000 to U+200A), line/paragraph separator (U+2028/U+2029), narrow no-break
(U+202F), medium mathematical space (U+205F), ideographic space (U+3000)
(`stringUtils.isSpecialWhitespace`, file absent from the snapshot). -/
def isSpecialWhitespace (c : Char) : Bool :=
  c.toNat = 0xA0 ||
  (0x2000 ≤ c.toNat && c.toNat ≤ 0x200A) ||
  c.toNat = 0x2028 || c.toNat = 0x2029 ||
  c.toNat = 0x202F || c.toNat = 0x205F || c.toNat = 0x3000

/-- Modelled from the spec: ASCII double quote
(`stringUtils.isDoubleQuote`, file absent from the snapshot). -/
def isDoubleQuote (c : Char) : Bool := c = '"'

/-- Modelled from the spec: ASCII single quote
(`stringUtils.isSingleQuote`, file absent from the snapshot). -/
def isSingleQuote (c : Char) : Bool := c = '\''

/-- Modelled from the spec: double-quote-like characters are `"` (U+0022),
U+201C, U+201D, U+201F, U+2033, U+2036
(`stringUtils.isDoubleQuoteLike`, file absent from the snapshot). -/
def isDoubleQuoteLike (c : Char) : Bool :=
  c = '"' || c.toNat = 0x201C || c.toNat = 0x201D ||
  c.toNat = 0x201F || c.toNat = 0x2033 || c.toNat = 0x2036

/-- Modelled from the spec: single-quote-like characters are `'` (U+0027),
U+2018, U+2019, U+201B, U+2032, U+2035, U+0060 (backtick), U+00B4 (acute)
(`stringUtils.isSingleQuoteLike`, file absent from the snapshot). -/
def isSingleQuoteLike (c : Char) : Bool :=
  c = '\'' || c.toNat = 0x2018 || c.toNat = 0x2019 ||
  c.toNat = 0x201B || c.toNat = 0x2032 || c.toNat = 0x2035 ||
  c.toNat = 0x60 || c.toNat = 0xB4

/-- Modelled from the spec: a quote is any double-quote-like or
single-quote-like character (`stringUtils.isQuote`, file absent). -/
def isQuote (c : Char) : Bool := isDoubleQuoteLike c || isSingleQuoteLike c

/-- Modelled from the spec: a delimiter is any of the characters
comma, colon, square brackets, curly brackets, parentheses, newline, plus,
plus the quote-like characters (`stringUtils.isDelimiter`, file absent). -/
def isDelimiter (c : Char) : Bool :=
  c = ',' || c = ':' || c = '[' || c = ']' ||
  c = '\x7b' || c = '\x7d' || c = '(' || c = ')' ||
  c = '\n' || c = '+' || isQuote c

/-- Modelled from the spec: the delimiter set used by unquoted strings, which
must not stop at a slash so that regex-like unquoted tokens may include `/`
(`stringUtils.isDelimiterExceptSlash`, file absent).  The spec's delimiter
set does not contain the slash, so the set coincides with `isDelimiter`. -/
def isDelimiterExceptSlash (c : Char) : Bool := isDelimiter c

/-- Modelled from the spec: a character that can start a value: the opening
brackets, a word character (letter, digit or underscore), a minus, or a
quote-like character (`stringUtils.isStartOfValue`, file absent). -/
def isStartOfValue (c : Char) : Bool :=
  c = '[' || c = '\x7b' ||
  ('a' ≤ c && c ≤ 'z') || ('A' ≤ c && c ≤ 'Z') ||
  ('0' ≤ c && c ≤ '9') || c = '_' || c = '-' || isQuote c

/-- Modelled from the spec: decimal digit (`stringUtils.isDigit`). -/
def isDigit (c : Char) : Bool := '0' ≤ c && c ≤ '9'

/-- Modelled from the spec: hexadecimal digit (`stringUtils.isHex`). -/
def isHex (c : Char) : Bool :=
  ('0' ≤ c && c ≤ '9') || ('a' ≤ c && c ≤ 'f') || ('A' ≤ c && c ≤ 'F')

/-- Modelled from the spec: the control characters that are escaped through
the standard JSON mapping for backspace, form feed, newline, carriage return
and tab; the remaining controls are classified as invalid string content
(`stringUtils.isControlCharacter`, file absent; spec section 4.5 allows
exactly this restriction). -/
def isControlCharacter (c : Char) : Bool :=
  c = '\x08' || c = '\x0c' || c = '\n' || c = '\r' || c = '\t'

/-- Modelled from the spec: a valid JSON string character is anything from
U+0020 upward (`stringUtils.isValidStringCharacter`, file absent). -/
def isValidStringCharacter (c : Char) : Bool := 0x20 ≤ c.toNat

/-- A word character, as in the regular expression class `\w`. -/
def isWordChar (c : Char) : Bool :=
  ('a' ≤ c && c ≤ 'z') || ('A' ≤ c && c ≤ 'Z') ||
  ('0' ≤ c && c ≤ '9') || c = '_'

/-- Modelled from the spec: the function-name predicate treats MongoDB names
and generic JSONP identifiers uniformly: any nonempty run of word characters
is accepted (`stringUtils.isFunctionName`, file absent; spec section 9
"Function-name set"). -/
def isFunctionName (s : List Char) : Bool := !s.isEmpty && s.all isWordChar

/-- Lift of a classifier to the `Option Char` produced by out-of-range
indexing: JavaScript `charCodeAt` yields NaN out of range and every
comparison with NaN is false, so `none` satisfies no classifier. -/
def optIs (p : Char → Bool) : Option Char → Bool
  | some c => p c
  | none => false

/-- Character of `text` at index `i` (`text[i]` / `text.charCodeAt(i)`,
`none` standing for `undefined` / NaN). -/
def chAt (text : List Char) (i : Nat) : Option Char := text.get? i

/-- JavaScript `text.slice(a, b)` for nonnegative indices. -/
def sliceTxt (text : List Char) (a b : Nat) : List Char := (text.take b).drop a

/-! ## Output-builder primitives (spec section 2, `stringUtils`, file absent) -/

/-- Modelled from the spec: insert text before the trailing run of
(normal) whitespace of the output
(`stringUtils.insertBeforeLastWhitespace`, file absent). -/
def insertBeforeLastWhitespace (out ins : List Char) : List Char :=
  let rev := out.reverse
  ((rev.dropWhile isWhitespace).reverse) ++ ins ++ ((rev.takeWhile isWhitespace).reverse)

/-- Index of the last occurrence of `c` in `l`, if any. -/
def lastIndexOf (l : List Char) (c : Char) : Option Nat :=
  if c ∈ l then some (l.length - 1 - l.reverse.indexOf c) else none

/-- Modelled from the spec: strip the last occurrence of a character from the
output; when the flag is set, the text after that occurrence (the trailing
whitespace the caller is patching around) is removed with it
(`stringUtils.stripLastOccurrence`, file absent; the flagged form is what the
string-concatenation repair of spec section 4.5.1 requires). -/
def stripLastOccurrence (l : List Char) (c : Char) (stripRemainingText : Bool) : List Char :=
  match lastIndexOf l c with
  | some idx => l.take idx ++ (if stripRemainingText then [] else l.drop (idx + 1))
  | none => l

/-- Modelled from the spec: remove `count` characters of the output at
index `start` (`stringUtils.removeAtIndex`, file absent). -/
def removeAtIndex (l : List Char) (start count : Nat) : List Char :=
  l.take start ++ l.drop (start + count)

/-- Modelled from the spec: the output ends, ignoring trailing whitespace
other than newlines, with a comma or a newline
(`stringUtils.endsWithCommaOrNewline`, file absent). -/
def endsWithCommaOrNewline (out : List Char) : Bool :=
  match (out.reverse.dropWhile fun c => c = ' ' || c = '\t' || c = '\r') with
  | c :: _ => c = ',' || c = '\n'
  | [] => false

/-- Four lowercase hexadecimal digits of `n % 65536`. -/
def toHex4 (n : Nat) : List Char :=
  let d : Nat → Char := fun k => if k < 10 then Char.ofNat (48 + k) else Char.ofNat (87 + k)
  [d (n / 4096 % 16), d (n / 256 % 16), d (n / 16 % 16), d (n % 16)]

/-- JavaScript `JSON.stringify` escaping of one character. -/
def jsEscapeChar (c : Char) : List Char :=
  if c = '"' then ['\\', '"']
  else if c = '\\' then ['\\', '\\']
  else if c = '\x08' then ['\\', 'b']
  else if c = '\x0c' then ['\\', 'f']
  else if c = '\n' then ['\\', 'n']
  else if c = '\r' then ['\\', 'r']
  else if c = '\t' then ['\\', 't']
  else if c.toNat < 0x20 then ['\\', 'u'] ++ toHex4 c.toNat
  else [c]

/-- JavaScript `JSON.stringify` applied to a string: quote it and escape
quote, backslash and control characters. -/
def jsStringify (l : List Char) : List Char :=
  '"' :: (l.map jsEscapeChar).flatten ++ ['"']

/-- `JSON.stringify(text[i])`: out of range, `text[i]` is `undefined` and
stringifying it produces the text `undefined`. -/
def jsStringifyOpt : Option Char → List Char
  | some c => jsStringify [c]
  | none => "undefined".data

/-- JavaScript `String.prototype.trim` (strips ASCII and Unicode
whitespace from both ends). -/
def jsTrim (l : List Char) : List Char :=
  let ws := fun c => isWhitespace c || isSpecialWhitespace c
  ((l.dropWhile ws).reverse.dropWhile ws).reverse

/-! ## Errors (`utils/JSONRepairError.ts`, file absent from the snapshot) -/

/-- Modelled from the spec: a structured error with a message and the 0-based
input index at which the condition was detected
(`JSONRepairError`, file absent from the snapshot; spec section 6
"Error shape"). -/
structure JSONRepairError where
  message : String
  position : Nat
deriving Repr, DecidableEq

/-- A run of the embedded parser either throws a `JSONRepairError` or, when
the fuel bound is exhausted (which `jsonrepair`'s bound prevents), reports
that. -/
inductive RunError where
  | err (e : JSONRepairError)
  | outOfFuel
deriving Repr, DecidableEq

/-- Parser state: cursor `i` into the input and the generated output. -/
structure St where
  i : Nat
  output : List Char
deriving Repr, DecidableEq

abbrev M (α : Type) := Except RunError α

/-! ## Non-recursive and structurally recursive helpers -/

/-- The whitespace run at the head of `l`: the characters to emit (special
whitespace normalized to a single space) and the number consumed
(the loop of `parseWhitespace`). -/
def whitespaceRun : List Char → List Char × Nat
  | c :: rest =>
    if isWhitespace c then (c :: (whitespaceRun rest).1, (whitespaceRun rest).2 + 1)
    else if isSpecialWhitespace c then (' ' :: (whitespaceRun rest).1, (whitespaceRun rest).2 + 1)
    else ([], 0)
  | [] => ([], 0)

/-- `parseWhitespace`: emit normal whitespace verbatim, convert special
whitespace to a single space; returns whether anything was consumed. -/
def parseWhitespace (text : List Char) (s : St) : Bool × St :=
  if (whitespaceRun (text.drop s.i)).1.isEmpty then (false, s)
  else (true, ⟨s.i + (whitespaceRun (text.drop s.i)).2,
    s.output ++ (whitespaceRun (text.drop s.i)).1⟩)

/-- `parseWhitespaceAndSkipComments`: in this repository's source the
comment-skipping block is commented out ("Comment out the following block to
preserve comments"), so only `parseWhitespace` runs; `parseComment` is never
invoked.  The boolean result (`i > start`) is not consumed by any caller, so
only the state is returned. -/
def parseWhitespaceAndSkipComments (text : List Char) (s : St) : St :=
  (parseWhitespace text s).2

/-- Number of characters scanned by the block-comment loop of `parseComment`
(it stops before a star-slash pair, or at the end of the text) followed by
the final skip of two characters. -/
def blockCommentScan : List Char → Nat
  | '*' :: '/' :: _ => 2
  | _ :: rest => 1 + blockCommentScan rest
  | [] => 2

/-- Number of characters scanned by the line-comment loop of `parseComment`
(it stops at a newline or at the end of the text). -/
def lineCommentScan : List Char → Nat
  | '\n' :: _ => 0
  | _ :: rest => 1 + lineCommentScan rest
  | [] => 0

/-- `parseComment`: skip a block comment or a line comment, emitting
nothing.  In this repository's source this function is dead code: the call
inside `parseWhitespaceAndSkipComments` is commented out. -/
def parseComment (text : List Char) (s : St) : Bool × St :=
  if chAt text s.i = some '/' && chAt text (s.i + 1) = some '*' then
    (true, ⟨s.i + blockCommentScan (text.drop s.i), s.output⟩)
  else if chAt text s.i = some '/' && chAt text (s.i + 1) = some '/' then
    (true, ⟨s.i + lineCommentScan (text.drop s.i), s.output⟩)
  else
    (false, s)

/-- `parseCharacter`: if the character at the cursor is `c`, emit it and
advance. -/
def parseCharacter (text : List Char) (c : Char) (s : St) : Bool × St :=
  if chAt text s.i = some c then (true, ⟨s.i + 1, s.output ++ [c]⟩) else (false, s)

/-- `skipCharacter`: if the character at the cursor is `c`, advance without
emitting. -/
def skipCharacter (text : List Char) (c : Char) (s : St) : Bool × St :=
  if chAt text s.i = some c then (true, ⟨s.i + 1, s.output⟩) else (false, s)

/-- `skipEllipsis`: skip whitespace, then an optional `...` with following
whitespace and an optional comma; nothing is emitted for the ellipsis. -/
def skipEllipsis (text : List Char) (s : St) : St :=
  let s := parseWhitespaceAndSkipComments text s
  if chAt text s.i = some '.' && chAt text (s.i + 1) = some '.'
      && chAt text (s.i + 2) = some '.' then
    let s := parseWhitespaceAndSkipComments text ⟨s.i + 3, s.output⟩
    (skipCharacter text ',' s).2
  else s

/-- `parseKeyword`: match `name` literally at the cursor and emit `value`. -/
def parseKeyword (text : List Char) (name value : List Char) (s : St) : Bool × St :=
  if sliceTxt text s.i (s.i + name.length) = name then
    (true, ⟨s.i + name.length, s.output ++ value⟩)
  else (false, s)

/-- `parseKeywords`: `true`, `false`, `null`, then the Python keywords
`True` to `true`, `False` to `false`, `None` to `null`, in source order. -/
def parseKeywords (text : List Char) (s : St) : Bool × St :=
  let step := fun (r : Bool × St) (nv : List Char × List Char) =>
    if r.1 then r else parseKeyword text nv.1 nv.2 r.2
  [("true".data, "true".data), ("false".data, "false".data), ("null".data, "null".data),
   ("True".data, "true".data), ("False".data, "false".data), ("None".data, "null".data)
  ].foldl step (false, s)

/-- Number of leading decimal digits of `l` (the digit loops of
`parseNumber`). -/
def digitsCount : List Char → Nat
  | c :: rest => if isDigit c then 1 + digitsCount rest else 0
  | [] => 0

/-- `atEndOfNumber`: end of input, a delimiter, or whitespace. -/
def atEndOfNumber (text : List Char) (i : Nat) : Bool :=
  decide (i ≥ text.length) || optIs isDelimiter (chAt text i) || optIs isWhitespace (chAt text i)

/-- The test of the regular expression `^0\d` used by `parseNumber` for the
leading-zero repair. -/
def hasInvalidLeadingZero : List Char → Bool
  | c :: d :: _ => c = '0' && isDigit d
  | _ => false

/-- `repairNumberEndingWithNumericSymbol`: emit the consumed slice followed
by a `0`. -/
def repairNumberEndingWithNumericSymbol (text : List Char) (start i : Nat) (out : List Char) :
    List Char :=
  out ++ sliceTxt text start i ++ ['0']

/-- The common exit of `parseNumber` (its last lines): if the cursor `i` is
not at the end of a number, rewind to the entry state and fail; otherwise,
when something was consumed, emit the consumed slice, quoted when the
leading-zero test fires. -/
def numberEnd (text : List Char) (s : St) (start i : Nat) : Bool × St :=
  if atEndOfNumber text i then
    if i > start then
      (true, ⟨i, s.output ++
        (if hasInvalidLeadingZero (sliceTxt text start i) then jsStringify (sliceTxt text start i)
         else sliceTxt text start i)⟩)
    else (false, s)
  else (false, s)

/-- The body of the exponent section of `parseNumber`, after the optional
sign: the truncation repair at the end of the run, or required digits;
control then falls to the common exit. -/
def numberExpTail (text : List Char) (s : St) (start i4 : Nat) : Bool × St :=
  if atEndOfNumber text i4 then
    (true, ⟨i4, repairNumberEndingWithNumericSymbol text start i4 s.output⟩)
  else if optIs isDigit (chAt text i4) then
    numberEnd text s start (i4 + digitsCount (text.drop i4))
  else (false, s)

/-- The exponent section of `parseNumber`: on `e`/`E`, skip an optional
sign and run the section body. -/
def numberExp (text : List Char) (s : St) (start i3 : Nat) : Bool × St :=
  if chAt text i3 = some 'e' || chAt text i3 = some 'E' then
    numberExpTail text s start
      (if chAt text (i3 + 1) = some '-' || chAt text (i3 + 1) = some '+'
       then i3 + 2 else i3 + 1)
  else numberEnd text s start i3

/-- The fraction section of `parseNumber`: on `.`, the truncation repair at
the end of the run, or required digits; control then falls to the exponent
section. -/
def numberFrac (text : List Char) (s : St) (start i2 : Nat) : Bool × St :=
  if chAt text i2 = some '.' then
    if atEndOfNumber text (i2 + 1) then
      (true, ⟨i2 + 1, repairNumberEndingWithNumericSymbol text start (i2 + 1) s.output⟩)
    else if optIs isDigit (chAt text (i2 + 1)) then
      numberExp text s start (i2 + 1 + digitsCount (text.drop (i2 + 1)))
    else (false, s)
  else numberExp text s start i2

/-- `parseNumber`: optional minus (with the truncation repair when the run
ends right after it), integer digits, then the fraction and exponent
sections and the common exit.  Every failure path returns with the state
exactly as at entry (the source's `i = start; return false`, which never
touches the output). -/
def parseNumber (text : List Char) (s : St) : Bool × St :=
  let start := s.i
  if chAt text s.i = some '-' then
    if atEndOfNumber text (s.i + 1) then
      (true, ⟨s.i + 1, repairNumberEndingWithNumericSymbol text start (s.i + 1) s.output⟩)
    else if optIs isDigit (chAt text (s.i + 1)) then
      numberFrac text s start (s.i + 1 + digitsCount (text.drop (s.i + 1)))
    else (false, s)
  else
    numberFrac text s start (s.i + digitsCount (text.drop s.i))

/-- The four possible relations between what `parseNumber` emits and what it
consumed, for a call entered at state `s` with checkpoint `start`: failure
restores the entry state exactly; success appends the consumed slice
verbatim, or quoted (leading-zero repair), or followed by a fabricated `0`,
the latter only when the character before the final cursor is `-`, `.`,
`e`, `E` or `+` and the run ends there. -/
def NumberShape (text : List Char) (s : St) (start : Nat) (r : Bool × St) : Prop :=
  r = (false, s) ∨
  (r.1 = true ∧ r.2.output = s.output ++ sliceTxt text start r.2.i) ∨
  (r.1 = true ∧ r.2.output = s.output ++ jsStringify (sliceTxt text start r.2.i)) ∨
  (r.1 = true ∧ r.2.output = s.output ++ sliceTxt text start r.2.i ++ ['0'] ∧
    optIs (fun c => c = '-' || c = '.' || c = 'e' || c = 'E' || c = '+')
      (chAt text (r.2.i - 1)) = true ∧
    atEndOfNumber text r.2.i = true)

/-- `prevNonWhitespaceIndex`: step back over whitespace, stopping at
index 0. -/
def prevNonWhitespaceIndex (text : List Char) : Nat → Nat
  | 0 => 0
  | k + 1 =>
    if optIs isWhitespace (chAt text (k + 1)) then prevNonWhitespaceIndex text k else k + 1

/-- The backward trim of `parseUnquotedString`: step `i` back while the
previous character is whitespace (stopping at 0). -/
def trimTrailingWs (text : List Char) : Nat → Nat
  | 0 => 0
  | k + 1 => if optIs isWhitespace (chAt text k) then trimTrailingWs text k else k + 1

/-- Length of the unquoted-string run: characters up to the first
delimiter-except-slash or quote, or the end of the text
(the scanning loop of `parseUnquotedString`). -/
def unquotedRunCount : List Char → Nat
  | c :: rest =>
    if !isDelimiterExceptSlash c && !isQuote c then 1 + unquotedRunCount rest else 0
  | [] => 0

/-- The end-quote class chosen by `parseString` from the opening quote
character: ASCII double quote matches only ASCII double quote, ASCII single
quote only ASCII single quote, any other single-quote-like opening matches
any single-quote-like closing, and any other opening (double-quote-like)
matches any double-quote-like closing. -/
inductive QuoteKind where
  | double
  | single
  | singleLike
  | doubleLike
deriving Repr, DecidableEq

/-- The nested conditional of `parseString` selecting the end-quote class. -/
def endQuoteKindOf (c : Char) : QuoteKind :=
  if isDoubleQuote c then .double
  else if isSingleQuote c then .single
  else if isSingleQuoteLike c then .singleLike
  else .doubleLike

/-- The classifier a given end-quote class stands for. -/
def QuoteKind.check : QuoteKind → Char → Bool
  | .double, c => isDoubleQuote c
  | .single, c => isSingleQuote c
  | .singleLike, c => isSingleQuoteLike c
  | .doubleLike, c => isDoubleQuoteLike c

/-- The value of `j` after the hex loop of the `\u` escape handling: it
starts at 2 and counts up below 6 while the character at `i + j` is a hex
digit. -/
def hexRunLen (text : List Char) (i : Nat) : Nat :=
  if !optIs isHex (chAt text (i + 2)) then 2
  else if !optIs isHex (chAt text (i + 3)) then 3
  else if !optIs isHex (chAt text (i + 4)) then 4
  else if !optIs isHex (chAt text (i + 5)) then 5
  else 6

/-- The `controlCharacters` table: the standard JSON escape of the five
named control characters. -/
def controlEscape (c : Char) : List Char :=
  if c = '\x08' then ['\\', 'b']
  else if c = '\x0c' then ['\\', 'f']
  else if c = '\n' then ['\\', 'n']
  else if c = '\r' then ['\\', 'r']
  else if c = '\t' then ['\\', 't']
  else []

/-- `skipEscapeCharacter` guarded by the `skipEscapeChars` flag, as run at
the bottom of every non-returning iteration of the string loop. -/
def skipEscapeStep (text : List Char) (skipEsc : Bool) (s : St) : St :=
  if skipEsc && chAt text s.i = some '\\' then ⟨s.i + 1, s.output⟩ else s

/-! ## The mutually recursive recognizers

The source's mutually recursive procedures share the cursor and the output
buffer.  They are embedded as a single fuel-indexed function `run` over an
explicit request type, one constructor per procedure (plus one per source
`while` loop, which becomes recursion), so that the whole machine is a
structural recursion on the fuel and reduces inside the kernel.  Recognizers
return `(processed, state)`; the loop requests return the state with a dummy
`true`. -/

/-- A call into the mutually recursive part of the parser. -/
inductive Req where
  | value (s : St)
  | obj (s : St)
  | objLoop (initial : Bool) (s : St)
  | arr (s : St)
  | arrLoop (initial : Bool) (s : St)
  | str (stopAtDelimiter : Bool) (s : St)
  | strLoop (stopAtDelimiter skipEsc : Bool) (kind : QuoteKind)
      (iBefore oBefore : Nat) (str : List Char) (s : St)
  | concat (s : St)
  | concatLoop (processed : Bool) (s : St)
  | unquoted (s : St)
  | ndjsonLoop (initial : Bool) (s : St)

/-- One fuel-indexed interpreter for the mutually recursive procedures of
`jsonrepair` (`parseValue`, `parseObject`, `parseArray`, `parseString`,
`parseConcatenatedString`, `parseUnquotedString` and the loop of
`parseNewlineDelimitedJSON`), transcribed arm by arm from the source. -/
def run (text : List Char) : Nat → Req → M (Bool × St)
  | 0, _ => .error .outOfFuel
  | fuel + 1, .value s =>
    -- parseValue: whitespace, the six recognizers in source order, whitespace
    let s := parseWhitespaceAndSkipComments text s
    do
      let (p, s) ← run text fuel (.obj s)
      let (p, s) ← if p then pure (p, s) else run text fuel (.arr s)
      let (p, s) ← if p then pure (p, s) else run text fuel (.str false s)
      let (p, s) := if p then (p, s) else parseNumber text s
      let (p, s) := if p then (p, s) else parseKeywords text s
      let (p, s) ← if p then pure (p, s) else run text fuel (.unquoted s)
      let s := parseWhitespaceAndSkipComments text s
      pure (p, s)
  | fuel + 1, .obj s =>
    -- parseObject: opening brace, leading-comma repair, member loop, closer
    if chAt text s.i = some '\x7b' then do
      let s : St := ⟨s.i + 1, s.output ++ ['\x7b']⟩
      let s := parseWhitespaceAndSkipComments text s
      let (pc, s) := skipCharacter text ',' s
      let s := if pc then parseWhitespaceAndSkipComments text s else s
      let (_, s) ← run text fuel (.objLoop true s)
      if chAt text s.i = some '\x7d' then
        pure (true, (⟨s.i + 1, s.output ++ ['\x7d']⟩ : St))
      else
        pure (true, (⟨s.i, insertBeforeLastWhitespace s.output ['\x7d']⟩ : St))
    else pure (false, s)
  | fuel + 1, .objLoop initial s =>
    -- the member loop of parseObject
    if decide (s.i < text.length) && !(chAt text s.i = some '\x7d') then do
      let s ←
        if initial then pure s
        else do
          let (pc, s) := parseCharacter text ',' s
          let s : St := if pc then s else ⟨s.i, insertBeforeLastWhitespace s.output [',']⟩
          pure (parseWhitespaceAndSkipComments text s)
      let s := skipEllipsis text s
      let (key1, s) ← run text fuel (.str false s)
      let (processedKey, s) ← if key1 then pure (key1, s) else run text fuel (.unquoted s)
      if !processedKey then
        if chAt text s.i = some '\x7d' || chAt text s.i = some '\x7b' ||
            chAt text s.i = some ']' || chAt text s.i = some '[' ||
            chAt text s.i = none then
          -- repair trailing comma, then break out of the loop
          pure (true, (⟨s.i, stripLastOccurrence s.output ',' false⟩ : St))
        else .error (.err ⟨"Object key expected", s.i⟩)
      else do
        let s := parseWhitespaceAndSkipComments text s
        let (processedColon, s) := parseCharacter text ':' s
        let truncatedText := decide (s.i ≥ text.length)
        let s ←
          if processedColon then pure s
          else if optIs isStartOfValue (chAt text s.i) || truncatedText then
            pure (⟨s.i, insertBeforeLastWhitespace s.output [':']⟩ : St)
          else .error (.err ⟨"Colon expected", s.i⟩)
        let (processedValue, s) ← run text fuel (.value s)
        let s ←
          if processedValue then pure s
          else if processedColon || truncatedText then
            pure (⟨s.i, s.output ++ "null".data⟩ : St)
          else .error (.err ⟨"Colon expected", s.i⟩)
        run text fuel (.objLoop false s)
    else pure (true, s)
  | fuel + 1, .arr s =>
    -- parseArray: opening bracket, leading-comma repair, element loop, closer
    if chAt text s.i = some '[' then do
      let s : St := ⟨s.i + 1, s.output ++ ['[']⟩
      let s := parseWhitespaceAndSkipComments text s
      let (pc, s) := skipCharacter text ',' s
      let s := if pc then parseWhitespaceAndSkipComments text s else s
      let (_, s) ← run text fuel (.arrLoop true s)
      if chAt text s.i = some ']' then
        pure (true, (⟨s.i + 1, s.output ++ [']']⟩ : St))
      else
        pure (true, (⟨s.i, insertBeforeLastWhitespace s.output [']']⟩ : St))
    else pure (false, s)
  | fuel + 1, .arrLoop initial s =>
    -- the element loop of parseArray
    if decide (s.i < text.length) && !(chAt text s.i = some ']') then do
      let s : St :=
        if initial then s
        else
          let (pc, s) := parseCharacter text ',' s
          if pc then s else ⟨s.i, insertBeforeLastWhitespace s.output [',']⟩
      let s := skipEllipsis text s
      let (processedValue, s) ← run text fuel (.value s)
      if !processedValue then
        -- repair trailing comma, then break out of the loop
        pure (true, (⟨s.i, stripLastOccurrence s.output ',' false⟩ : St))
      else
        run text fuel (.arrLoop false s)
    else pure (true, s)
  | fuel + 1, .str stop s =>
    -- parseString entry: optional leading backslash, then a quote
    let (skipEsc, s) :=
      if chAt text s.i = some '\\' then (true, (⟨s.i + 1, s.output⟩ : St)) else (false, s)
    match chAt text s.i with
    | some c =>
      if isQuote c then
        run text fuel (.strLoop stop skipEsc (endQuoteKindOf c) s.i s.output.length
          ['"'] ⟨s.i + 1, s.output⟩)
      else pure (false, s)
    | none => pure (false, s)
  | fuel + 1, .strLoop stop skipEsc kind iBefore oBefore str s =>
    -- the while(true) loop of parseString
    if decide (s.i ≥ text.length) then
      -- end of text: the end quote is missing
      let iPrev := prevNonWhitespaceIndex text (s.i - 1)
      if !stop && optIs isDelimiter (chAt text iPrev) then
        run text fuel (.str true ⟨iBefore, s.output.take oBefore⟩)
      else
        pure (true, (⟨s.i, s.output ++ insertBeforeLastWhitespace str ['"']⟩ : St))
    else
      match chAt text s.i with
      | none => pure (true, s)  -- unreachable: the cursor is inside the text
      | some c =>
        if kind.check c then
          -- a candidate end quote
          let iQuote := s.i
          let oQuote := str.length
          let str := str ++ ['"']
          let s : St := ⟨s.i + 1, s.output ++ str⟩
          let s := parseWhitespaceAndSkipComments text s
          if stop || decide (s.i ≥ text.length) || optIs isDelimiter (chAt text s.i) ||
              optIs isQuote (chAt text s.i) || optIs isDigit (chAt text s.i) then do
            let (_, s) ← run text fuel (.concat s)
            pure (true, s)
          else if optIs isDelimiter (chAt text (prevNonWhitespaceIndex text (iQuote - 1))) then
            run text fuel (.str true ⟨iBefore, s.output.take oBefore⟩)
          else
            -- an unescaped quote inside the string: revert and escape it
            let s : St := ⟨iQuote + 1, s.output.take oBefore⟩
            let str := str.take oQuote ++ ['\\'] ++ str.drop oQuote
            run text fuel (.strLoop stop skipEsc kind iBefore oBefore str
              (skipEscapeStep text skipEsc s))
        else if stop && isDelimiter c then do
          let s : St := ⟨s.i, s.output ++ insertBeforeLastWhitespace str ['"']⟩
          let (_, s) ← run text fuel (.concat s)
          pure (true, s)
        else if c = '\\' then
          -- escaped content
          match chAt text (s.i + 1) with
          | some e =>
            if e = '"' || e = '\\' || e = '/' || e = 'b' || e = 'f' ||
                e = 'n' || e = 'r' || e = 't' then
              run text fuel (.strLoop stop skipEsc kind iBefore oBefore
                (str ++ sliceTxt text s.i (s.i + 2))
                (skipEscapeStep text skipEsc ⟨s.i + 2, s.output⟩))
            else if e = 'u' then
              let j := hexRunLen text s.i
              if j = 6 then
                run text fuel (.strLoop stop skipEsc kind iBefore oBefore
                  (str ++ sliceTxt text s.i (s.i + 6))
                  (skipEscapeStep text skipEsc ⟨s.i + 6, s.output⟩))
              else if decide (s.i + j ≥ text.length) then
                -- truncated unicode escape at the end: drop it, jump to the end
                run text fuel (.strLoop stop skipEsc kind iBefore oBefore str
                  (skipEscapeStep text skipEsc ⟨text.length, s.output⟩))
              else
                .error (.err ⟨"Invalid unicode character \"" ++
                  String.mk (sliceTxt text s.i (s.i + 6)) ++ "\"", s.i⟩)
            else
              -- invalid escape character: drop the backslash
              run text fuel (.strLoop stop skipEsc kind iBefore oBefore (str ++ [e])
                (skipEscapeStep text skipEsc ⟨s.i + 2, s.output⟩))
          | none =>
            -- charAt past the end is the empty string: nothing is appended
            run text fuel (.strLoop stop skipEsc kind iBefore oBefore str
              (skipEscapeStep text skipEsc ⟨s.i + 2, s.output⟩))
        else
          -- regular characters
          if c = '"' && !(chAt text (s.i - 1) = some '\\') then
            run text fuel (.strLoop stop skipEsc kind iBefore oBefore (str ++ ['\\', '"'])
              (skipEscapeStep text skipEsc ⟨s.i + 1, s.output⟩))
          else if isControlCharacter c then
            run text fuel (.strLoop stop skipEsc kind iBefore oBefore (str ++ controlEscape c)
              (skipEscapeStep text skipEsc ⟨s.i + 1, s.output⟩))
          else if !isValidStringCharacter c then
            .error (.err ⟨"Invalid character " ++ String.mk (jsStringify [c]), s.i⟩)
          else
            run text fuel (.strLoop stop skipEsc kind iBefore oBefore (str ++ [c])
              (skipEscapeStep text skipEsc ⟨s.i + 1, s.output⟩))
  | fuel + 1, .concat s =>
    -- parseConcatenatedString: whitespace, then the plus loop
    run text fuel (.concatLoop false (parseWhitespaceAndSkipComments text s))
  | fuel + 1, .concatLoop processed s =>
    -- the plus loop of parseConcatenatedString
    if chAt text s.i = some '+' then do
      let s := parseWhitespaceAndSkipComments text ⟨s.i + 1, s.output⟩
      let out := stripLastOccurrence s.output '"' true
      let start := out.length
      let (parsedStr, s) ← run text fuel (.str false ⟨s.i, out⟩)
      if parsedStr then
        run text fuel (.concatLoop true ⟨s.i, removeAtIndex s.output start 1⟩)
      else
        run text fuel (.concatLoop true ⟨s.i, insertBeforeLastWhitespace s.output ['"']⟩)
    else pure (processed, s)
  | fuel + 1, .unquoted s =>
    -- parseUnquotedString: scan to a delimiter or quote; either a function
    -- call wrapper, or an unquoted string emitted as a JSON string
    let start := s.i
    let j := s.i + unquotedRunCount (text.drop s.i)
    if j > start then
      if chAt text j = some '(' && isFunctionName (jsTrim (sliceTxt text start j)) then do
        let (_, s) ← run text fuel (.value ⟨j + 1, s.output⟩)
        let s : St :=
          if chAt text s.i = some ')' then
            if chAt text (s.i + 1) = some ';' then ⟨s.i + 2, s.output⟩
            else ⟨s.i + 1, s.output⟩
          else s
        pure (true, s)
      else
        let k := trimTrailingWs text j
        let symbol := sliceTxt text start k
        let out := s.output ++
          (if symbol = "undefined".data then "null".data else jsStringify symbol)
        pure (true, (if chAt text k = some '"' then (⟨k + 1, out⟩ : St) else ⟨k, out⟩))
    else pure (false, s)
  | fuel + 1, .ndjsonLoop initial s => do
    -- the loop of parseNewlineDelimitedJSON
    let s : St :=
      if initial then s
      else
        let (pc, s) := parseCharacter text ',' s
        if pc then s else ⟨s.i, insertBeforeLastWhitespace s.output [',']⟩
    let (processedValue, s) ← run text fuel (.value s)
    if processedValue then run text fuel (.ndjsonLoop false s) else pure (true, s)

/-- `parseValue` of the source. -/
def parseValue (text : List Char) (fuel : Nat) (s : St) : M (Bool × St) :=
  run text fuel (.value s)

/-- `parseString` of the source. -/
def parseString (text : List Char) (fuel : Nat) (stopAtDelimiter : Bool) (s : St) :
    M (Bool × St) :=
  run text fuel (.str stopAtDelimiter s)

/-- `parseUnquotedString` of the source. -/
def parseUnquotedString (text : List Char) (fuel : Nat) (s : St) : M (Bool × St) :=
  run text fuel (.unquoted s)

/-- `parseNewlineDelimitedJSON`: drive the NDJSON loop, strip the trailing
comma, and wrap the whole output in brackets with surrounding newlines. -/
def parseNewlineDelimitedJSON (text : List Char) (fuel : Nat) (s : St) : M St :=
  match run text fuel (.ndjsonLoop true s) with
  | .error e => .error e
  | .ok (_, s) =>
    .ok ⟨s.i, '[' :: '\n' :: stripLastOccurrence s.output ',' false ++ ['\n', ']']⟩

/-- The loop of the top-level driver skipping redundant closing braces and
brackets (with whitespace between them); each iteration consumes at least
one character, so the fuel `text.length + 1` never runs out. -/
def closersLoop (text : List Char) : Nat → St → St
  | 0, s => s
  | fuel + 1, s =>
    if chAt text s.i = some '\x7d' || chAt text s.i = some ']' then
      closersLoop text fuel (parseWhitespaceAndSkipComments text ⟨s.i + 1, s.output⟩)
    else s

/-- A call-depth bound dominating the recursion depth of the source parser
on `text` (every loop iteration and every nesting level consumes input). -/
def repairFuel (text : List Char) : Nat := 32 * (text.length + 8)

/-- The last lines of the top-level driver: skip stray closers; if the
cursor reached the end of the input, return the output, otherwise raise
`Unexpected character` at the cursor. -/
def jsonrepairEnd (text : List Char) (s : St) : M (List Char) :=
  if decide ((closersLoop text (text.length + 1) s).i ≥ text.length) then
    .ok (closersLoop text (text.length + 1) s).output
  else
    .error (.err ⟨"Unexpected character " ++
      String.mk (jsStringifyOpt (chAt text (closersLoop text (text.length + 1) s).i)),
      (closersLoop text (text.length + 1) s).i⟩)

/-- The top-level driver of `jsonrepair`, at a given fuel bound: one root
value (else `Unexpected end of json string`), an optional trailing comma,
the newline-delimited JSON repair when another value starts and the output
ends with a comma or newline, otherwise the trailing-comma strip, then the
final stray-closer and end-of-input handling. -/
def jsonrepairFueled (text : List Char) (fuel : Nat) : M (List Char) :=
  match run text fuel (.value ⟨0, []⟩) with
  | .error e => .error e
  | .ok (processed, s0) =>
    if !processed then .error (.err ⟨"Unexpected end of json string", text.length⟩)
    else
      let processedComma := (parseCharacter text ',' s0).1
      let s1 := (parseCharacter text ',' s0).2
      let s := if processedComma then parseWhitespaceAndSkipComments text s1 else s1
      if optIs isStartOfValue (chAt text s.i) && endsWithCommaOrNewline s.output then
        match parseNewlineDelimitedJSON text fuel
            (if !processedComma then ⟨s.i, insertBeforeLastWhitespace s.output [',']⟩ else s) with
        | .error e => .error e
        | .ok s2 => jsonrepairEnd text s2
      else if processedComma then
        jsonrepairEnd text ⟨s.i, stripLastOccurrence s.output ',' false⟩
      else jsonrepairEnd text s

/-- `jsonrepair`: run the parser with a fuel bound ample for its input. -/
def jsonrepair (text : List Char) : M (List Char) :=
  jsonrepairFueled text (repairFuel text)

/-- `jsonrepair` on Lean strings. -/
def jsonrepairStr (s : String) : M String :=
  (jsonrepair s.data).map fun l => String.mk l

/-! ## A strict JSON parser (RFC 8259)

The spec states its output invariant against "a strict JSON parser"; the
following acceptor is the formalization of that reference grammar (it is a
spec-side definition, not part of the repository's code): a document is
optional whitespace, exactly one value, optional whitespace. -/

/-- Strict JSON whitespace run length (space, tab, LF, CR). -/
def strictWsCount : List Char → Nat
  | c :: rest =>
    if c = ' ' || c = '\t' || c = '\n' || c = '\r' then 1 + strictWsCount rest else 0
  | [] => 0

/-- Strict JSON string body: number of characters up to and including the
closing quote, starting right after the opening quote; `none` when the body
is not valid. -/
def strictStringBody : List Char → Option Nat
  | [] => none
  | c :: rest =>
    if c = '"' then some 1
    else if c = '\\' then
      match rest with
      | [] => none
      | e :: rest1 =>
        if e = '"' || e = '\\' || e = '/' || e = 'b' || e = 'f' ||
            e = 'n' || e = 'r' || e = 't' then
          (strictStringBody rest1).map (· + 2)
        else if e = 'u' then
          match rest1 with
          | h1 :: h2 :: h3 :: h4 :: rest2 =>
            if isHex h1 && isHex h2 && isHex h3 && isHex h4 then
              (strictStringBody rest2).map (· + 6)
            else none
          | _ => none
        else none
    else if 0x20 ≤ c.toNat then (strictStringBody rest).map (· + 1)
    else none

/-- Strict JSON integer part: `0`, or a nonzero digit followed by digits. -/
def strictIntLen : List Char → Option Nat
  | c :: rest =>
    if c = '0' then some 1
    else if isDigit c then some (1 + digitsCount rest) else none
  | [] => none

/-- Strict JSON fraction part: absent, or `.` with at least one digit. -/
def strictFracLen : List Char → Option Nat
  | c :: rest =>
    if c = '.' then
      if digitsCount rest = 0 then none else some (1 + digitsCount rest)
    else some 0
  | [] => some 0

/-- Strict JSON exponent digits, after the `e`/`E`: an optional sign and at
least one digit. -/
def strictExpDigits : List Char → Option Nat
  | c :: r2 =>
    if c = '-' || c = '+' then
      if digitsCount r2 = 0 then none else some (2 + digitsCount r2)
    else
      if digitsCount (c :: r2) = 0 then none else some (1 + digitsCount (c :: r2))
  | [] => none

/-- Strict JSON exponent part: absent, or `e`/`E` followed by the exponent
digits. -/
def strictExpLen : List Char → Option Nat
  | e :: rest => if e = 'e' || e = 'E' then strictExpDigits rest else some 0
  | [] => some 0

/-- Strict JSON number token after the optional sign: integer part,
fraction, exponent. -/
def strictNumTail (l : List Char) : Option Nat :=
  match strictIntLen l with
  | none => none
  | some n =>
    match strictFracLen (l.drop n) with
    | none => none
    | some fr =>
      match strictExpLen (l.drop (n + fr)) with
      | none => none
      | some ex => some (n + fr + ex)

/-- Strict JSON number token length at the head of `l` (`none` when no valid
number starts there): optional minus, then integer, fraction and exponent
parts. -/
def strictNumberLen (l : List Char) : Option Nat :=
  match l with
  | c :: rest => if c = '-' then (strictNumTail rest).map (· + 1) else strictNumTail l
  | [] => strictNumTail l

/-- A call into the strict JSON structural parser: a value at an index, or
the continuation of an array or object after an element or member, or one
object member. -/
inductive SReq where
  | val (i : Nat)
  | arrRest (i : Nat)
  | objRest (i : Nat)
  | oneMember (i : Nat)

/-- Strict JSON structural parser: returns the index right after the parsed
construct, or `none`. -/
def strictRun (text : List Char) : Nat → SReq → Option Nat
  | 0, _ => none
  | f + 1, .val i =>
    match chAt text i with
    | some c =>
      if c = '\x7b' then
        let j := i + 1 + strictWsCount (text.drop (i + 1))
        if chAt text j = some '\x7d' then some (j + 1)
        else do
          let k ← strictRun text f (.oneMember j)
          strictRun text f (.objRest k)
      else if c = '[' then
        let j := i + 1 + strictWsCount (text.drop (i + 1))
        if chAt text j = some ']' then some (j + 1)
        else do
          let k ← strictRun text f (.val j)
          strictRun text f (.arrRest k)
      else if c = '"' then (strictStringBody (text.drop (i + 1))).map fun n => i + 1 + n
      else if c = 't' then
        if sliceTxt text i (i + 4) = "true".data then some (i + 4) else none
      else if c = 'f' then
        if sliceTxt text i (i + 5) = "false".data then some (i + 5) else none
      else if c = 'n' then
        if sliceTxt text i (i + 4) = "null".data then some (i + 4) else none
      else if c = '-' || isDigit c then
        (strictNumberLen (text.drop i)).map fun n => i + n
      else none
    | none => none
  | f + 1, .oneMember i =>
    if chAt text i = some '"' then do
      let n ← strictStringBody (text.drop (i + 1))
      let j := i + 1 + n + strictWsCount (text.drop (i + 1 + n))
      if chAt text j = some ':' then
        strictRun text f (.val (j + 1 + strictWsCount (text.drop (j + 1))))
      else none
    else none
  | f + 1, .arrRest i =>
    let j := i + strictWsCount (text.drop i)
    if chAt text j = some ']' then some (j + 1)
    else if chAt text j = some ',' then do
      let m ← strictRun text f (.val (j + 1 + strictWsCount (text.drop (j + 1))))
      strictRun text f (.arrRest m)
    else none
  | f + 1, .objRest i =>
    let j := i + strictWsCount (text.drop i)
    if chAt text j = some '\x7d' then some (j + 1)
    else if chAt text j = some ',' then do
      let m ← strictRun text f (.oneMember (j + 1 + strictWsCount (text.drop (j + 1))))
      strictRun text f (.objRest m)
    else none

/-- Whether `text` is a single strict-JSON document, possibly surrounded by
whitespace. -/
def isStrictJsonDoc (text : List Char) : Bool :=
  let i := strictWsCount text
  match strictRun text (2 * text.length + 2) (.val i) with
  | some j => decide (j + strictWsCount (text.drop j) = text.length)
  | none => false

/-- Length of the whitespace run of the input at position `p`. -/
def wsLen (text : List Char) (p : Nat) : Nat := (whitespaceRun (text.drop p)).2

/-- The position right after the whitespace run at position `p`. -/
def wEnd (text : List Char) (p : Nat) : Nat := p + wsLen text p

/-- The input contains no special whitespace characters. -/
def NoSpecialWs (text : List Char) : Prop := ∀ c ∈ text, isSpecialWhitespace c = false

/-- The character following position `q` (skipping whitespace) is one of the
structural characters that may follow a complete token in a strict JSON
document: the end of the input, a comma, a closing bracket or brace, or a
colon. -/
def CtxAfter (text : List Char) (q : Nat) : Prop :=
  chAt text (wEnd text q) = none ∨ chAt text (wEnd text q) = some ',' ∨
  chAt text (wEnd text q) = some ']' ∨ chAt text (wEnd text q) = some '\x7d' ∨
  chAt text (wEnd text q) = some ':'

/-- Simulation property for one strict value: the repair parser's `parseValue`,
entered at any position whose whitespace run ends where the strict value
starts, consumes the value and the whitespace after it, appending the
consumed input verbatim to the output. -/
def ValP (text : List Char) (N : Nat) : Prop :=
  ∀ i j p out F, strictRun text N (SReq.val i) = some j →
    wEnd text p = i → CtxAfter text j → 2 * (j - p) + 4 ≤ F →
    run text F (.value ⟨p, out⟩) =
      .ok (true, ⟨wEnd text j, out ++ sliceTxt text p (wEnd text j)⟩)

/-- Simulation property for the continuation of a strict object after a
member: the repair parser's member loop stops at the closing brace. -/
def ObjRestP (text : List Char) (N : Nat) : Prop :=
  ∀ k j out F, strictRun text N (SReq.objRest k) = some j →
    2 * (j - k) + 4 ≤ F →
    run text F (.objLoop false ⟨wEnd text k, out⟩) =
      .ok (true, ⟨j - 1, out ++ sliceTxt text (wEnd text k) (j - 1)⟩) ∧
    chAt text (j - 1) = some '\x7d'

/-- Simulation property for the continuation of a strict array after an
element: the repair parser's element loop stops at the closing bracket. -/
def ArrRestP (text : List Char) (N : Nat) : Prop :=
  ∀ k j out F, strictRun text N (SReq.arrRest k) = some j →
    2 * (j - k) + 4 ≤ F →
    run text F (.arrLoop false ⟨wEnd text k, out⟩) =
      .ok (true, ⟨j - 1, out ++ sliceTxt text (wEnd text k) (j - 1)⟩) ∧
    chAt text (j - 1) = some ']'

/-- The condition under which the string recognizer accepts a candidate end
quote in greedy mode: at the checked position the text has ended, or a
delimiter, a quote-like character or a digit follows. -/
def strEndCond (text : List Char) (q : Nat) : Bool :=
  decide (q ≥ text.length) || optIs isDelimiter (chAt text q) ||
    optIs isQuote (chAt text q) || optIs isDigit (chAt text q)

/-- A chain of plus-joined double-quoted strict string literals: from
position `a` (just after a closing quote), the text continues `k` times with
whitespace, a plus, whitespace and a double-quoted strict string body, ending
just after the `k`-th closing quote at position `e`; after the final
whitespace no further plus follows, and the character there lets the string
recognizer accept the last end quote. The list collects the chained string
bodies without their quotes. -/
inductive PlusChain (text : List Char) : Nat → Nat → List Char → Nat → Prop
  | nil (a : Nat) (hplus : ¬ chAt text (wEnd text a) = some '+')
      (hend : strEndCond text (wEnd text a) = true) : PlusChain text 0 a [] a
  | cons (k a q n : Nat) (rest : List Char) (e : Nat)
      (hplus : chAt text (wEnd text a) = some '+')
      (hqe : wEnd text (wEnd text a + 1) = q)
      (hq : chAt text q = some '"')
      (hbody : strictStringBody (text.drop (q + 1)) = some n)
      (htail : PlusChain text k (q + 1 + n) rest e) :
      PlusChain text (k + 1) a (sliceTxt text (q + 1) (q + n) ++ rest) e

/-! ## Helper lemmas -/

theorem mBindOk (a : α) (k : α → M β) : (Except.ok a : M α) >>= k = k a := rfl

theorem chAt_eof (text : List Char) (i : Nat) (h : text.length ≤ i) :
    chAt text i = none := by
  simp [chAt, List.get?_eq_none, h]

theorem drop_eof (text : List Char) (i : Nat) (h : text.length ≤ i) :
    text.drop i = [] := by
  simp [List.drop_eq_nil_iff, h]

theorem whitespaceRun_fst_len (l : List Char) :
    (whitespaceRun l).1.length = (whitespaceRun l).2 := by
  induction l with
  | nil => rfl
  | cons c rest ih =>
    unfold whitespaceRun
    split
    · simpa using ih
    · split
      · simpa using ih
      · rfl

theorem whitespaceRun_all (l : List Char)
    (h : ∀ c ∈ l, isWhitespace c = true ∨ isSpecialWhitespace c = true) :
    (whitespaceRun l).2 = l.length := by
  induction l with
  | nil => rfl
  | cons c rest ih =>
    unfold whitespaceRun
    have ih2 := ih fun c hc => h c (List.mem_cons_of_mem _ hc)
    rcases h c (List.mem_cons_self _ _) with hc | hc
    · simp [hc, ih2]
    · split
      · simpa using ih2
      · simp [hc, ih2]

theorem pwsc_at_eof (text : List Char) (s : St) (h : text.length ≤ s.i) :
    parseWhitespaceAndSkipComments text s = s := by
  unfold parseWhitespaceAndSkipComments parseWhitespace
  simp [drop_eof text s.i h, whitespaceRun]

theorem pwsc_i_all (text : List Char)
    (h : ∀ c ∈ text, isWhitespace c = true ∨ isSpecialWhitespace c = true) :
    (parseWhitespaceAndSkipComments text ⟨0, []⟩).i = text.length := by
  unfold parseWhitespaceAndSkipComments parseWhitespace
  split
  case isTrue hemp =>
    have h1 := whitespaceRun_fst_len (text.drop 0)
    have h2 := whitespaceRun_all (text.drop 0) (by simpa using h)
    simp only [List.isEmpty_iff] at hemp
    simp only [hemp] at h1
    simp at h1
    simp [← h1] at h2
    simp [h2]
  case isFalse hemp =>
    have h2 := whitespaceRun_all (text.drop 0) (by simpa using h)
    rw [List.drop_zero] at h2
    simp [h2]

theorem parseNumber_at_eof (text : List Char) (s : St) (h : text.length ≤ s.i) :
    parseNumber text s = (false, s) := by
  have hn := chAt_eof text s.i h
  have hd := drop_eof text s.i h
  unfold parseNumber numberFrac numberExp numberEnd
  simp [hn, hd, digitsCount, atEndOfNumber, h]

theorem parseKeywords_at_eof (text : List Char) (s : St) (h : text.length ≤ s.i) :
    parseKeywords text s = (false, s) := by
  have hs : ∀ m, sliceTxt text s.i m = [] := by
    intro m
    simp [sliceTxt, List.drop_eq_nil_iff]
    omega
  unfold parseKeywords parseKeyword
  simp [hs, List.foldl]

theorem run_value_eof (text : List Char) (f : Nat)
    (hall : ∀ c ∈ text, isWhitespace c = true ∨ isSpecialWhitespace c = true) :
    run text (f + 2) (.value ⟨0, []⟩) =
      .ok (false, parseWhitespaceAndSkipComments text ⟨0, []⟩) := by
  have hi : (parseWhitespaceAndSkipComments text ⟨0, []⟩).i = text.length :=
    pwsc_i_all text hall
  have hle : text.length ≤ (parseWhitespaceAndSkipComments text ⟨0, []⟩).i :=
    le_of_eq hi.symm
  have hn := chAt_eof text _ hle
  have hd := drop_eof text _ hle
  simp only [run]
  simp [hn, hd, mBindOk, parseNumber_at_eof text _ hle, parseKeywords_at_eof text _ hle,
    pwsc_at_eof text _ hle, unquotedRunCount]
  rfl

theorem numberEnd_shape (text : List Char) (s : St) (start i : Nat) :
    NumberShape text s start (numberEnd text s start i) := by
  unfold NumberShape numberEnd
  split
  · split
    · split
      · right ; right ; left ; exact ⟨rfl, rfl⟩
      · right ; left ; exact ⟨rfl, rfl⟩
    · left ; rfl
  · left ; rfl

theorem numberExpTail_shape (text : List Char) (s : St) (start i4 : Nat)
    (h : optIs (fun c => c = '-' || c = '.' || c = 'e' || c = 'E' || c = '+')
      (chAt text (i4 - 1)) = true) :
    NumberShape text s start (numberExpTail text s start i4) := by
  unfold numberExpTail
  split
  case isTrue hend =>
    unfold NumberShape
    right ; right ; right
    exact ⟨rfl, rfl, h, hend⟩
  case isFalse hend =>
    split
    · exact numberEnd_shape text s start _
    · unfold NumberShape ; left ; rfl

theorem numberExp_shape (text : List Char) (s : St) (start i3 : Nat) :
    NumberShape text s start (numberExp text s start i3) := by
  unfold numberExp
  split
  case isTrue he =>
    apply numberExpTail_shape
    split
    case isTrue hsign =>
      rcases (by simpa using hsign :
          chAt text (i3 + 1) = some '-' ∨ chAt text (i3 + 1) = some '+') with h | h <;>
        simp [optIs, h]
    case isFalse hsign =>
      rcases (by simpa using he :
          chAt text i3 = some 'e' ∨ chAt text i3 = some 'E') with h | h <;>
        simp [optIs, h]
  case isFalse he => exact numberEnd_shape text s start i3

theorem numberFrac_shape (text : List Char) (s : St) (start i2 : Nat) :
    NumberShape text s start (numberFrac text s start i2) := by
  unfold numberFrac
  split
  case isTrue hdot =>
    split
    case isTrue hend =>
      unfold NumberShape
      right ; right ; right
      exact ⟨rfl, rfl, by simp [optIs, hdot], hend⟩
    case isFalse hend =>
      split
      · exact numberExp_shape text s start _
      · unfold NumberShape ; left ; rfl
  case isFalse hdot => exact numberExp_shape text s start i2

theorem parseNumber_shape (text : List Char) (s : St) :
    NumberShape text s s.i (parseNumber text s) := by
  unfold parseNumber
  split
  case isTrue hminus =>
    split
    case isTrue hend =>
      unfold NumberShape
      right ; right ; right
      exact ⟨rfl, rfl, by simp [optIs, hminus], hend⟩
    case isFalse hend =>
      split
      · exact numberFrac_shape text s s.i _
      · unfold NumberShape ; left ; rfl
  case isFalse hminus => exact numberFrac_shape text s s.i _

/-! ### Slice and whitespace lemmas -/

theorem chAt_drop (text : List Char) (p n : Nat) :
    (text.drop p).get? n = chAt text (p + n) := by
  simp [chAt, List.get?_eq_getElem?, List.getElem?_drop]

theorem sliceTxt_nil (text : List Char) (a : Nat) : sliceTxt text a a = [] := by
  simp [sliceTxt, List.drop_eq_nil_iff]

theorem sliceTxt_alt (text : List Char) (a b : Nat) :
    sliceTxt text a b = (text.drop a).take (b - a) := by
  simp [sliceTxt, List.drop_take]

theorem sliceTxt_drop_take (text : List Char) (p n : Nat) :
    (text.drop p).take n = sliceTxt text p (p + n) := by
  simp [sliceTxt_alt]

theorem sliceTxt_append (text : List Char) (a b c : Nat) (hab : a ≤ b) (hbc : b ≤ c) :
    sliceTxt text a b ++ sliceTxt text b c = sliceTxt text a c := by
  rw [sliceTxt_alt text a b, sliceTxt_alt text b c, sliceTxt_alt text a c,
    show c - a = (b - a) + (c - b) by omega, List.take_add]
  congr 2
  rw [List.drop_drop, show a + (b - a) = b by omega]

theorem sliceTxt_cons (text : List Char) (a b : Nat) (c : Char)
    (hc : chAt text a = some c) (hab : a < b) :
    sliceTxt text a b = c :: sliceTxt text (a + 1) b := by
  have ha : a < text.length := by
    by_contra hl
    rw [chAt_eof text a (by omega)] at hc
    cases hc
  rw [sliceTxt_alt text a b, sliceTxt_alt text (a + 1) b,
    List.drop_eq_getElem_cons ha, show b - a = (b - (a + 1)) + 1 by omega]
  simp only [List.take_succ_cons]
  congr 1
  simp only [chAt, List.get?_eq_getElem?, List.getElem?_eq_getElem ha, Option.some.injEq] at hc
  exact hc

theorem sliceTxt_one (text : List Char) (a : Nat) (c : Char) (hc : chAt text a = some c) :
    sliceTxt text a (a + 1) = [c] := by
  rw [sliceTxt_cons text a (a + 1) c hc (by omega), sliceTxt_nil]

theorem sliceTxt_snoc (text : List Char) (a b : Nat) (c : Char)
    (hc : chAt text b = some c) (hab : a ≤ b) :
    sliceTxt text a (b + 1) = sliceTxt text a b ++ [c] := by
  rw [← sliceTxt_one text b c hc, sliceTxt_append text a b (b + 1) hab (by omega)]

theorem sliceTxt_full (text : List Char) : sliceTxt text 0 text.length = text := by
  simp [sliceTxt]

theorem whitespaceRun_fst_verbatim (l : List Char)
    (h : ∀ c ∈ l, isSpecialWhitespace c = false) :
    (whitespaceRun l).1 = l.take (whitespaceRun l).2 := by
  induction l with
  | nil => rfl
  | cons c rest ih =>
    have hc := h c (List.mem_cons_self _ _)
    have ih2 := ih fun c hm => h c (List.mem_cons_of_mem _ hm)
    unfold whitespaceRun
    split
    · simp [ih2]
    · rw [if_neg (by simp [hc])]
      rfl

theorem whitespaceRun_stop (l : List Char) :
    ∀ c, l.get? (whitespaceRun l).2 = some c →
      isWhitespace c = false ∧ isSpecialWhitespace c = false := by
  induction l with
  | nil => intro c h ; cases h
  | cons a rest ih =>
    unfold whitespaceRun
    split
    case isTrue ha => intro c h ; exact ih c (by simpa using h)
    case isFalse ha =>
      split
      case isTrue hsp => intro c h ; exact ih c (by simpa using h)
      case isFalse hsp =>
        intro c h
        simp at h
        subst h
        exact ⟨by simpa using ha, by simpa using hsp⟩

theorem wEnd_ge (text : List Char) (p : Nat) : p ≤ wEnd text p :=
  Nat.le_add_right p _

theorem chAt_wEnd_not_ws (text : List Char) (p : Nat) (c : Char)
    (h : chAt text (wEnd text p) = some c) :
    isWhitespace c = false ∧ isSpecialWhitespace c = false := by
  apply whitespaceRun_stop (text.drop p)
  rw [chAt_drop]
  exact h

theorem pwsc_eq (text : List Char) (p : Nat) (out : List Char) (hns : NoSpecialWs text) :
    parseWhitespaceAndSkipComments text ⟨p, out⟩ =
      ⟨wEnd text p, out ++ sliceTxt text p (wEnd text p)⟩ := by
  unfold parseWhitespaceAndSkipComments parseWhitespace
  have hv := whitespaceRun_fst_verbatim (text.drop p)
    fun c hc => hns c (List.mem_of_mem_drop hc)
  split
  case isTrue hemp =>
    have h0 : (whitespaceRun (text.drop p)).2 = 0 := by
      have hlen := whitespaceRun_fst_len (text.drop p)
      simp only [List.isEmpty_iff] at hemp
      rw [hemp] at hlen
      simpa using hlen.symm
    simp [wEnd, wsLen, h0, sliceTxt_nil]
  case isFalse hemp =>
    simp only [St.mk.injEq]
    refine ⟨rfl, ?_⟩
    rw [hv, sliceTxt_drop_take]
    rfl

theorem pwsc_noop (text : List Char) (p : Nat) (out : List Char) (h : wsLen text p = 0) :
    parseWhitespaceAndSkipComments text ⟨p, out⟩ = ⟨p, out⟩ := by
  unfold parseWhitespaceAndSkipComments parseWhitespace
  rw [if_pos]
  have hlen := whitespaceRun_fst_len (text.drop p)
  unfold wsLen at h
  rw [h] at hlen
  simpa [List.isEmpty_iff, List.length_eq_zero] using hlen

theorem wsLen_at_wEnd (text : List Char) (p : Nat) : wsLen text (wEnd text p) = 0 := by
  cases hd : text.drop (wEnd text p) with
  | nil => simp [wsLen, hd, whitespaceRun]
  | cons a rest =>
    have hc : chAt text (wEnd text p) = some a := by
      rw [← Nat.add_zero (wEnd text p), ← chAt_drop, hd]
      rfl
    have hnot := chAt_wEnd_not_ws text p a hc
    simp [wsLen, hd, whitespaceRun, hnot.1, hnot.2]

theorem pwsc_at_wEnd (text : List Char) (out : List Char) (p : Nat) :
    parseWhitespaceAndSkipComments text ⟨wEnd text p, out⟩ = ⟨wEnd text p, out⟩ :=
  pwsc_noop text _ out (wsLen_at_wEnd text p)

theorem wsLen_nonws (text : List Char) (p : Nat) (c : Char) (hc : chAt text p = some c)
    (h1 : isWhitespace c = false) (h2 : isSpecialWhitespace c = false) :
    wsLen text p = 0 := by
  cases hd : text.drop p with
  | nil =>
    simp [wsLen, hd, whitespaceRun]
  | cons a rest =>
    have : chAt text p = some a := by
      rw [← Nat.add_zero p, ← chAt_drop, hd] ; rfl
    rw [this] at hc
    cases hc
    simp [wsLen, hd, whitespaceRun, h1, h2]

/-! ### Character-class and digit-run lemmas -/

theorem isDigit_toNat (c : Char) (h : isDigit c = true) :
    48 ≤ c.toNat ∧ c.toNat ≤ 57 := by
  simp [isDigit] at h
  obtain ⟨h1, h2⟩ := h
  rw [Char.le_def] at h1 h2
  exact ⟨h1, h2⟩

theorem isDigit_ne (c : Char) (h : isDigit c = true) (d : Char)
    (hd : d.toNat < 48 ∨ 57 < d.toNat) : c ≠ d := by
  have hb := isDigit_toNat c h
  intro he
  subst he
  omega

theorem isDigit_not_delim (c : Char) (h : isDigit c = true) :
    isDelimiter c = false ∧ isWhitespace c = false := by
  have hb := isDigit_toNat c h
  constructor
  · rw [Bool.eq_false_iff]
    intro hd
    simp only [isDelimiter, isQuote, isDoubleQuoteLike, isSingleQuoteLike, Bool.or_eq_true,
      decide_eq_true_eq] at hd
    casesm* _ ∨ _
    all_goals
      first
      | exact absurd hb (by decide)
      | (rename_i h2 ; first | (subst h2 ; exact absurd hb (by decide)) | omega)
  · rw [Bool.eq_false_iff]
    intro hw
    simp only [isWhitespace, Bool.or_eq_true, decide_eq_true_eq] at hw
    casesm* _ ∨ _
    all_goals
      first
      | exact absurd hb (by decide)
      | (rename_i h2 ; subst h2 ; exact absurd hb (by decide))

theorem atEnd_not_digit (text : List Char) (m : Nat) (h : atEndOfNumber text m = true) :
    optIs isDigit (chAt text m) = false := by
  cases hc : chAt text m with
  | none => rfl
  | some c =>
    simp only [optIs]
    rw [Bool.eq_false_iff]
    intro hd
    have hnd := isDigit_not_delim c hd
    have hm : m < text.length := by
      by_contra hl
      rw [chAt_eof text m (by omega)] at hc
      cases hc
    simp [atEndOfNumber, hc, optIs, hnd.1, hnd.2] at h
    omega

theorem chAt_cons_drop (text : List Char) (p : Nat) (c : Char)
    (hc : chAt text p = some c) :
    text.drop p = c :: text.drop (p + 1) := by
  have hp : p < text.length := by
    by_contra hl
    rw [chAt_eof text p (by omega)] at hc
    cases hc
  rw [List.drop_eq_getElem_cons hp]
  congr 1
  simp only [chAt, List.get?_eq_getElem?, List.getElem?_eq_getElem hp,
    Option.some.injEq] at hc
  exact hc

theorem digitsCount_drop_succ (text : List Char) (p : Nat) (c : Char)
    (hc : chAt text p = some c) (hd : isDigit c = true) :
    digitsCount (text.drop p) = 1 + digitsCount (text.drop (p + 1)) := by
  rw [chAt_cons_drop text p c hc]
  simp [digitsCount, hd]

theorem digitsCount_zero (text : List Char) (p : Nat)
    (h : optIs isDigit (chAt text p) = false) :
    digitsCount (text.drop p) = 0 := by
  cases hd : text.drop p with
  | nil => rfl
  | cons a rest =>
    have hc : chAt text p = some a := by
      rw [← Nat.add_zero p, ← chAt_drop, hd] ; rfl
    rw [hc] at h
    simp only [optIs] at h
    simp [digitsCount, h]

theorem digitsCount_stop (text : List Char) (p : Nat) :
    optIs isDigit (chAt text (p + digitsCount (text.drop p))) = false := by
  cases hc : chAt text (p + digitsCount (text.drop p)) with
  | none => rfl
  | some c =>
    simp only [optIs]
    rw [Bool.eq_false_iff]
    intro hd
    have key : ∀ (l : List Char) (c : Char), l.get? (digitsCount l) = some c →
        isDigit c = false := by
      intro l
      induction l with
      | nil => intro c h ; cases h
      | cons a rest ih =>
        intro c h
        unfold digitsCount at h
        by_cases ha : isDigit a = true
        · rw [if_pos ha] at h
          exact ih c (by simpa [Nat.add_comm] using h)
        · rw [if_neg ha] at h
          simp at h
          subst h
          simpa using ha
    have hk := key (text.drop p) c (by rw [chAt_drop] ; exact hc)
    rw [hd] at hk
    cases hk

/-! ### Number-token verbatim lemmas -/


theorem chAt_lt (text : List Char) (m : Nat) (c : Char) (hc : chAt text m = some c) :
    m < text.length := by
  by_contra hl
  rw [chAt_eof text m (by omega)] at hc
  cases hc

theorem chAt_of_drop (text : List Char) (p : Nat) (c : Char) (rest : List Char)
    (hd : text.drop p = c :: rest) : chAt text p = some c := by
  rw [← Nat.add_zero p, ← chAt_drop, hd] ; rfl

theorem drop_succ_of_chAt (text : List Char) (p : Nat) (c : Char) (rest : List Char)
    (hd : text.drop p = c :: rest) : text.drop (p + 1) = rest := by
  have hc := chAt_of_drop text p c rest hd
  have h2 := chAt_cons_drop text p c hc
  rw [hd] at h2
  injection h2 with _ h3
  exact h3.symm

theorem atEnd_false_of_digit (text : List Char) (m : Nat) (c : Char)
    (hc : chAt text m = some c) (hd : isDigit c = true) :
    atEndOfNumber text m = false := by
  have hnd := isDigit_not_delim c hd
  have hm : m < text.length := chAt_lt text m c hc
  simp [atEndOfNumber, hc, optIs, hnd.1, hnd.2]
  omega

theorem digitsCount_head_pos (c : Char) (rest : List Char)
    (h : digitsCount (c :: rest) ≠ 0) : isDigit c = true := by
  by_contra hc
  simp only [Bool.not_eq_true] at hc
  simp [digitsCount, hc] at h

theorem numberEnd_verbatim (text : List Char) (out : List Char) (i j : Nat)
    (hij : i < j) (hend : atEndOfNumber text j = true)
    (hlz : hasInvalidLeadingZero (sliceTxt text i j) = false) :
    numberEnd text ⟨i, out⟩ i j = (true, ⟨j, out ++ sliceTxt text i j⟩) := by
  unfold numberEnd
  simp [hend, hij, hlz]

theorem strictExp_run (text : List Char) (out : List Char) (i q ex : Nat)
    (hex : strictExpLen (text.drop q) = some ex)
    (hend : atEndOfNumber text (q + ex) = true)
    (hiq : i < q)
    (hlz : hasInvalidLeadingZero (sliceTxt text i (q + ex)) = false) :
    numberExp text ⟨i, out⟩ i q = (true, ⟨q + ex, out ++ sliceTxt text i (q + ex)⟩) := by
  cases hdq : text.drop q with
  | nil =>
    have hex0 : ex = 0 := by
      rw [hdq] at hex
      simp [strictExpLen] at hex
      omega
    have hcq : chAt text q = none := by
      rw [← Nat.add_zero q, ← chAt_drop, hdq] ; rfl
    subst hex0
    unfold numberExp
    rw [if_neg (by simp [hcq])]
    exact numberEnd_verbatim text out i q hiq (by simpa using hend) (by simpa using hlz)
  | cons e rest =>
    have hcq : chAt text q = some e := chAt_of_drop text q e rest hdq
    have hrest : text.drop (q + 1) = rest := drop_succ_of_chAt text q e rest hdq
    rw [hdq] at hex
    by_cases he : (e = 'e' || e = 'E') = true
    · simp only [strictExpLen, he, if_true] at hex
      cases hr : rest with
      | nil => rw [hr] at hex ; cases hex
      | cons c r2 =>
        rw [hr] at hex
        simp only [strictExpDigits] at hex
        have hc1 : chAt text (q + 1) = some c := by
          apply chAt_of_drop text (q + 1) c r2
          rw [hrest, hr]
        have hr2 : text.drop (q + 2) = r2 := by
          have := drop_succ_of_chAt text (q + 1) c r2 (by rw [hrest, hr])
          simpa using this
        unfold numberExp
        rw [if_pos (by rw [hcq] ; simpa using he)]
        by_cases hsign : (c = '-' || c = '+') = true
        · rw [if_pos hsign] at hex
          by_cases h0 : digitsCount r2 = 0
          · rw [if_pos h0] at hex ; cases hex
          · rw [if_neg h0] at hex
            injection hex with hex
            rw [if_pos (by rw [hc1] ; simpa using hsign)]
            unfold numberExpTail
            obtain ⟨d, r3, hr3⟩ : ∃ d r3, r2 = d :: r3 := by
              cases r2 with
              | nil => simp [digitsCount] at h0
              | cons d r3 => exact ⟨d, r3, rfl⟩
            have hdd : isDigit d = true := digitsCount_head_pos d r3 (by rw [← hr3] ; exact h0)
            have hc2 : chAt text (q + 2) = some d := by
              apply chAt_of_drop text (q + 2) d r3
              rw [hr2, hr3]
            rw [if_neg (by rw [atEnd_false_of_digit text (q + 2) d hc2 hdd] ; simp)]
            rw [if_pos (by rw [hc2] ; simpa [optIs] using hdd)]
            have hj : q + 2 + digitsCount (text.drop (q + 2)) = q + ex := by
              rw [hr2] ; omega
            rw [hj]
            exact numberEnd_verbatim text out i (q + ex) (by omega) hend hlz
        · rw [if_neg hsign] at hex
          by_cases h0 : digitsCount (c :: r2) = 0
          · rw [if_pos h0] at hex ; cases hex
          · rw [if_neg h0] at hex
            injection hex with hex
            have hdc : isDigit c = true := digitsCount_head_pos c r2 h0
            rw [if_neg (by
              rw [hc1]
              simp only [Bool.or_eq_true, decide_eq_true_eq, Option.some.injEq]
              rintro (h2 | h2)
              · exact isDigit_ne c hdc '-' (by decide) h2
              · exact isDigit_ne c hdc '+' (by decide) h2)]
            unfold numberExpTail
            rw [if_neg (by rw [atEnd_false_of_digit text (q + 1) c hc1 hdc] ; simp)]
            rw [if_pos (by rw [hc1] ; simpa [optIs] using hdc)]
            have hj : q + 1 + digitsCount (text.drop (q + 1)) = q + ex := by
              rw [hrest, hr] ; omega
            rw [hj]
            exact numberEnd_verbatim text out i (q + ex) (by omega) hend hlz
    · simp only [strictExpLen, he, if_false] at hex
      have hex0 : ex = 0 := by
        injection hex with hex
        omega
      subst hex0
      unfold numberExp
      rw [if_neg (by
        rw [hcq]
        simp only [Bool.or_eq_true, decide_eq_true_eq, Option.some.injEq] at he ⊢
        simpa using he)]
      exact numberEnd_verbatim text out i q hiq (by simpa using hend) (by simpa using hlz)



theorem strictFracLen_dot (l : List Char) (fr : Nat)
    (h : strictFracLen l = some fr) (h0 : fr ≠ 0) :
    ∃ rest, l = '.' :: rest ∧ digitsCount rest ≠ 0 ∧ fr = 1 + digitsCount rest := by
  cases l with
  | nil => simp [strictFracLen] at h ; omega
  | cons c rest =>
    by_cases hc : c = '.'
    · subst hc
      simp only [strictFracLen, if_pos rfl] at h
      by_cases hd : digitsCount rest = 0
      · rw [if_pos hd] at h ; cases h
      · rw [if_neg hd] at h
        injection h with h
        exact ⟨rest, rfl, hd, h.symm⟩
    · rw [strictFracLen, if_neg hc] at h
      injection h with h
      omega

theorem strictExpLen_e (l : List Char) (ex : Nat)
    (h : strictExpLen l = some ex) (h0 : ex ≠ 0) :
    ∃ e rest, l = e :: rest ∧ (e = 'e' ∨ e = 'E') := by
  cases l with
  | nil =>
    simp [strictExpLen] at h ; omega
  | cons e rest =>
    by_cases he : (e = 'e' || e = 'E') = true
    · exact ⟨e, rest, rfl, by simpa using he⟩
    · rw [strictExpLen, if_neg he] at h
      injection h with h
      omega

theorem strictFrac_run (text : List Char) (out : List Char) (i q fr ex : Nat)
    (hfr : strictFracLen (text.drop q) = some fr)
    (hex : strictExpLen (text.drop (q + fr)) = some ex)
    (hend : atEndOfNumber text (q + fr + ex) = true)
    (hiq : i < q)
    (hlz : hasInvalidLeadingZero (sliceTxt text i (q + fr + ex)) = false) :
    numberFrac text ⟨i, out⟩ i q =
      (true, ⟨q + fr + ex, out ++ sliceTxt text i (q + fr + ex)⟩) := by
  by_cases h0 : fr = 0
  · subst h0
    have hq : ¬ (chAt text q = some '.') := by
      intro hc
      cases hd : text.drop q with
      | nil =>
        rw [← Nat.add_zero q, ← chAt_drop, hd] at hc
        cases hc
      | cons c rest =>
        have h1 := chAt_of_drop text q c rest hd
        rw [h1] at hc
        injection hc with hc
        subst hc
        rw [hd] at hfr
        simp only [strictFracLen, if_pos rfl] at hfr
        by_cases hdc : digitsCount rest = 0
        · rw [if_pos hdc] at hfr ; cases hfr
        · rw [if_neg hdc] at hfr ; injection hfr with hfr ; omega
    unfold numberFrac
    rw [if_neg hq]
    have := strictExp_run text out i q ex (by simpa using hex) (by simpa using hend) hiq
      (by simpa using hlz)
    simpa using this
  · obtain ⟨rest, hrest, hd0, hfr2⟩ := strictFracLen_dot (text.drop q) fr hfr h0
    have hcq : chAt text q = some '.' := chAt_of_drop text q '.' rest hrest
    have hdrop1 : text.drop (q + 1) = rest := drop_succ_of_chAt text q '.' rest hrest
    obtain ⟨d, r3, hr3⟩ : ∃ d r3, rest = d :: r3 := by
      cases rest with
      | nil => simp [digitsCount] at hd0
      | cons d r3 => exact ⟨d, r3, rfl⟩
    have hdd : isDigit d = true := digitsCount_head_pos d r3 (by rw [← hr3] ; exact hd0)
    have hc1 : chAt text (q + 1) = some d := by
      apply chAt_of_drop text (q + 1) d r3
      rw [hdrop1, hr3]
    unfold numberFrac
    rw [if_pos hcq]
    rw [if_neg (by rw [atEnd_false_of_digit text (q + 1) d hc1 hdd] ; simp)]
    rw [if_pos (by rw [hc1] ; simpa [optIs] using hdd)]
    have hj : q + 1 + digitsCount (text.drop (q + 1)) = q + fr := by
      rw [hdrop1] ; omega
    rw [hj]
    have := strictExp_run text out i (q + fr) ex hex (by simpa [Nat.add_assoc] using hend)
      (by omega) (by simpa [Nat.add_assoc] using hlz)
    simpa [Nat.add_assoc] using this

theorem strictNumTail_split (l : List Char) (n : Nat) (h : strictNumTail l = some n) :
    ∃ ni fr ex, strictIntLen l = some ni ∧ strictFracLen (l.drop ni) = some fr ∧
      strictExpLen (l.drop (ni + fr)) = some ex ∧ n = ni + fr + ex := by
  unfold strictNumTail at h
  split at h
  · cases h
  · rename_i ni h1
    split at h
    · cases h
    · rename_i fr h2
      split at h
      · cases h
      · rename_i ex h3
        injection h with h
        exact ⟨ni, fr, ex, h1, h2, h3, h.symm⟩

theorem strictIntLen_pos (l : List Char) (ni : Nat) (h : strictIntLen l = some ni) :
    1 ≤ ni := by
  cases l with
  | nil => cases h
  | cons c rest =>
    by_cases hz : c = '0'
    · rw [strictIntLen, if_pos hz] at h ; injection h with h ; omega
    · rw [strictIntLen, if_neg hz] at h
      by_cases hd : isDigit c = true
      · rw [if_pos hd] at h ; injection h with h ; omega
      · rw [if_neg hd] at h ; cases h

theorem strictIntLen_head (l : List Char) (ni : Nat) (h : strictIntLen l = some ni) :
    ∃ c rest, l = c :: rest ∧ isDigit c = true := by
  cases l with
  | nil => cases h
  | cons c rest =>
    refine ⟨c, rest, rfl, ?_⟩
    by_cases hz : c = '0'
    · subst hz ; decide
    · rw [strictIntLen, if_neg hz] at h
      by_cases hd : isDigit c = true
      · exact hd
      · rw [if_neg hd] at h ; cases h

theorem strictInt_digits (text : List Char) (q ni fr ex : Nat)
    (hint : strictIntLen (text.drop q) = some ni)
    (hfr : strictFracLen (text.drop (q + ni)) = some fr)
    (hex : strictExpLen (text.drop (q + ni + fr)) = some ex)
    (hend : atEndOfNumber text (q + ni + fr + ex) = true) :
    digitsCount (text.drop q) = ni := by
  cases hdq : text.drop q with
  | nil => rw [hdq] at hint ; cases hint
  | cons c rest =>
    have hrest : text.drop (q + 1) = rest := drop_succ_of_chAt text q c rest hdq
    by_cases hz : c = '0'
    · subst hz
      rw [hdq, strictIntLen, if_pos rfl] at hint
      injection hint with hint
      have hni : ni = 1 := hint.symm
      subst hni
      have hd0 : digitsCount rest = 0 := by
        rw [← hrest]
        apply digitsCount_zero
        cases hc1 : chAt text (q + 1) with
        | none => rfl
        | some d =>
          simp only [optIs]
          rw [Bool.eq_false_iff]
          intro hdd
          by_cases hf0 : fr = 0
          · subst hf0
            by_cases he0 : ex = 0
            · subst he0
              have := atEnd_not_digit text (q + 1) (by simpa using hend)
              rw [hc1] at this
              simp only [optIs] at this
              rw [hdd] at this
              cases this
            · obtain ⟨e, r2, hr2, he⟩ := strictExpLen_e (text.drop (q + 1 + 0)) ex
                (by simpa using hex) he0
              have : chAt text (q + 1) = some e := by
                apply chAt_of_drop text (q + 1) e r2
                simpa using hr2
              rw [hc1] at this
              injection this with this
              subst this
              cases he with
              | inl h5 => subst h5 ; exact absurd hdd (by decide)
              | inr h5 => subst h5 ; exact absurd hdd (by decide)
          · obtain ⟨r2, hr2, _, _⟩ := strictFracLen_dot (text.drop (q + 1)) fr
              (by simpa using hfr) hf0
            have : chAt text (q + 1) = some '.' := chAt_of_drop text (q + 1) '.' r2 hr2
            rw [hc1] at this
            injection this with this
            subst this
            exact absurd hdd (by decide)
      simp [digitsCount, hd0]
      decide
    · rw [hdq, strictIntLen, if_neg hz] at hint
      by_cases hd : isDigit c = true
      · rw [if_pos hd] at hint
        injection hint with hint
        simp only [digitsCount, if_pos hd]
        omega
      · rw [if_neg hd] at hint ; cases hint

theorem hasInvalidLeadingZero_head (c : Char) (l : List Char) (hc : ¬ c = '0') :
    hasInvalidLeadingZero (c :: l) = false := by
  cases l with
  | nil => rfl
  | cons d r => simp [hasInvalidLeadingZero, hc]

theorem hasInvalidLeadingZero_zero (d : Char) (l : List Char) (hd : isDigit d = false) :
    hasInvalidLeadingZero ('0' :: d :: l) = false := by
  simp [hasInvalidLeadingZero, hd]

theorem strictNum_no_leading_zero (text : List Char) (i n : Nat)
    (h : strictNumberLen (text.drop i) = some n)
    (hend : atEndOfNumber text (i + n) = true) :
    hasInvalidLeadingZero (sliceTxt text i (i + n)) = false := by
  cases hdi : text.drop i with
  | nil =>
    rw [hdi] at h
    simp [strictNumberLen, strictNumTail, strictIntLen] at h
  | cons c rest =>
    have hc : chAt text i = some c := chAt_of_drop text i c rest hdi
    have hrest : text.drop (i + 1) = rest := drop_succ_of_chAt text i c rest hdi
    by_cases hneg : c = '-'
    · subst hneg
      rw [hdi, strictNumberLen, if_pos rfl] at h
      cases h4 : strictNumTail rest with
      | none => rw [h4] at h ; cases h
      | some m =>
        rw [h4] at h
        have h5 : some (m + 1) = some n := h
        injection h5 with h5
        have hm1 : 1 ≤ m := by
          obtain ⟨ni, fr, ex, hint, _, _, hsum⟩ := strictNumTail_split rest m h4
          have := strictIntLen_pos rest ni hint
          omega
        rw [sliceTxt_cons text i (i + n) '-' hc (by omega)]
        exact hasInvalidLeadingZero_head '-' _ (by decide)
    · rw [hdi, strictNumberLen, if_neg hneg] at h
      obtain ⟨ni, fr, ex, hint, hfr, hex, hsum⟩ := strictNumTail_split (c :: rest) n h
      have hni1 : 1 ≤ ni := strictIntLen_pos _ _ hint
      by_cases hz : c = '0'
      · subst hz
        rw [strictIntLen, if_pos rfl] at hint
        injection hint with hint
        have hni : ni = 1 := hint.symm
        subst hni
        have hint2 : strictIntLen (text.drop i) = some 1 := by
          rw [hdi, strictIntLen, if_pos rfl]
        have hfr2 : strictFracLen (text.drop (i + 1)) = some fr := by
          rw [hrest]
          simpa using hfr
        have hex2 : strictExpLen (text.drop (i + 1 + fr)) = some ex := by
          rw [← List.drop_drop, hrest]
          rw [show (1 : Nat) + fr = fr + 1 from by omega] at hex
          simpa using hex
        have hend2 : atEndOfNumber text (i + 1 + fr + ex) = true := by
          rw [show i + 1 + fr + ex = i + n from by omega]
          exact hend
        have hdc : digitsCount (text.drop i) = 1 :=
          strictInt_digits text i 1 fr ex hint2 hfr2 hex2 hend2
        rw [hdi] at hdc
        simp only [digitsCount] at hdc
        rw [if_pos (by decide : isDigit '0' = true)] at hdc
        have dc0 : digitsCount rest = 0 := by omega
        by_cases hn1 : n = 1
        · rw [hn1, sliceTxt_one text i '0' hc]
          decide
        · obtain ⟨d, r, hr⟩ : ∃ d r, rest = d :: r := by
            cases hr : rest with
            | nil =>
              exfalso
              rw [hrest, hr] at hfr2
              rw [strictFracLen] at hfr2
              injection hfr2 with hfr2
              have hfr0 : fr = 0 := by omega
              have hd2 : text.drop (i + 1 + fr) = [] := by
                rw [show i + 1 + fr = i + 1 from by omega, hrest, hr]
              rw [hd2, strictExpLen] at hex2
              injection hex2 with hex2
              omega
            | cons d r => exact ⟨d, r, rfl⟩
          have hc1 : chAt text (i + 1) = some d :=
            chAt_of_drop text (i + 1) d r (by rw [hrest, hr])
          have hdd : isDigit d = false := by
            rw [hr] at dc0
            simp only [digitsCount] at dc0
            by_cases hb : isDigit d = true
            · rw [if_pos hb] at dc0 ; omega
            · simpa using hb
          have hn2 : 2 ≤ n := by omega
          rw [sliceTxt_cons text i (i + n) '0' hc (by omega),
            sliceTxt_cons text (i + 1) (i + n) d hc1 (by omega)]
          exact hasInvalidLeadingZero_zero d _ hdd
      · rw [sliceTxt_cons text i (i + n) c hc (by omega)]
        exact hasInvalidLeadingZero_head c _ hz

theorem parseNumber_verbatim (text out : List Char) (i n : Nat)
    (h : strictNumberLen (text.drop i) = some n)
    (hend : atEndOfNumber text (i + n) = true) :
    parseNumber text ⟨i, out⟩ = (true, ⟨i + n, out ++ sliceTxt text i (i + n)⟩) := by
  have hlz : hasInvalidLeadingZero (sliceTxt text i (i + n)) = false :=
    strictNum_no_leading_zero text i n h hend
  cases hdi : text.drop i with
  | nil =>
    rw [hdi] at h
    simp [strictNumberLen, strictNumTail, strictIntLen] at h
  | cons c rest =>
    have hc : chAt text i = some c := chAt_of_drop text i c rest hdi
    have hrest : text.drop (i + 1) = rest := drop_succ_of_chAt text i c rest hdi
    by_cases hneg : c = '-'
    · subst hneg
      rw [hdi, strictNumberLen, if_pos rfl] at h
      cases h4 : strictNumTail rest with
      | none => rw [h4] at h ; cases h
      | some m =>
        rw [h4] at h
        have h5 : some (m + 1) = some n := h
        injection h5 with h5
        obtain ⟨ni, fr, ex, hint, hfr, hex, hsum⟩ := strictNumTail_split rest m h4
        have hni1 : 1 ≤ ni := strictIntLen_pos _ _ hint
        have hint2 : strictIntLen (text.drop (i + 1)) = some ni := by
          rw [hrest] ; exact hint
        have hfr2 : strictFracLen (text.drop (i + 1 + ni)) = some fr := by
          rw [← List.drop_drop, hrest] ; exact hfr
        have hex2 : strictExpLen (text.drop (i + 1 + ni + fr)) = some ex := by
          rw [show i + 1 + ni + fr = (i + 1) + (ni + fr) from by omega,
            ← List.drop_drop, hrest]
          exact hex
        have hend2 : atEndOfNumber text (i + 1 + ni + fr + ex) = true := by
          rw [show i + 1 + ni + fr + ex = i + n from by omega]
          exact hend
        have hdc : digitsCount (text.drop (i + 1)) = ni :=
          strictInt_digits text (i + 1) ni fr ex hint2 hfr2 hex2 hend2
        obtain ⟨c1, r1, hr1, hd1⟩ := strictIntLen_head rest ni hint
        have hc1 : chAt text (i + 1) = some c1 :=
          chAt_of_drop text (i + 1) c1 r1 (by rw [hrest] ; exact hr1)
        unfold parseNumber
        rw [if_pos hc]
        rw [if_neg (by rw [atEnd_false_of_digit text (i + 1) c1 hc1 hd1] ; simp)]
        rw [if_pos (by rw [hc1] ; simpa [optIs] using hd1)]
        rw [hdc]
        have := strictFrac_run text out i (i + 1 + ni) fr ex hfr2 hex2 hend2 (by omega)
          (by rw [show i + 1 + ni + fr + ex = i + n from by omega] ; exact hlz)
        rw [show i + 1 + ni + fr + ex = i + n from by omega] at this
        exact this
    · rw [hdi, strictNumberLen, if_neg hneg] at h
      obtain ⟨ni, fr, ex, hint, hfr, hex, hsum⟩ := strictNumTail_split (c :: rest) n h
      have hni1 : 1 ≤ ni := strictIntLen_pos _ _ hint
      have hint2 : strictIntLen (text.drop i) = some ni := by
        rw [hdi] ; exact hint
      have hfr2 : strictFracLen (text.drop (i + ni)) = some fr := by
        rw [← List.drop_drop, hdi] ; exact hfr
      have hex2 : strictExpLen (text.drop (i + ni + fr)) = some ex := by
        rw [show i + ni + fr = i + (ni + fr) from by omega, ← List.drop_drop, hdi]
        exact hex
      have hend2 : atEndOfNumber text (i + ni + fr + ex) = true := by
        rw [show i + ni + fr + ex = i + n from by omega]
        exact hend
      have hdc : digitsCount (text.drop i) = ni :=
        strictInt_digits text i ni fr ex hint2 hfr2 hex2 hend2
      unfold parseNumber
      rw [if_neg (by rw [hc] ; intro hcc ; injection hcc with hcc ; exact hneg hcc)]
      rw [hdc]
      have := strictFrac_run text out i (i + ni) fr ex hfr2 hex2 hend2 (by omega)
        (by rw [show i + ni + fr + ex = i + n from by omega] ; exact hlz)
      rw [show i + ni + fr + ex = i + n from by omega] at this
      exact this

/-! ### Whitespace, token-context and recognizer-dispatch lemmas, the
string-loop verbatim lemma, and the strict-parser structure lemmas -/


theorem strictWs_cond (c : Char) :
    (c = ' ' || c = '\t' || c = '\n' || c = '\r' : Bool) = isWhitespace c := by
  unfold isWhitespace
  by_cases h1 : c = ' ' <;> by_cases h2 : c = '\t' <;> by_cases h3 : c = '\n' <;>
    by_cases h4 : c = '\r' <;> simp [h1, h2, h3, h4]

theorem wsLen_eq_strictWs (text : List Char) (hno : NoSpecialWs text) (p : Nat) :
    wsLen text p = strictWsCount (text.drop p) := by
  have key : ∀ l : List Char, (∀ c ∈ l, isSpecialWhitespace c = false) →
      (whitespaceRun l).2 = strictWsCount l := by
    intro l
    induction l with
    | nil => intro _ ; rfl
    | cons c rest ih =>
      intro hall
      have hc : isSpecialWhitespace c = false := hall c (by simp)
      have hr := ih (fun d hd => hall d (by simp [hd]))
      unfold whitespaceRun strictWsCount
      rw [strictWs_cond c]
      by_cases hw : isWhitespace c = true
      · rw [if_pos hw, if_pos hw]
        simp [hr]
        omega
      · rw [if_neg hw, if_neg hw, if_neg (by simp [hc])]
  exact key (text.drop p) (fun c hc => hno c (List.mem_of_mem_drop hc))

theorem strictStringBody_pos (l : List Char) (n : Nat) (h : strictStringBody l = some n) :
    1 ≤ n := by
  unfold strictStringBody at h
  repeat' split at h
  all_goals
    first
    | omega
    | (injection h with h ; omega)
    | (obtain ⟨a, -, ha⟩ := Option.map_eq_some'.mp h ; omega)
    | cases h

theorem isQuote_of_delim (c : Char) (h : isDelimiter c = false) : isQuote c = false := by
  by_contra hb
  rw [Bool.not_eq_false] at hb
  unfold isDelimiter at h
  rw [hb] at h
  simp at h

theorem wsLen_pos_head (text : List Char) (j : Nat) (h : 0 < wsLen text j) :
    ∃ c, chAt text j = some c ∧ (isWhitespace c || isSpecialWhitespace c) = true := by
  cases hd : text.drop j with
  | nil => rw [wsLen, hd] at h ; simp [whitespaceRun] at h
  | cons c rest =>
    refine ⟨c, chAt_of_drop text j c rest hd, ?_⟩
    rw [wsLen, hd] at h
    by_cases hw : isWhitespace c = true
    · simp [hw]
    · by_cases hs : isSpecialWhitespace c = true
      · simp [hs]
      · rw [Bool.not_eq_true] at hw hs
        rw [whitespaceRun, if_neg (by simp [hw]), if_neg (by simp [hs])] at h
        simp at h

theorem ctxAfter_atEnd (text : List Char) (hno : NoSpecialWs text) (j : Nat)
    (h : CtxAfter text j) : atEndOfNumber text j = true := by
  by_cases hz : wsLen text j = 0
  · have hw : wEnd text j = j := by unfold wEnd ; omega
    unfold CtxAfter at h
    rw [hw] at h
    rcases h with h | h | h | h | h
    · unfold atEndOfNumber
      rw [h]
      have : text.length ≤ j := by
        by_contra hb
        rw [chAt] at h
        rw [List.get?_eq_getElem?, List.getElem?_eq_getElem (by omega)] at h
        cases h
      simp [this]
    all_goals
      unfold atEndOfNumber
      rw [h]
      simp [optIs, isDelimiter]
  · obtain ⟨c, hc, hw⟩ := wsLen_pos_head text j (by omega)
    have hcs : isSpecialWhitespace c = false := hno c (List.get?_mem hc)
    rw [hcs] at hw
    simp only [Bool.or_false] at hw
    unfold atEndOfNumber
    rw [hc]
    simp [optIs, hw]

theorem chAt_of_slice (text : List Char) (a b : Nat) (c : Char) (w : List Char)
    (h : sliceTxt text a b = c :: w) : chAt text a = some c := by
  have h1 : ((text.take b).drop a)[0]? = some c := by
    rw [show (text.take b).drop a = sliceTxt text a b from rfl, h]
    simp
  rw [List.getElem?_drop, Nat.add_zero] at h1
  have hab : a < b := by
    by_contra hb
    rw [List.getElem?_take, if_neg (by omega)] at h1
    cases h1
  rw [List.getElem?_take, if_pos hab] at h1
  rw [chAt, List.get?_eq_getElem?]
  exact h1

theorem run_obj_no (text : List Char) (F : Nat) (s : St)
    (h : ¬ chAt text s.i = some '\x7b') :
    run text (F + 1) (.obj s) = .ok (false, s) := by
  simp only [run]
  rw [if_neg h]
  rfl

theorem run_arr_no (text : List Char) (F : Nat) (s : St)
    (h : ¬ chAt text s.i = some '[') :
    run text (F + 1) (.arr s) = .ok (false, s) := by
  simp only [run]
  rw [if_neg h]
  rfl

theorem run_str_no (text : List Char) (F : Nat) (s : St)
    (h1 : ¬ chAt text s.i = some '\\')
    (h2 : optIs isQuote (chAt text s.i) = false) :
    run text (F + 1) (.str false s) = .ok (false, s) := by
  simp only [run]
  rw [if_neg h1]
  cases hc : chAt text s.i with
  | none => rfl
  | some c =>
    rw [hc] at h2
    simp only [optIs] at h2
    simp [h2]
    rfl

theorem parseNumber_no (text : List Char) (s : St) (c : Char)
    (hc : chAt text s.i = some c)
    (h1 : isDigit c = false) (h2 : ¬ c = '-') (h3 : ¬ c = '.')
    (h4 : ¬ c = 'e') (h5 : ¬ c = 'E')
    (h6 : isDelimiter c = false) (h7 : isWhitespace c = false) :
    parseNumber text s = (false, s) := by
  have hd0 : digitsCount (text.drop s.i) = 0 :=
    digitsCount_zero text s.i (by rw [hc] ; simpa [optIs] using h1)
  have hlt : s.i < text.length := chAt_lt text s.i c hc
  have hend : atEndOfNumber text s.i = false := by
    unfold atEndOfNumber
    rw [hc]
    simp [optIs, h6, h7]
    omega
  unfold parseNumber
  rw [if_neg (by rw [hc] ; intro hx ; injection hx with hx ; exact h2 hx)]
  rw [hd0, Nat.add_zero]
  unfold numberFrac
  rw [if_neg (by rw [hc] ; intro hx ; injection hx with hx ; exact h3 hx)]
  unfold numberExp
  rw [if_neg (by rw [hc] ; simp [h4, h5])]
  unfold numberEnd
  rw [if_neg (by simp [hend])]

theorem parseKeyword_yes (text : List Char) (name value : List Char) (s : St)
    (h : sliceTxt text s.i (s.i + name.length) = name) :
    parseKeyword text name value s = (true, ⟨s.i + name.length, s.output ++ value⟩) := by
  unfold parseKeyword
  rw [if_pos h]

theorem parseKeyword_ne (text : List Char) (name value : List Char) (s : St)
    (c d : Char) (nm : List Char) (hname : name = d :: nm)
    (hc : chAt text s.i = some c) (hcd : ¬ c = d) :
    parseKeyword text name value s = (false, s) := by
  have hne : ¬ sliceTxt text s.i (s.i + name.length) = name := by
    intro heq
    rw [sliceTxt_cons text s.i (s.i + name.length) c hc
      (by rw [hname] ; simp), hname] at heq
    injection heq with heq
    exact hcd heq
  unfold parseKeyword
  rw [if_neg hne]

theorem foldl_step_false (text : List Char) (s : St) (nv : List Char × List Char)
    (rest : List (List Char × List Char)) :
    List.foldl (fun (r : Bool × St) (nv : List Char × List Char) =>
        if r.1 then r else parseKeyword text nv.1 nv.2 r.2) (false, s) (nv :: rest) =
      List.foldl (fun (r : Bool × St) (nv : List Char × List Char) =>
        if r.1 then r else parseKeyword text nv.1 nv.2 r.2)
        (parseKeyword text nv.1 nv.2 s) rest := rfl

theorem foldl_step_true (text : List Char) (st : St)
    (rest : List (List Char × List Char)) :
    List.foldl (fun (r : Bool × St) (nv : List Char × List Char) =>
        if r.1 then r else parseKeyword text nv.1 nv.2 r.2) (true, st) rest = (true, st) := by
  induction rest with
  | nil => rfl
  | cons a l ih => simpa using ih

theorem parseKeywords_true (text : List Char) (s : St)
    (h : sliceTxt text s.i (s.i + 4) = "true".data) :
    parseKeywords text s = (true, ⟨s.i + 4, s.output ++ "true".data⟩) := by
  unfold parseKeywords
  dsimp only []
  rw [foldl_step_false,
    parseKeyword_yes text "true".data "true".data s
      (show sliceTxt text s.i (s.i + ("true".data).length) = "true".data from h),
    foldl_step_true]
  rfl

theorem parseKeywords_false (text : List Char) (s : St)
    (h : sliceTxt text s.i (s.i + 5) = "false".data) :
    parseKeywords text s = (true, ⟨s.i + 5, s.output ++ "false".data⟩) := by
  have hc : chAt text s.i = some 'f' :=
    chAt_of_slice text s.i (s.i + 5) 'f' "alse".data (by rw [h])
  unfold parseKeywords
  dsimp only []
  rw [foldl_step_false,
    parseKeyword_ne text "true".data "true".data s 'f' 't' "rue".data rfl hc (by decide),
    foldl_step_false,
    parseKeyword_yes text "false".data "false".data s
      (show sliceTxt text s.i (s.i + ("false".data).length) = "false".data from h),
    foldl_step_true]
  rfl

theorem parseKeywords_null (text : List Char) (s : St)
    (h : sliceTxt text s.i (s.i + 4) = "null".data) :
    parseKeywords text s = (true, ⟨s.i + 4, s.output ++ "null".data⟩) := by
  have hc : chAt text s.i = some 'n' :=
    chAt_of_slice text s.i (s.i + 4) 'n' "ull".data (by rw [h])
  unfold parseKeywords
  dsimp only []
  rw [foldl_step_false,
    parseKeyword_ne text "true".data "true".data s 'n' 't' "rue".data rfl hc (by decide),
    foldl_step_false,
    parseKeyword_ne text "false".data "false".data s 'n' 'f' "alse".data rfl hc (by decide),
    foldl_step_false,
    parseKeyword_yes text "null".data "null".data s
      (show sliceTxt text s.i (s.i + ("null".data).length) = "null".data from h),
    foldl_step_true]
  rfl

theorem parseKeywords_no (text : List Char) (s : St) (c : Char)
    (hc : chAt text s.i = some c)
    (h1 : ¬ c = 't') (h2 : ¬ c = 'f') (h3 : ¬ c = 'n')
    (h4 : ¬ c = 'T') (h5 : ¬ c = 'F') (h6 : ¬ c = 'N') :
    parseKeywords text s = (false, s) := by
  unfold parseKeywords
  dsimp only []
  rw [foldl_step_false,
    parseKeyword_ne text "true".data "true".data s c 't' "rue".data rfl hc h1,
    foldl_step_false,
    parseKeyword_ne text "false".data "false".data s c 'f' "alse".data rfl hc h2,
    foldl_step_false,
    parseKeyword_ne text "null".data "null".data s c 'n' "ull".data rfl hc h3,
    foldl_step_false,
    parseKeyword_ne text "True".data "true".data s c 'T' "rue".data rfl hc h4,
    foldl_step_false,
    parseKeyword_ne text "False".data "false".data s c 'F' "alse".data rfl hc h5,
    foldl_step_false,
    parseKeyword_ne text "None".data "null".data s c 'N' "one".data rfl hc h6]
  rfl

theorem len_le_of_chAt_none (text : List Char) (k : Nat) (h : chAt text k = none) :
    text.length ≤ k := by
  by_contra hb
  rw [chAt, List.get?_eq_getElem?, List.getElem?_eq_getElem (by omega)] at h
  cases h

theorem notControl_of_valid (c : Char) (h : 0x20 ≤ c.toNat) :
    isControlCharacter c = false := by
  unfold isControlCharacter
  by_contra hb
  simp only [Bool.not_eq_false, Bool.or_eq_true, decide_eq_true_eq] at hb
  casesm* _ ∨ _ <;> (rename_i h2 ; subst h2 ; exact absurd h (by decide))

theorem ctx_cond (text : List Char) (q : Nat) (hctx : CtxAfter text q) :
    (decide (wEnd text q ≥ text.length) || optIs isDelimiter (chAt text (wEnd text q)) ||
      optIs isQuote (chAt text (wEnd text q)) ||
      optIs isDigit (chAt text (wEnd text q))) = true := by
  rcases hctx with h | h | h | h | h
  · have := len_le_of_chAt_none text _ h
    simp
    omega
  all_goals rw [h] ; simp [optIs, isDelimiter]

theorem ctx_not_plus (text : List Char) (q : Nat) (hctx : CtxAfter text q) :
    ¬ chAt text (wEnd text q) = some '+' := by
  rcases hctx with h | h | h | h | h <;> rw [h] <;> simp

theorem run_concat_noop (text : List Char) (F : Nat) (p : Nat) (out : List Char)
    (hplus : ¬ chAt text (wEnd text p) = some '+') :
    run text (F + 2) (.concat ⟨wEnd text p, out⟩) = .ok (false, ⟨wEnd text p, out⟩) := by
  simp only [run]
  rw [pwsc_at_wEnd]
  simp only [run]
  rw [if_neg hplus]
  rfl

theorem drop_at (text : List Char) (p k : Nat) (l : List Char) (hd : text.drop p = l) :
    text.drop (p + k) = l.drop k := by
  rw [← List.drop_drop, hd]

theorem chAt_at (text : List Char) (p k : Nat) (l : List Char) (c : Char)
    (hd : text.drop p = l) (h : l.get? k = some c) : chAt text (p + k) = some c := by
  rw [← chAt_drop, hd]
  exact h

theorem strLoop_verbatim (text : List Char) (hno : NoSpecialWs text) :
    ∀ F p m str out iB oB,
      strictStringBody (text.drop p) = some m →
      CtxAfter text (p + m) →
      m + 3 ≤ F →
      run text F (.strLoop false false .double iB oB str ⟨p, out⟩) =
        .ok (true, ⟨wEnd text (p + m),
          out ++ str ++ sliceTxt text p (wEnd text (p + m))⟩) := by
  intro F
  induction F with
  | zero => intro p m str out iB oB _ _ hf ; omega
  | succ F ih =>
    intro p m str out iB oB hbody hctx hf
    cases hdp : text.drop p with
    | nil => rw [hdp] at hbody ; cases hbody
    | cons c rest =>
      have hcp : chAt text p = some c := chAt_of_drop text p c rest hdp
      have hlt : p < text.length := chAt_lt text p c hcp
      have hd1 : text.drop (p + 1) = rest := drop_succ_of_chAt text p c rest hdp
      rw [hdp] at hbody
      unfold strictStringBody at hbody
      simp only [run]
      rw [if_neg (by simp only [ge_iff_le, decide_eq_true_eq] ; omega)]
      cases hc2 : chAt text p with
      | none => rw [hc2] at hcp ; cases hcp
      | some c2 =>
        rw [hcp] at hc2
        injection hc2 with hc2
        subst hc2
        simp only []
        by_cases hq : c = '"'
        · -- the closing quote of the string
          subst hq
          rw [if_pos rfl] at hbody
          injection hbody with hm
          have hm1 : m = 1 := hm.symm
          subst hm1
          obtain ⟨F2, rfl⟩ : ∃ F2, F = F2 + 2 := ⟨F - 2, by omega⟩
          rw [if_pos (show QuoteKind.check QuoteKind.double '"' = true from by decide)]
          rw [pwsc_eq text (p + 1) (out ++ (str ++ ['"'])) hno]
          rw [if_pos (by
            simp only [Bool.false_or]
            exact ctx_cond text (p + 1) (by rw [show p + 1 = p + 1 from rfl] ; exact hctx))]
          rw [run_concat_noop text F2 (p + 1) _
            (ctx_not_plus text (p + 1) hctx)]
          rw [mBindOk]
          simp only [pure]
          rw [sliceTxt_cons text p (wEnd text (p + 1)) '"' hcp
            (by have := wEnd_ge text (p + 1) ; omega)]
          simp [List.append_assoc]
          rfl
        · rw [if_neg hq] at hbody
          rw [if_neg (show ¬ QuoteKind.check QuoteKind.double c = true from by
            simp [QuoteKind.check, isDoubleQuote, hq])]
          rw [if_neg (by simp)]
          by_cases hb : c = '\\'
          · -- an escape sequence
            subst hb
            rw [if_pos rfl] at hbody
            rw [if_pos rfl]
            cases rest with
            | nil => cases hbody
            | cons e rest1 =>
              simp only [] at hbody
              have hce : chAt text (p + 1) = some e :=
                chAt_at text p 1 ('\\' :: e :: rest1) e hdp rfl
              have hd2 : text.drop (p + 2) = rest1 := by
                rw [drop_at text p 2 ('\\' :: e :: rest1) hdp]
                simp
              rw [hce]
              simp only []
              by_cases he : (e = '"' || e = '\\' || e = '/' || e = 'b' || e = 'f' ||
                  e = 'n' || e = 'r' || e = 't' : Bool) = true
              · -- a single-character escape
                rw [if_pos he] at hbody
                rw [if_pos he]
                cases h5 : strictStringBody rest1 with
                | none => rw [h5] at hbody ; cases hbody
                | some m1 =>
                  rw [h5] at hbody
                  have h6 : some (m1 + 2) = some m := hbody
                  injection h6 with h6
                  have hm : m = m1 + 2 := h6.symm
                  subst hm
                  rw [show skipEscapeStep text false ⟨p + 2, out⟩ = ⟨p + 2, out⟩ from rfl]
                  rw [ih (p + 2) m1 (str ++ sliceTxt text p (p + 2)) out iB oB
                    (by rw [hd2] ; exact h5)
                    (by rw [show p + 2 + m1 = p + (m1 + 2) from by omega] ; exact hctx)
                    (by omega)]
                  rw [show p + 2 + m1 = p + (m1 + 2) from by omega]
                  rw [← sliceTxt_append text p (p + 2) (wEnd text (p + (m1 + 2)))
                    (by omega)
                    (by have := wEnd_ge text (p + (m1 + 2)) ; omega)]
                  simp [List.append_assoc]
              · rw [if_neg he] at hbody
                rw [if_neg he]
                by_cases hu : e = 'u'
                · -- a unicode escape with four hex digits
                  subst hu
                  rw [if_pos rfl] at hbody
                  rw [if_pos rfl]
                  cases rest1 with
                  | nil => cases hbody
                  | cons h1 r1 =>
                    cases r1 with
                    | nil => cases hbody
                    | cons h2 r2 =>
                      cases r2 with
                      | nil => cases hbody
                      | cons h3 r3 =>
                        cases r3 with
                        | nil => cases hbody
                        | cons h4 r4 =>
                          simp only [] at hbody
                          by_cases hx : (isHex h1 && isHex h2 && isHex h3 && isHex h4) = true
                          · rw [if_pos hx] at hbody
                            cases h5 : strictStringBody r4 with
                            | none => rw [h5] at hbody ; cases hbody
                            | some m1 =>
                              rw [h5] at hbody
                              have h6 : some (m1 + 6) = some m := hbody
                              injection h6 with h6
                              have hm : m = m1 + 6 := h6.symm
                              subst hm
                              simp only [Bool.and_eq_true] at hx
                              obtain ⟨⟨⟨hx1, hx2⟩, hx3⟩, hx4⟩ := hx
                              have hch1 : chAt text (p + 2) = some h1 :=
                                chAt_at text p 2 _ h1 hdp rfl
                              have hch2 : chAt text (p + 3) = some h2 :=
                                chAt_at text p 3 _ h2 hdp rfl
                              have hch3 : chAt text (p + 4) = some h3 :=
                                chAt_at text p 4 _ h3 hdp rfl
                              have hch4 : chAt text (p + 5) = some h4 :=
                                chAt_at text p 5 _ h4 hdp rfl
                              have hd6 : text.drop (p + 6) = r4 := by
                                rw [drop_at text p 6 _ hdp]
                                simp
                              have hj : hexRunLen text p = 6 := by
                                unfold hexRunLen
                                rw [hch1, hch2, hch3, hch4]
                                simp [optIs, hx1, hx2, hx3, hx4]
                              rw [hj]
                              rw [if_pos rfl]
                              rw [show skipEscapeStep text false ⟨p + 6, out⟩ = ⟨p + 6, out⟩
                                from rfl]
                              rw [ih (p + 6) m1 (str ++ sliceTxt text p (p + 6)) out iB oB
                                (by rw [hd6] ; exact h5)
                                (by rw [show p + 6 + m1 = p + (m1 + 6) from by omega]
                                    exact hctx)
                                (by omega)]
                              rw [show p + 6 + m1 = p + (m1 + 6) from by omega]
                              rw [← sliceTxt_append text p (p + 6) (wEnd text (p + (m1 + 6)))
                                (by omega)
                                (by have := wEnd_ge text (p + (m1 + 6)) ; omega)]
                              simp [List.append_assoc]
                          · rw [if_neg hx] at hbody ; cases hbody
                · rw [if_neg hu] at hbody ; cases hbody
          · -- a regular character
            rw [if_neg hb] at hbody
            rw [if_neg hb]
            by_cases hv : 0x20 ≤ c.toNat
            · rw [if_pos hv] at hbody
              cases h5 : strictStringBody rest with
              | none => rw [h5] at hbody ; cases hbody
              | some m1 =>
                rw [h5] at hbody
                have h6 : some (m1 + 1) = some m := hbody
                injection h6 with h6
                have hm : m = m1 + 1 := h6.symm
                subst hm
                rw [if_neg (by simp [hq])]
                rw [if_neg (by simp [notControl_of_valid c hv])]
                rw [if_neg (by simp [isValidStringCharacter] ; omega)]
                rw [show skipEscapeStep text false ⟨p + 1, out⟩ = ⟨p + 1, out⟩ from rfl]
                rw [ih (p + 1) m1 (str ++ [c]) out iB oB
                  (by rw [hd1] ; exact h5)
                  (by rw [show p + 1 + m1 = p + (m1 + 1) from by omega] ; exact hctx)
                  (by omega)]
                rw [show p + 1 + m1 = p + (m1 + 1) from by omega]
                rw [sliceTxt_cons text p (wEnd text (p + (m1 + 1))) c hcp
                  (by have := wEnd_ge text (p + (m1 + 1)) ; omega)]
                simp [List.append_assoc]
            · rw [if_neg hv] at hbody ; cases hbody

theorem run_str_verbatim (text : List Char) (hno : NoSpecialWs text) (F p n : Nat)
    (out : List Char)
    (hcp : chAt text p = some '"')
    (hbody : strictStringBody (text.drop (p + 1)) = some n)
    (hctx : CtxAfter text (p + 1 + n))
    (hf : n + 4 ≤ F) :
    run text F (.str false ⟨p, out⟩) =
      .ok (true, ⟨wEnd text (p + 1 + n),
        out ++ sliceTxt text p (wEnd text (p + 1 + n))⟩) := by
  obtain ⟨F1, rfl⟩ : ∃ F1, F = F1 + 1 := ⟨F - 1, by omega⟩
  simp only [run]
  rw [if_neg (by rw [hcp] ; simp)]
  cases hc2 : chAt text p with
  | none => rw [hc2] at hcp ; cases hcp
  | some c2 =>
    rw [hcp] at hc2
    injection hc2 with hc2
    subst hc2
    simp only []
    rw [if_pos (show isQuote '"' = true from by decide)]
    rw [show endQuoteKindOf '"' = QuoteKind.double from by decide]
    rw [strLoop_verbatim text hno F1 (p + 1) n ['"'] out p out.length
      hbody (by rw [show p + 1 + n = p + 1 + n from rfl] ; exact hctx) (by omega)]
    rw [sliceTxt_cons text p (wEnd text (p + 1 + n)) '"' hcp
      (by have := wEnd_ge text (p + 1 + n) ; omega)]
    simp [List.append_assoc]

theorem wEnd_idem (text : List Char) (p : Nat) :
    wEnd text (wEnd text p) = wEnd text p := by
  have h := wsLen_at_wEnd text p
  unfold wEnd at h ⊢
  omega

theorem skipEllipsis_noop (text : List Char) (p : Nat) (out : List Char)
    (hw : wsLen text p = 0) (hdot : ¬ chAt text p = some '.') :
    skipEllipsis text ⟨p, out⟩ = ⟨p, out⟩ := by
  unfold skipEllipsis
  rw [pwsc_noop text p out hw]
  rw [if_neg (by simp [hdot])]

theorem strictNumberLen_pos (l : List Char) (n : Nat) (h : strictNumberLen l = some n) :
    1 ≤ n := by
  cases l with
  | nil =>
    unfold strictNumberLen strictNumTail strictIntLen at h
    cases h
  | cons c rest =>
    by_cases hm : c = '-'
    · rw [strictNumberLen, if_pos hm] at h
      cases h4 : strictNumTail rest with
      | none => rw [h4] at h ; cases h
      | some m =>
        rw [h4] at h
        have h5 : some (m + 1) = some n := h
        injection h5 with h5
        omega
    · rw [strictNumberLen, if_neg hm] at h
      obtain ⟨ni, fr, ex, hint, -, -, hsum⟩ := strictNumTail_split (c :: rest) n h
      have := strictIntLen_pos _ _ hint
      omega

theorem val_start (text : List Char) (f : Nat) (i j : Nat)
    (h : strictRun text (f + 1) (.val i) = some j) :
    ∃ c, chAt text i = some c ∧
      (c = '\x7b' ∨ c = '[' ∨ c = '"' ∨ c = 't' ∨ c = 'f' ∨ c = 'n' ∨ c = '-' ∨
        isDigit c = true) := by
  unfold strictRun at h
  cases hci : chAt text i with
  | none => rw [hci] at h ; cases h
  | some c =>
    rw [hci] at h
    simp only [] at h
    refine ⟨c, rfl, ?_⟩
    by_cases h1 : c = '\x7b'
    · exact Or.inl h1
    rw [if_neg h1] at h
    by_cases h2 : c = '['
    · exact Or.inr (Or.inl h2)
    rw [if_neg h2] at h
    by_cases h3 : c = '"'
    · exact Or.inr (Or.inr (Or.inl h3))
    rw [if_neg h3] at h
    by_cases h4 : c = 't'
    · exact Or.inr (Or.inr (Or.inr (Or.inl h4)))
    rw [if_neg h4] at h
    by_cases h5 : c = 'f'
    · exact Or.inr (Or.inr (Or.inr (Or.inr (Or.inl h5))))
    rw [if_neg h5] at h
    by_cases h6 : c = 'n'
    · exact Or.inr (Or.inr (Or.inr (Or.inr (Or.inr (Or.inl h6)))))
    rw [if_neg h6] at h
    by_cases h7 : (c = '-' || isDigit c : Bool) = true
    · simp only [Bool.or_eq_true, decide_eq_true_eq] at h7
      rcases h7 with h7 | h7
      · exact Or.inr (Or.inr (Or.inr (Or.inr (Or.inr (Or.inr (Or.inl h7))))))
      · exact Or.inr (Or.inr (Or.inr (Or.inr (Or.inr (Or.inr (Or.inr h7))))))
    · rw [if_neg h7] at h
      cases h

theorem strictVal_obj_split (text : List Char) (f i j : Nat)
    (hc : chAt text i = some '\x7b')
    (h : strictRun text (f + 1) (.val i) = some j) :
    (chAt text (i + 1 + strictWsCount (text.drop (i + 1))) = some '\x7d' ∧
      j = i + 1 + strictWsCount (text.drop (i + 1)) + 1) ∨
    (¬ chAt text (i + 1 + strictWsCount (text.drop (i + 1))) = some '\x7d' ∧
      ∃ k, strictRun text f (.oneMember (i + 1 + strictWsCount (text.drop (i + 1)))) =
          some k ∧
        strictRun text f (.objRest k) = some j) := by
  unfold strictRun at h
  rw [hc] at h
  simp only [] at h
  rw [if_pos trivial] at h
  by_cases hcl : chAt text (i + 1 + strictWsCount (text.drop (i + 1))) = some '\x7d'
  · rw [if_pos hcl] at h
    injection h with h
    exact Or.inl ⟨hcl, h.symm⟩
  · rw [if_neg hcl] at h
    refine Or.inr ⟨hcl, ?_⟩
    cases hk : strictRun text f
        (.oneMember (i + 1 + strictWsCount (text.drop (i + 1)))) with
    | none => rw [hk] at h ; cases h
    | some k =>
      rw [hk] at h
      exact ⟨k, rfl, h⟩

theorem strictVal_arr_split (text : List Char) (f i j : Nat)
    (hc : chAt text i = some '[')
    (h : strictRun text (f + 1) (.val i) = some j) :
    (chAt text (i + 1 + strictWsCount (text.drop (i + 1))) = some ']' ∧
      j = i + 1 + strictWsCount (text.drop (i + 1)) + 1) ∨
    (¬ chAt text (i + 1 + strictWsCount (text.drop (i + 1))) = some ']' ∧
      ∃ k, strictRun text f (.val (i + 1 + strictWsCount (text.drop (i + 1)))) = some k ∧
        strictRun text f (.arrRest k) = some j) := by
  unfold strictRun at h
  rw [hc] at h
  simp only [] at h
  rw [if_neg (by decide), if_pos trivial] at h
  by_cases hcl : chAt text (i + 1 + strictWsCount (text.drop (i + 1))) = some ']'
  · rw [if_pos hcl] at h
    injection h with h
    exact Or.inl ⟨hcl, h.symm⟩
  · rw [if_neg hcl] at h
    refine Or.inr ⟨hcl, ?_⟩
    cases hk : strictRun text f (.val (i + 1 + strictWsCount (text.drop (i + 1)))) with
    | none => rw [hk] at h ; cases h
    | some k =>
      rw [hk] at h
      exact ⟨k, rfl, h⟩

theorem strictVal_str_split (text : List Char) (f i j : Nat)
    (hc : chAt text i = some '"')
    (h : strictRun text (f + 1) (.val i) = some j) :
    ∃ n, strictStringBody (text.drop (i + 1)) = some n ∧ j = i + 1 + n := by
  unfold strictRun at h
  rw [hc] at h
  simp only [] at h
  rw [if_neg (by decide), if_neg (by decide), if_pos trivial] at h
  cases hn : strictStringBody (text.drop (i + 1)) with
  | none => rw [hn] at h ; cases h
  | some n =>
    rw [hn] at h
    have h5 : some (i + 1 + n) = some j := h
    injection h5 with h5
    exact ⟨n, rfl, h5.symm⟩

theorem strictVal_true_split (text : List Char) (f i j : Nat)
    (hc : chAt text i = some 't')
    (h : strictRun text (f + 1) (.val i) = some j) :
    sliceTxt text i (i + 4) = "true".data ∧ j = i + 4 := by
  unfold strictRun at h
  rw [hc] at h
  simp only [] at h
  rw [if_neg (by decide), if_neg (by decide), if_neg (by decide), if_pos trivial] at h
  by_cases hs : sliceTxt text i (i + 4) = "true".data
  · rw [if_pos hs] at h
    injection h with h
    exact ⟨hs, h.symm⟩
  · rw [if_neg hs] at h
    cases h

theorem strictVal_false_split (text : List Char) (f i j : Nat)
    (hc : chAt text i = some 'f')
    (h : strictRun text (f + 1) (.val i) = some j) :
    sliceTxt text i (i + 5) = "false".data ∧ j = i + 5 := by
  unfold strictRun at h
  rw [hc] at h
  simp only [] at h
  rw [if_neg (by decide), if_neg (by decide), if_neg (by decide), if_neg (by decide),
    if_pos trivial] at h
  by_cases hs : sliceTxt text i (i + 5) = "false".data
  · rw [if_pos hs] at h
    injection h with h
    exact ⟨hs, h.symm⟩
  · rw [if_neg hs] at h
    cases h

theorem strictVal_null_split (text : List Char) (f i j : Nat)
    (hc : chAt text i = some 'n')
    (h : strictRun text (f + 1) (.val i) = some j) :
    sliceTxt text i (i + 4) = "null".data ∧ j = i + 4 := by
  unfold strictRun at h
  rw [hc] at h
  simp only [] at h
  rw [if_neg (by decide), if_neg (by decide), if_neg (by decide), if_neg (by decide),
    if_neg (by decide), if_pos trivial] at h
  by_cases hs : sliceTxt text i (i + 4) = "null".data
  · rw [if_pos hs] at h
    injection h with h
    exact ⟨hs, h.symm⟩
  · rw [if_neg hs] at h
    cases h

theorem strictVal_num_split (text : List Char) (f i j : Nat) (c : Char)
    (hc : chAt text i = some c)
    (hnum : c = '-' ∨ isDigit c = true)
    (h : strictRun text (f + 1) (.val i) = some j) :
    ∃ n, strictNumberLen (text.drop i) = some n ∧ j = i + n := by
  have hd : ∀ d : Char, isDigit d = true →
      ¬ d = '\x7b' ∧ ¬ d = '[' ∧ ¬ d = '"' ∧ ¬ d = 't' ∧ ¬ d = 'f' ∧ ¬ d = 'n' := by
    intro d hdig
    refine ⟨?_, ?_, ?_, ?_, ?_, ?_⟩ <;>
      (intro he ; subst he ; exact absurd hdig (by decide))
  have hne : ¬ c = '\x7b' ∧ ¬ c = '[' ∧ ¬ c = '"' ∧ ¬ c = 't' ∧ ¬ c = 'f' ∧ ¬ c = 'n' := by
    rcases hnum with h1 | h1
    · subst h1
      refine ⟨?_, ?_, ?_, ?_, ?_, ?_⟩ <;> decide
    · exact hd c h1
  obtain ⟨n1, n2, n3, n4, n5, n6⟩ := hne
  unfold strictRun at h
  rw [hc] at h
  simp only [] at h
  rw [if_neg n1, if_neg n2, if_neg n3, if_neg n4, if_neg n5, if_neg n6,
    if_pos (by rcases hnum with h1 | h1 <;> simp [h1])] at h
  cases hn : strictNumberLen (text.drop i) with
  | none => rw [hn] at h ; cases h
  | some n =>
    rw [hn] at h
    have h5 : some (i + n) = some j := h
    injection h5 with h5
    exact ⟨n, rfl, h5.symm⟩

theorem strictMember_split (text : List Char) (f i m : Nat)
    (h : strictRun text (f + 1) (.oneMember i) = some m) :
    ∃ n, chAt text i = some '"' ∧ strictStringBody (text.drop (i + 1)) = some n ∧
      chAt text (i + 1 + n + strictWsCount (text.drop (i + 1 + n))) = some ':' ∧
      strictRun text f (.val (i + 1 + n + strictWsCount (text.drop (i + 1 + n)) + 1 +
        strictWsCount (text.drop
          (i + 1 + n + strictWsCount (text.drop (i + 1 + n)) + 1)))) = some m := by
  unfold strictRun at h
  by_cases hc : chAt text i = some '"'
  · rw [if_pos hc] at h
    cases hn : strictStringBody (text.drop (i + 1)) with
    | none => rw [hn] at h ; cases h
    | some n =>
      rw [hn] at h
      replace h : (if chAt text (i + 1 + n + strictWsCount (text.drop (i + 1 + n))) =
            some ':' then
          strictRun text f (.val (i + 1 + n + strictWsCount (text.drop (i + 1 + n)) + 1 +
            strictWsCount (text.drop
              (i + 1 + n + strictWsCount (text.drop (i + 1 + n)) + 1))))
        else none) = some m := h
      by_cases hcol : chAt text (i + 1 + n + strictWsCount (text.drop (i + 1 + n))) =
          some ':'
      · rw [if_pos hcol] at h
        exact ⟨n, hc, rfl, hcol, h⟩
      · rw [if_neg hcol] at h
        cases h
  · rw [if_neg hc] at h
    cases h

theorem strictObjRest_split (text : List Char) (f k j : Nat)
    (h : strictRun text (f + 1) (.objRest k) = some j) :
    (chAt text (k + strictWsCount (text.drop k)) = some '\x7d' ∧
      j = k + strictWsCount (text.drop k) + 1) ∨
    (chAt text (k + strictWsCount (text.drop k)) = some ',' ∧
      ∃ m, strictRun text f (.oneMember (k + strictWsCount (text.drop k) + 1 +
          strictWsCount (text.drop (k + strictWsCount (text.drop k) + 1)))) = some m ∧
        strictRun text f (.objRest m) = some j) := by
  unfold strictRun at h
  simp only [] at h
  by_cases hcl : chAt text (k + strictWsCount (text.drop k)) = some '\x7d'
  · rw [if_pos hcl] at h
    injection h with h
    exact Or.inl ⟨hcl, h.symm⟩
  · rw [if_neg hcl] at h
    by_cases hcm : chAt text (k + strictWsCount (text.drop k)) = some ','
    · rw [if_pos hcm] at h
      refine Or.inr ⟨hcm, ?_⟩
      cases hm : strictRun text f (.oneMember (k + strictWsCount (text.drop k) + 1 +
          strictWsCount (text.drop (k + strictWsCount (text.drop k) + 1)))) with
      | none => rw [hm] at h ; cases h
      | some m =>
        rw [hm] at h
        exact ⟨m, rfl, h⟩
    · rw [if_neg hcm] at h
      cases h

theorem strictArrRest_split (text : List Char) (f k j : Nat)
    (h : strictRun text (f + 1) (.arrRest k) = some j) :
    (chAt text (k + strictWsCount (text.drop k)) = some ']' ∧
      j = k + strictWsCount (text.drop k) + 1) ∨
    (chAt text (k + strictWsCount (text.drop k)) = some ',' ∧
      ∃ m, strictRun text f (.val (k + strictWsCount (text.drop k) + 1 +
          strictWsCount (text.drop (k + strictWsCount (text.drop k) + 1)))) = some m ∧
        strictRun text f (.arrRest m) = some j) := by
  unfold strictRun at h
  simp only [] at h
  by_cases hcl : chAt text (k + strictWsCount (text.drop k)) = some ']'
  · rw [if_pos hcl] at h
    injection h with h
    exact Or.inl ⟨hcl, h.symm⟩
  · rw [if_neg hcl] at h
    by_cases hcm : chAt text (k + strictWsCount (text.drop k)) = some ','
    · rw [if_pos hcm] at h
      refine Or.inr ⟨hcm, ?_⟩
      cases hm : strictRun text f (.val (k + strictWsCount (text.drop k) + 1 +
          strictWsCount (text.drop (k + strictWsCount (text.drop k) + 1)))) with
      | none => rw [hm] at h ; cases h
      | some m =>
        rw [hm] at h
        exact ⟨m, rfl, h⟩
    · rw [if_neg hcm] at h
      cases h

theorem strict_lt (text : List Char) :
    ∀ f, (∀ i j, strictRun text f (.val i) = some j → i < j) ∧
      (∀ i m, strictRun text f (.oneMember i) = some m → i + 4 ≤ m) ∧
      (∀ k j, strictRun text f (.objRest k) = some j → k < j) ∧
      (∀ k j, strictRun text f (.arrRest k) = some j → k < j) := by
  intro f
  induction f with
  | zero =>
    refine ⟨?_, ?_, ?_, ?_⟩ <;> (intro a b h ; cases h)
  | succ f ih =>
    obtain ⟨ihv, ihm, iho, iha⟩ := ih
    refine ⟨?_, ?_, ?_, ?_⟩
    · intro i j h
      obtain ⟨c, hc, hcls⟩ := val_start text f i j h
      rcases hcls with h1 | h1 | h1 | h1 | h1 | h1 | h1 | h1
      · subst h1
        rcases strictVal_obj_split text f i j hc h with ⟨-, hj⟩ | ⟨-, k, hk, hr⟩
        · omega
        · have h2 := ihm _ _ hk
          have h3 := iho _ _ hr
          omega
      · subst h1
        rcases strictVal_arr_split text f i j hc h with ⟨-, hj⟩ | ⟨-, k, hk, hr⟩
        · omega
        · have h2 := ihv _ _ hk
          have h3 := iha _ _ hr
          omega
      · subst h1
        obtain ⟨n, hn, hj⟩ := strictVal_str_split text f i j hc h
        omega
      · subst h1
        obtain ⟨-, hj⟩ := strictVal_true_split text f i j hc h
        omega
      · subst h1
        obtain ⟨-, hj⟩ := strictVal_false_split text f i j hc h
        omega
      · subst h1
        obtain ⟨-, hj⟩ := strictVal_null_split text f i j hc h
        omega
      · obtain ⟨n, hn, hj⟩ := strictVal_num_split text f i j c hc (Or.inl h1) h
        have := strictNumberLen_pos _ _ hn
        omega
      · obtain ⟨n, hn, hj⟩ := strictVal_num_split text f i j c hc (Or.inr h1) h
        have := strictNumberLen_pos _ _ hn
        omega
    · intro i m h
      obtain ⟨n, -, hn, -, hval⟩ := strictMember_split text f i m h
      have h2 := ihv _ _ hval
      have h3 := strictStringBody_pos _ _ hn
      omega
    · intro k j h
      rcases strictObjRest_split text f k j h with ⟨-, hj⟩ | ⟨-, m, hm, hr⟩
      · omega
      · have h2 := ihm _ _ hm
        have h3 := iho _ _ hr
        omega
    · intro k j h
      rcases strictArrRest_split text f k j h with ⟨-, hj⟩ | ⟨-, m, hm, hr⟩
      · omega
      · have h2 := ihv _ _ hm
        have h3 := iha _ _ hr
        omega

theorem mBindPure (a : α) (k : α → M β) : (pure a : M α) >>= k = k a := rfl

theorem run_objLoop_done (text : List Char) (F : Nat) (ini : Bool) (s : St)
    (h : chAt text s.i = some '\x7d') :
    run text (F + 1) (.objLoop ini s) = .ok (true, s) := by
  rw [run]
  rw [if_neg (by simp [h])]
  rfl

theorem run_arrLoop_done (text : List Char) (F : Nat) (ini : Bool) (s : St)
    (h : chAt text s.i = some ']') :
    run text (F + 1) (.arrLoop ini s) = .ok (true, s) := by
  rw [run]
  rw [if_neg (by simp [h])]
  rfl

theorem skipCharacter_no (text : List Char) (c : Char) (s : St)
    (h : ¬ chAt text s.i = some c) :
    skipCharacter text c s = (false, s) := by
  unfold skipCharacter
  rw [if_neg h]

theorem parseCharacter_no (text : List Char) (c : Char) (s : St)
    (h : ¬ chAt text s.i = some c) :
    parseCharacter text c s = (false, s) := by
  unfold parseCharacter
  rw [if_neg h]

theorem parseCharacter_yes (text : List Char) (c : Char) (s : St)
    (h : chAt text s.i = some c) :
    parseCharacter text c s = (true, ⟨s.i + 1, s.output ++ [c]⟩) := by
  unfold parseCharacter
  rw [if_pos h]

theorem run_value_num (text : List Char) (hno : NoSpecialWs text)
    (i n p F2 : Nat) (out : List Char) (c : Char)
    (hc : chAt text i = some c)
    (hnum : c = '-' ∨ isDigit c = true)
    (hn : strictNumberLen (text.drop i) = some n)
    (hwp : wEnd text p = i)
    (hctx : CtxAfter text (i + n))
    (hn1 : 1 ≤ n) :
    run text (F2 + 2) (.value ⟨p, out⟩) =
      .ok (true, ⟨wEnd text (i + n),
        out ++ sliceTxt text p (wEnd text (i + n))⟩) := by
  have hne : ¬ c = '\x7b' ∧ ¬ c = '[' ∧ isQuote c = false ∧ ¬ c = '\\' := by
    rcases hnum with h1 | h1
    · subst h1
      refine ⟨?_, ?_, ?_, ?_⟩ <;> decide
    · have hdel := isDigit_not_delim c h1
      refine ⟨?_, ?_, isQuote_of_delim c hdel.1, ?_⟩ <;>
        (intro he ; subst he ; exact absurd h1 (by decide))
  obtain ⟨h1, h2, h3, h4⟩ := hne
  have hend : atEndOfNumber text (i + n) = true := ctxAfter_atEnd text hno (i + n) hctx
  have hple : p ≤ i := by rw [← hwp] ; exact wEnd_ge text p
  have hobj := run_obj_no text F2 ⟨i, out ++ sliceTxt text p i⟩
    (by show ¬ chAt text i = some '\x7b' ; rw [hc] ; simp [h1])
  have harr := run_arr_no text F2 ⟨i, out ++ sliceTxt text p i⟩
    (by show ¬ chAt text i = some '[' ; rw [hc] ; simp [h2])
  have hstr := run_str_no text F2 ⟨i, out ++ sliceTxt text p i⟩
    (by show ¬ chAt text i = some '\\' ; rw [hc] ; simp [h4])
    (by show optIs isQuote (chAt text i) = false ; rw [hc] ; simpa [optIs] using h3)
  have hnum2 := parseNumber_verbatim text (out ++ sliceTxt text p i) i n hn hend
  have hpw1 := pwsc_eq text p out hno
  have hpw2 := pwsc_eq text (i + n)
    (out ++ (sliceTxt text p i ++ sliceTxt text i (i + n))) hno
  have hs1 : sliceTxt text i (i + n) ++ sliceTxt text (i + n) (wEnd text (i + n)) =
      sliceTxt text i (wEnd text (i + n)) :=
    sliceTxt_append text i (i + n) (wEnd text (i + n)) (by omega) (wEnd_ge text (i + n))
  have hs2 : sliceTxt text p i ++ sliceTxt text i (wEnd text (i + n)) =
      sliceTxt text p (wEnd text (i + n)) :=
    sliceTxt_append text p i (wEnd text (i + n)) hple
      (by have := wEnd_ge text (i + n) ; omega)
  rw [run]
  rw [hpw1, hwp]
  simp [mBindOk, mBindPure, hobj, harr, hstr, hnum2, hpw2, hs1, hs2, List.append_assoc]
  rfl

theorem run_value_kw (text : List Char) (hno : NoSpecialWs text)
    (i w p F2 : Nat) (out : List Char) (c : Char)
    (hc : chAt text i = some c)
    (hkwc : c = 't' ∧ w = 4 ∨ c = 'f' ∧ w = 5 ∨ c = 'n' ∧ w = 4)
    (hkws : ∀ s : St, s.i = i →
      parseKeywords text s = (true, ⟨i + w, s.output ++ sliceTxt text i (i + w)⟩))
    (hwp : wEnd text p = i)
    (hctx : CtxAfter text (i + w)) :
    run text (F2 + 2) (.value ⟨p, out⟩) =
      .ok (true, ⟨wEnd text (i + w),
        out ++ sliceTxt text p (wEnd text (i + w))⟩) := by
  have hne : ¬ c = '\x7b' ∧ ¬ c = '[' ∧ isQuote c = false ∧ ¬ c = '\\' ∧
      isDigit c = false ∧ ¬ c = '-' ∧ ¬ c = '.' ∧ ¬ c = 'e' ∧ ¬ c = 'E' ∧
      isDelimiter c = false ∧ isWhitespace c = false := by
    rcases hkwc with ⟨h1, -⟩ | ⟨h1, -⟩ | ⟨h1, -⟩ <;> subst h1 <;>
      exact ⟨by decide, by decide, by decide, by decide, by decide, by decide, by decide,
        by decide, by decide, by decide, by decide⟩
  obtain ⟨h1, h2, h3, h4, h5, h6, h7, h8, h9, h10, h11⟩ := hne
  have hw1 : 1 ≤ w := by rcases hkwc with ⟨-, h⟩ | ⟨-, h⟩ | ⟨-, h⟩ <;> omega
  have hple : p ≤ i := by rw [← hwp] ; exact wEnd_ge text p
  have hobj := run_obj_no text F2 ⟨i, out ++ sliceTxt text p i⟩
    (by show ¬ chAt text i = some '\x7b' ; rw [hc] ; simp [h1])
  have harr := run_arr_no text F2 ⟨i, out ++ sliceTxt text p i⟩
    (by show ¬ chAt text i = some '[' ; rw [hc] ; simp [h2])
  have hstr := run_str_no text F2 ⟨i, out ++ sliceTxt text p i⟩
    (by show ¬ chAt text i = some '\\' ; rw [hc] ; simp [h4])
    (by show optIs isQuote (chAt text i) = false ; rw [hc] ; simpa [optIs] using h3)
  have hnum2 := parseNumber_no text ⟨i, out ++ sliceTxt text p i⟩ c hc h5 h6 h7 h8 h9 h10 h11
  have hkw := hkws ⟨i, out ++ sliceTxt text p i⟩ rfl
  have hpw1 := pwsc_eq text p out hno
  have hpw2 := pwsc_eq text (i + w)
    (out ++ (sliceTxt text p i ++ sliceTxt text i (i + w))) hno
  have hs1 : sliceTxt text i (i + w) ++ sliceTxt text (i + w) (wEnd text (i + w)) =
      sliceTxt text i (wEnd text (i + w)) :=
    sliceTxt_append text i (i + w) (wEnd text (i + w)) (by omega) (wEnd_ge text (i + w))
  have hs2 : sliceTxt text p i ++ sliceTxt text i (wEnd text (i + w)) =
      sliceTxt text p (wEnd text (i + w)) :=
    sliceTxt_append text p i (wEnd text (i + w)) hple
      (by have := wEnd_ge text (i + w) ; omega)
  rw [run]
  rw [hpw1, hwp]
  simp [mBindOk, mBindPure, hobj, harr, hstr, hnum2, hkw, hpw2, hs1, hs2, List.append_assoc]
  rfl

theorem run_value_str2 (text : List Char) (hno : NoSpecialWs text)
    (i n p F2 : Nat) (out : List Char)
    (hc : chAt text i = some '"')
    (hbody : strictStringBody (text.drop (i + 1)) = some n)
    (hwp : wEnd text p = i)
    (hctx : CtxAfter text (i + 1 + n))
    (hfn : n + 4 ≤ F2 + 1) :
    run text (F2 + 2) (.value ⟨p, out⟩) =
      .ok (true, ⟨wEnd text (i + 1 + n),
        out ++ sliceTxt text p (wEnd text (i + 1 + n))⟩) := by
  have hple : p ≤ i := by rw [← hwp] ; exact wEnd_ge text p
  have hobj := run_obj_no text F2 ⟨i, out ++ sliceTxt text p i⟩
    (by show ¬ chAt text i = some '\x7b' ; rw [hc] ; simp)
  have harr := run_arr_no text F2 ⟨i, out ++ sliceTxt text p i⟩
    (by show ¬ chAt text i = some '[' ; rw [hc] ; simp)
  have hstr := run_str_verbatim text hno (F2 + 1) i n (out ++ sliceTxt text p i)
    hc hbody hctx hfn
  have hpw2 := pwsc_at_wEnd text
    (out ++ sliceTxt text p (wEnd text (i + 1 + n))) (i + 1 + n)
  have hs2 : sliceTxt text p i ++ sliceTxt text i (wEnd text (i + 1 + n)) =
      sliceTxt text p (wEnd text (i + 1 + n)) :=
    sliceTxt_append text p i (wEnd text (i + 1 + n)) hple
      (by have := wEnd_ge text (i + 1 + n) ; omega)
  have hpw1 := pwsc_eq text p out hno
  rw [run]
  rw [hpw1, hwp]
  simp [mBindOk, mBindPure, hobj, harr, hstr, hpw2, hs2, List.append_assoc]
  rfl

theorem run_obj_ok (text : List Char) (hno : NoSpecialWs text) (F2 i jc : Nat)
    (out outL : List Char)
    (hc : chAt text i = some '\x7b')
    (hnc : ¬ chAt text (wEnd text (i + 1)) = some ',')
    (hloop : run text F2 (.objLoop true
        ⟨wEnd text (i + 1),
          out ++ '\x7b' :: sliceTxt text (i + 1) (wEnd text (i + 1))⟩) =
      .ok (true, ⟨jc, outL⟩))
    (hclose : chAt text jc = some '\x7d') :
    run text (F2 + 1) (.obj ⟨i, out⟩) = .ok (true, ⟨jc + 1, outL ++ ['\x7d']⟩) := by
  have hpw := pwsc_eq text (i + 1) (out ++ ['\x7b']) hno
  have hskip := skipCharacter_no text ',' ⟨wEnd text (i + 1),
    out ++ '\x7b' :: sliceTxt text (i + 1) (wEnd text (i + 1))⟩ hnc
  rw [run]
  rw [if_pos hc]
  simp [hpw, hskip, mBindOk, mBindPure, hloop, hclose, List.append_assoc]
  rfl

theorem run_arr_ok (text : List Char) (hno : NoSpecialWs text) (F2 i jc : Nat)
    (out outL : List Char)
    (hc : chAt text i = some '[')
    (hnc : ¬ chAt text (wEnd text (i + 1)) = some ',')
    (hloop : run text F2 (.arrLoop true
        ⟨wEnd text (i + 1),
          out ++ '[' :: sliceTxt text (i + 1) (wEnd text (i + 1))⟩) =
      .ok (true, ⟨jc, outL⟩))
    (hclose : chAt text jc = some ']') :
    run text (F2 + 1) (.arr ⟨i, out⟩) = .ok (true, ⟨jc + 1, outL ++ [']']⟩) := by
  have hpw := pwsc_eq text (i + 1) (out ++ ['[']) hno
  have hskip := skipCharacter_no text ',' ⟨wEnd text (i + 1),
    out ++ '[' :: sliceTxt text (i + 1) (wEnd text (i + 1))⟩ hnc
  rw [run]
  rw [if_pos hc]
  simp [hpw, hskip, mBindOk, mBindPure, hloop, hclose, List.append_assoc]
  rfl

theorem run_value_obj (text : List Char) (hno : NoSpecialWs text)
    (i j p F2 : Nat) (out : List Char)
    (hc : chAt text i = some '\x7b')
    (hwp : wEnd text p = i)
    (hij : i ≤ j)
    (hobj : run text (F2 + 1) (.obj ⟨i, out ++ sliceTxt text p i⟩) =
      .ok (true, ⟨j, (out ++ sliceTxt text p i) ++ sliceTxt text i j⟩)) :
    run text (F2 + 2) (.value ⟨p, out⟩) =
      .ok (true, ⟨wEnd text j, out ++ sliceTxt text p (wEnd text j)⟩) := by
  have hple : p ≤ i := by rw [← hwp] ; exact wEnd_ge text p
  have hpw1 := pwsc_eq text p out hno
  have hpw2 := pwsc_eq text j (out ++ (sliceTxt text p i ++ sliceTxt text i j)) hno
  have hs1 : sliceTxt text i j ++ sliceTxt text j (wEnd text j) =
      sliceTxt text i (wEnd text j) :=
    sliceTxt_append text i j (wEnd text j) hij (wEnd_ge text j)
  have hs2 : sliceTxt text p i ++ sliceTxt text i (wEnd text j) =
      sliceTxt text p (wEnd text j) :=
    sliceTxt_append text p i (wEnd text j) hple (by have := wEnd_ge text j ; omega)
  rw [run]
  rw [hpw1, hwp]
  simp [mBindOk, mBindPure, hobj, hpw2, hs1, hs2, List.append_assoc]
  rfl

theorem run_value_arr (text : List Char) (hno : NoSpecialWs text)
    (i j p F2 : Nat) (out : List Char)
    (hc : chAt text i = some '[')
    (hwp : wEnd text p = i)
    (hij : i ≤ j)
    (harr : run text (F2 + 1) (.arr ⟨i, out ++ sliceTxt text p i⟩) =
      .ok (true, ⟨j, (out ++ sliceTxt text p i) ++ sliceTxt text i j⟩)) :
    run text (F2 + 2) (.value ⟨p, out⟩) =
      .ok (true, ⟨wEnd text j, out ++ sliceTxt text p (wEnd text j)⟩) := by
  have hple : p ≤ i := by rw [← hwp] ; exact wEnd_ge text p
  have hobjno := run_obj_no text F2 ⟨i, out ++ sliceTxt text p i⟩
    (by show ¬ chAt text i = some '\x7b' ; rw [hc] ; simp)
  have hpw1 := pwsc_eq text p out hno
  have hpw2 := pwsc_eq text j (out ++ (sliceTxt text p i ++ sliceTxt text i j)) hno
  have hs1 : sliceTxt text i j ++ sliceTxt text j (wEnd text j) =
      sliceTxt text i (wEnd text j) :=
    sliceTxt_append text i j (wEnd text j) hij (wEnd_ge text j)
  have hs2 : sliceTxt text p i ++ sliceTxt text i (wEnd text j) =
      sliceTxt text p (wEnd text j) :=
    sliceTxt_append text p i (wEnd text j) hple (by have := wEnd_ge text j ; omega)
  rw [run]
  rw [hpw1, hwp]
  simp [mBindOk, mBindPure, hobjno, harr, hpw2, hs1, hs2, List.append_assoc]
  rfl

theorem run_objLoop_step (text : List Char) (F km : Nat) (out : List Char)
    (b2 v2 : St) (jc : Nat) (outL : List Char)
    (hck : chAt text km = some '"')
    (hws : wsLen text km = 0)
    (hkey : run text F (.str false ⟨km, out⟩) = .ok (true, b2))
    (hwsb : wsLen text b2.i = 0)
    (hcol : chAt text b2.i = some ':')
    (hval : run text F (.value ⟨b2.i + 1, b2.output ++ [':']⟩) = .ok (true, v2))
    (hrest : run text F (.objLoop false v2) = .ok (true, ⟨jc, outL⟩)) :
    run text (F + 1) (.objLoop true ⟨km, out⟩) = .ok (true, ⟨jc, outL⟩) := by
  have hlt : km < text.length := chAt_lt text km '"' hck
  have hse := skipEllipsis_noop text km out hws (by rw [hck] ; simp)
  have hpw : parseWhitespaceAndSkipComments text b2 = b2 :=
    pwsc_noop text b2.i b2.output hwsb
  have hpc := parseCharacter_yes text ':' b2 hcol
  rw [run]
  rw [if_pos (by rw [hck] ; simp ; omega)]
  simp [mBindOk, mBindPure, hse, hkey, hpw, hpc, hval, hrest]

theorem run_objLoop_comma (text : List Char) (hno : NoSpecialWs text)
    (F wk : Nat) (out : List Char)
    (b2 v2 : St) (jc : Nat) (outL : List Char)
    (hcm : chAt text wk = some ',')
    (hck : chAt text (wEnd text (wk + 1)) = some '"')
    (hkey : run text F (.str false ⟨wEnd text (wk + 1),
        out ++ ',' :: sliceTxt text (wk + 1) (wEnd text (wk + 1))⟩) = .ok (true, b2))
    (hwsb : wsLen text b2.i = 0)
    (hcol : chAt text b2.i = some ':')
    (hval : run text F (.value ⟨b2.i + 1, b2.output ++ [':']⟩) = .ok (true, v2))
    (hrest : run text F (.objLoop false v2) = .ok (true, ⟨jc, outL⟩)) :
    run text (F + 1) (.objLoop false ⟨wk, out⟩) = .ok (true, ⟨jc, outL⟩) := by
  have hlt : wk < text.length := chAt_lt text wk ',' hcm
  have hpcm := parseCharacter_yes text ',' ⟨wk, out⟩ hcm
  have hpw := pwsc_eq text (wk + 1) (out ++ [',']) hno
  have hse := skipEllipsis_noop text (wEnd text (wk + 1))
    (out ++ ',' :: sliceTxt text (wk + 1) (wEnd text (wk + 1)))
    (wsLen_at_wEnd text (wk + 1)) (by rw [hck] ; simp)
  have hpwb : parseWhitespaceAndSkipComments text b2 = b2 :=
    pwsc_noop text b2.i b2.output hwsb
  have hpc := parseCharacter_yes text ':' b2 hcol
  rw [run]
  rw [if_pos (by rw [hcm] ; simp ; omega)]
  simp [mBindOk, mBindPure, hpcm, hpw, hse, hkey, hpwb, hpc, hval, hrest,
    List.append_assoc]

theorem run_arrLoop_step (text : List Char) (F a0 : Nat) (out : List Char)
    (c : Char) (v2 : St) (jc : Nat) (outL : List Char)
    (hca : chAt text a0 = some c)
    (hne : ¬ c = ']')
    (hws : wsLen text a0 = 0)
    (hdot : ¬ c = '.')
    (hval : run text F (.value ⟨a0, out⟩) = .ok (true, v2))
    (hrest : run text F (.arrLoop false v2) = .ok (true, ⟨jc, outL⟩)) :
    run text (F + 1) (.arrLoop true ⟨a0, out⟩) = .ok (true, ⟨jc, outL⟩) := by
  have hlt : a0 < text.length := chAt_lt text a0 c hca
  have hse := skipEllipsis_noop text a0 out hws (by rw [hca] ; simp [hdot])
  rw [run]
  rw [if_pos (by rw [hca] ; simp [hne] ; omega)]
  simp [mBindOk, mBindPure, hse, hval, hrest]

theorem run_arrLoop_comma (text : List Char) (hno : NoSpecialWs text)
    (F wk : Nat) (out : List Char)
    (c : Char) (v2 : St) (jc : Nat) (outL : List Char)
    (hcm : chAt text wk = some ',')
    (hca : chAt text (wEnd text (wk + 1)) = some c)
    (hdot : ¬ c = '.')
    (hval : run text F (.value ⟨wEnd text (wk + 1),
        out ++ ',' :: sliceTxt text (wk + 1) (wEnd text (wk + 1))⟩) = .ok (true, v2))
    (hrest : run text F (.arrLoop false v2) = .ok (true, ⟨jc, outL⟩)) :
    run text (F + 1) (.arrLoop false ⟨wk, out⟩) = .ok (true, ⟨jc, outL⟩) := by
  have hlt : wk < text.length := chAt_lt text wk ',' hcm
  have hpcm := parseCharacter_yes text ',' ⟨wk, out⟩ hcm
  have hse2 : skipEllipsis text ⟨wk + 1, out ++ [',']⟩ =
      ⟨wEnd text (wk + 1),
        (out ++ [',']) ++ sliceTxt text (wk + 1) (wEnd text (wk + 1))⟩ := by
    unfold skipEllipsis
    rw [pwsc_eq text (wk + 1) (out ++ [',']) hno]
    rw [if_neg (by rw [hca] ; simp [hdot])]
  rw [run]
  rw [if_pos (by rw [hcm] ; simp ; omega)]
  simp [mBindOk, mBindPure, hpcm, hse2, hval, hrest, List.append_assoc]

theorem strictObjRest_ge (text : List Char) (hno : NoSpecialWs text) (g k j : Nat)
    (h : strictRun text g (.objRest k) = some j) : wEnd text k + 1 ≤ j := by
  cases g with
  | zero => cases h
  | succ g2 =>
    have hwE : k + strictWsCount (text.drop k) = wEnd text k := by
      unfold wEnd
      rw [wsLen_eq_strictWs text hno k]
    rcases strictObjRest_split text g2 k j h with ⟨-, hj⟩ | ⟨-, m, hm, hr⟩
    · omega
    · have h2 := (strict_lt text g2).2.1 _ _ hm
      have h3 := (strict_lt text g2).2.2.1 _ _ hr
      omega

theorem strictArrRest_ge (text : List Char) (hno : NoSpecialWs text) (g k j : Nat)
    (h : strictRun text g (.arrRest k) = some j) : wEnd text k + 1 ≤ j := by
  cases g with
  | zero => cases h
  | succ g2 =>
    have hwE : k + strictWsCount (text.drop k) = wEnd text k := by
      unfold wEnd
      rw [wsLen_eq_strictWs text hno k]
    rcases strictArrRest_split text g2 k j h with ⟨-, hj⟩ | ⟨-, m, hm, hr⟩
    · omega
    · have h2 := (strict_lt text g2).1 _ _ hm
      have h3 := (strict_lt text g2).2.2.2 _ _ hr
      omega

theorem ctxAfter_of_objRest (text : List Char) (hno : NoSpecialWs text) (g k j : Nat)
    (h : strictRun text g (.objRest k) = some j) : CtxAfter text k := by
  cases g with
  | zero => cases h
  | succ g2 =>
    have hwE : k + strictWsCount (text.drop k) = wEnd text k := by
      unfold wEnd
      rw [wsLen_eq_strictWs text hno k]
    rcases strictObjRest_split text g2 k j h with ⟨hc, -⟩ | ⟨hc, -⟩
    · rw [hwE] at hc
      exact Or.inr (Or.inr (Or.inr (Or.inl hc)))
    · rw [hwE] at hc
      exact Or.inr (Or.inl hc)

theorem ctxAfter_of_arrRest (text : List Char) (hno : NoSpecialWs text) (g k j : Nat)
    (h : strictRun text g (.arrRest k) = some j) : CtxAfter text k := by
  cases g with
  | zero => cases h
  | succ g2 =>
    have hwE : k + strictWsCount (text.drop k) = wEnd text k := by
      unfold wEnd
      rw [wsLen_eq_strictWs text hno k]
    rcases strictArrRest_split text g2 k j h with ⟨hc, -⟩ | ⟨hc, -⟩
    · rw [hwE] at hc
      exact Or.inr (Or.inr (Or.inl hc))
    · rw [hwE] at hc
      exact Or.inr (Or.inl hc)

theorem member_run (text : List Char) (hno : NoSpecialWs text) (f2 km k : Nat)
    (ihv : ValP text f2)
    (hmem : strictRun text (f2 + 1) (.oneMember km) = some k)
    (hctxk : CtxAfter text k)
    (outM : List Char) (F : Nat)
    (hF : 2 * (k - km) + 2 ≤ F) :
    ∃ n, chAt text km = some '"' ∧ 1 ≤ n ∧
      km + 1 + n + 1 ≤ wEnd text (km + 1 + n) + 1 ∧ wEnd text (km + 1 + n) + 2 ≤ k ∧
      run text F (.str false ⟨km, outM⟩) =
        .ok (true, ⟨wEnd text (km + 1 + n),
          outM ++ sliceTxt text km (wEnd text (km + 1 + n))⟩) ∧
      wsLen text (wEnd text (km + 1 + n)) = 0 ∧
      chAt text (wEnd text (km + 1 + n)) = some ':' ∧
      ∀ outV, run text F (.value ⟨wEnd text (km + 1 + n) + 1, outV⟩) =
        .ok (true, ⟨wEnd text k,
          outV ++ sliceTxt text (wEnd text (km + 1 + n) + 1) (wEnd text k)⟩) := by
  have hwE : ∀ q, q + strictWsCount (text.drop q) = wEnd text q := fun q => by
    unfold wEnd
    rw [wsLen_eq_strictWs text hno q]
  obtain ⟨n, hck, hbody, hcol, hvalS⟩ := strictMember_split text f2 km k hmem
  rw [hwE (km + 1 + n)] at hcol hvalS
  rw [hwE (wEnd text (km + 1 + n) + 1)] at hvalS
  have hn1 : 1 ≤ n := strictStringBody_pos _ _ hbody
  have hkm4 : km + 4 ≤ k := (strict_lt text (f2 + 1)).2.1 _ _ hmem
  have hvs : wEnd text (wEnd text (km + 1 + n) + 1) < k := (strict_lt text f2).1 _ _ hvalS
  have hwb : km + 1 + n ≤ wEnd text (km + 1 + n) := wEnd_ge text (km + 1 + n)
  have hvsge : wEnd text (km + 1 + n) + 1 ≤ wEnd text (wEnd text (km + 1 + n) + 1) :=
    wEnd_ge text (wEnd text (km + 1 + n) + 1)
  have hctxB : CtxAfter text (km + 1 + n) :=
    Or.inr (Or.inr (Or.inr (Or.inr hcol)))
  refine ⟨n, hck, hn1, by omega, by omega, ?_, wsLen_at_wEnd text (km + 1 + n), hcol, ?_⟩
  · exact run_str_verbatim text hno F km n outM hck hbody hctxB (by omega)
  · intro outV
    exact ihv _ k (wEnd text (km + 1 + n) + 1) outV F hvalS rfl hctxk (by omega)

theorem val_case_obj (text : List Char) (hno : NoSpecialWs text) (f : Nat)
    (ihv : ∀ g, g < f + 1 → ValP text g)
    (iho : ∀ g, g < f + 1 → ObjRestP text g)
    (i j p : Nat) (out : List Char) (F : Nat)
    (hci : chAt text i = some '\x7b')
    (hval : strictRun text (f + 1) (.val i) = some j)
    (hwp : wEnd text p = i) (hctx : CtxAfter text j)
    (hF : 2 * (j - p) + 4 ≤ F) :
    run text F (.value ⟨p, out⟩) =
      .ok (true, ⟨wEnd text j, out ++ sliceTxt text p (wEnd text j)⟩) := by
  have hwE : ∀ q, q + strictWsCount (text.drop q) = wEnd text q := fun q => by
    unfold wEnd
    rw [wsLen_eq_strictWs text hno q]
  have hple : p ≤ i := by rw [← hwp] ; exact wEnd_ge text p
  have hw1 : i + 1 ≤ wEnd text (i + 1) := wEnd_ge text (i + 1)
  rcases strictVal_obj_split text f i j hci hval with ⟨hcl, hjv⟩ | ⟨hncl, k, hmem, hrest⟩
  · -- the empty object
    rw [hwE (i + 1)] at hcl hjv
    have hij : i + 2 ≤ j := by omega
    obtain ⟨F2, rfl⟩ : ∃ F2, F = F2 + 2 := ⟨F - 2, by omega⟩
    obtain ⟨F3, rfl⟩ : ∃ F3, F2 = F3 + 1 := ⟨F2 - 1, by omega⟩
    have hloop := run_objLoop_done text F3 true
      ⟨wEnd text (i + 1),
        (out ++ sliceTxt text p i) ++ '\x7b' :: sliceTxt text (i + 1) (wEnd text (i + 1))⟩
      hcl
    have hobj := run_obj_ok text hno (F3 + 1) i (wEnd text (i + 1))
      (out ++ sliceTxt text p i) _
      hci (by rw [hcl] ; simp) hloop hcl
    have hout : ((out ++ sliceTxt text p i) ++
        '\x7b' :: sliceTxt text (i + 1) (wEnd text (i + 1))) ++ ['\x7d'] =
        (out ++ sliceTxt text p i) ++ sliceTxt text i j := by
      have m1 : sliceTxt text (i + 1) (wEnd text (i + 1)) ++ ['\x7d'] =
          sliceTxt text (i + 1) j := by
        rw [show j = wEnd text (i + 1) + 1 from hjv]
        exact (sliceTxt_snoc text (i + 1) (wEnd text (i + 1)) '\x7d' hcl hw1).symm
      have c1 : sliceTxt text i j = '\x7b' :: sliceTxt text (i + 1) j :=
        sliceTxt_cons text i j '\x7b' hci (by omega)
      simp [c1, ← m1, List.append_assoc]
    rw [hout, show wEnd text (i + 1) + 1 = j from hjv.symm] at hobj
    exact run_value_obj text hno i j p (F3 + 1) out hci hwp (by omega) hobj
  · -- at least one member
    rw [hwE (i + 1)] at hncl hmem
    cases f with
    | zero => cases hmem
    | succ f2 =>
      have hctxk : CtxAfter text k := ctxAfter_of_objRest text hno (f2 + 1) k j hrest
      have hkj : wEnd text k + 1 ≤ j := strictObjRest_ge text hno (f2 + 1) k j hrest
      have hkm4 : wEnd text (i + 1) + 4 ≤ k := (strict_lt text (f2 + 1)).2.1 _ _ hmem
      have hkk : k ≤ wEnd text k := wEnd_ge text k
      obtain ⟨F2, rfl⟩ : ∃ F2, F = F2 + 2 := ⟨F - 2, by omega⟩
      obtain ⟨F3, rfl⟩ : ∃ F3, F2 = F3 + 1 := ⟨F2 - 1, by omega⟩
      obtain ⟨n, hck, hn1, hb1, hb2, hkey, hwsb, hcol, hvfun⟩ :=
        member_run text hno f2 (wEnd text (i + 1)) k (ihv f2 (by omega)) hmem hctxk
          ((out ++ sliceTxt text p i) ++
            '\x7b' :: sliceTxt text (i + 1) (wEnd text (i + 1)))
          F3 (by omega)
      obtain ⟨hloopRest, hclose⟩ := iho (f2 + 1) (by omega) k j
        ((((out ++ sliceTxt text p i) ++
            '\x7b' :: sliceTxt text (i + 1) (wEnd text (i + 1))) ++
          sliceTxt text (wEnd text (i + 1))
            (wEnd text (wEnd text (i + 1) + 1 + n)) ++ [':']) ++
          sliceTxt text (wEnd text (wEnd text (i + 1) + 1 + n) + 1) (wEnd text k))
        F3 hrest (by omega)
      have hstep := run_objLoop_step text F3 (wEnd text (i + 1))
        ((out ++ sliceTxt text p i) ++
          '\x7b' :: sliceTxt text (i + 1) (wEnd text (i + 1)))
        ⟨wEnd text (wEnd text (i + 1) + 1 + n),
          ((out ++ sliceTxt text p i) ++
            '\x7b' :: sliceTxt text (i + 1) (wEnd text (i + 1))) ++
            sliceTxt text (wEnd text (i + 1)) (wEnd text (wEnd text (i + 1) + 1 + n))⟩
        ⟨wEnd text k,
          ((((out ++ sliceTxt text p i) ++
            '\x7b' :: sliceTxt text (i + 1) (wEnd text (i + 1))) ++
            sliceTxt text (wEnd text (i + 1))
              (wEnd text (wEnd text (i + 1) + 1 + n)) ++ [':']) ++
            sliceTxt text (wEnd text (wEnd text (i + 1) + 1 + n) + 1) (wEnd text k))⟩
        (j - 1)
        ((((out ++ sliceTxt text p i) ++
            '\x7b' :: sliceTxt text (i + 1) (wEnd text (i + 1))) ++
          sliceTxt text (wEnd text (i + 1))
            (wEnd text (wEnd text (i + 1) + 1 + n)) ++ [':']) ++
          sliceTxt text (wEnd text (wEnd text (i + 1) + 1 + n) + 1) (wEnd text k) ++
          sliceTxt text (wEnd text k) (j - 1))
        hck (wsLen_at_wEnd text (i + 1)) hkey hwsb hcol
        (hvfun (((out ++ sliceTxt text p i) ++
          '\x7b' :: sliceTxt text (i + 1) (wEnd text (i + 1))) ++
          sliceTxt text (wEnd text (i + 1))
            (wEnd text (wEnd text (i + 1) + 1 + n)) ++ [':']))
        hloopRest
      have hobj := run_obj_ok text hno (F3 + 1) i (j - 1) (out ++ sliceTxt text p i) _
        hci (by rw [hck] ; simp) hstep hclose
      have hij : i < j := by omega
      have hout : ((((out ++ sliceTxt text p i) ++
          '\x7b' :: sliceTxt text (i + 1) (wEnd text (i + 1))) ++
          sliceTxt text (wEnd text (i + 1))
            (wEnd text (wEnd text (i + 1) + 1 + n)) ++ [':']) ++
          sliceTxt text (wEnd text (wEnd text (i + 1) + 1 + n) + 1) (wEnd text k) ++
          sliceTxt text (wEnd text k) (j - 1)) ++ ['\x7d'] =
          (out ++ sliceTxt text p i) ++ sliceTxt text i j := by
        have m1 : sliceTxt text (wEnd text k) (j - 1) ++ ['\x7d'] =
            sliceTxt text (wEnd text k) j := by
          have hm := sliceTxt_snoc text (wEnd text k) (j - 1) '\x7d' hclose (by omega)
          rw [show j - 1 + 1 = j from by omega] at hm
          exact hm.symm
        have m2 : sliceTxt text (wEnd text (wEnd text (i + 1) + 1 + n) + 1) (wEnd text k) ++
            sliceTxt text (wEnd text k) j =
            sliceTxt text (wEnd text (wEnd text (i + 1) + 1 + n) + 1) j :=
          sliceTxt_append text _ _ _ (by omega) (by omega)
        have m3 : sliceTxt text (wEnd text (i + 1))
              (wEnd text (wEnd text (i + 1) + 1 + n)) ++
            ':' :: sliceTxt text (wEnd text (wEnd text (i + 1) + 1 + n) + 1) j =
            sliceTxt text (wEnd text (i + 1)) j := by
          rw [show (':' : Char) :: sliceTxt text
              (wEnd text (wEnd text (i + 1) + 1 + n) + 1) j =
            [':'] ++ sliceTxt text (wEnd text (wEnd text (i + 1) + 1 + n) + 1) j from rfl]
          rw [← sliceTxt_one text (wEnd text (wEnd text (i + 1) + 1 + n)) ':' hcol]
          rw [← List.append_assoc]
          rw [sliceTxt_append text _ _ _ (by omega) (by omega)]
          rw [sliceTxt_append text _ _ _ (by omega) (by omega)]
        have m4 : sliceTxt text (i + 1) (wEnd text (i + 1)) ++
            sliceTxt text (wEnd text (i + 1)) j = sliceTxt text (i + 1) j :=
          sliceTxt_append text _ _ _ (by omega) (by omega)
        have c1 : sliceTxt text i j = '\x7b' :: sliceTxt text (i + 1) j :=
          sliceTxt_cons text i j '\x7b' hci (by omega)
        simp [c1, List.append_assoc, m1, m2, m3, m4]
      rw [hout, show (j - 1) + 1 = j from by omega] at hobj
      exact run_value_obj text hno i j p (F3 + 1) out hci hwp (by omega) hobj

theorem val_case_arr (text : List Char) (hno : NoSpecialWs text) (f : Nat)
    (ihv : ∀ g, g < f + 1 → ValP text g)
    (iha : ∀ g, g < f + 1 → ArrRestP text g)
    (i j p : Nat) (out : List Char) (F : Nat)
    (hci : chAt text i = some '[')
    (hval : strictRun text (f + 1) (.val i) = some j)
    (hwp : wEnd text p = i) (hctx : CtxAfter text j)
    (hF : 2 * (j - p) + 4 ≤ F) :
    run text F (.value ⟨p, out⟩) =
      .ok (true, ⟨wEnd text j, out ++ sliceTxt text p (wEnd text j)⟩) := by
  have hwE : ∀ q, q + strictWsCount (text.drop q) = wEnd text q := fun q => by
    unfold wEnd
    rw [wsLen_eq_strictWs text hno q]
  have hple : p ≤ i := by rw [← hwp] ; exact wEnd_ge text p
  have hw1 : i + 1 ≤ wEnd text (i + 1) := wEnd_ge text (i + 1)
  rcases strictVal_arr_split text f i j hci hval with ⟨hcl, hjv⟩ | ⟨hncl, d, helem, hrest⟩
  · -- the empty array
    rw [hwE (i + 1)] at hcl hjv
    have hij : i + 2 ≤ j := by omega
    obtain ⟨F2, rfl⟩ : ∃ F2, F = F2 + 2 := ⟨F - 2, by omega⟩
    obtain ⟨F3, rfl⟩ : ∃ F3, F2 = F3 + 1 := ⟨F2 - 1, by omega⟩
    have hloop := run_arrLoop_done text F3 true
      ⟨wEnd text (i + 1),
        (out ++ sliceTxt text p i) ++ '[' :: sliceTxt text (i + 1) (wEnd text (i + 1))⟩
      hcl
    have harr2 := run_arr_ok text hno (F3 + 1) i (wEnd text (i + 1))
      (out ++ sliceTxt text p i) _
      hci (by rw [hcl] ; simp) hloop hcl
    have hout : ((out ++ sliceTxt text p i) ++
        '[' :: sliceTxt text (i + 1) (wEnd text (i + 1))) ++ [']'] =
        (out ++ sliceTxt text p i) ++ sliceTxt text i j := by
      have m1 : sliceTxt text (i + 1) (wEnd text (i + 1)) ++ [']'] =
          sliceTxt text (i + 1) j := by
        rw [show j = wEnd text (i + 1) + 1 from hjv]
        exact (sliceTxt_snoc text (i + 1) (wEnd text (i + 1)) ']' hcl hw1).symm
      have c1 : sliceTxt text i j = '[' :: sliceTxt text (i + 1) j :=
        sliceTxt_cons text i j '[' hci (by omega)
      simp [c1, ← m1, List.append_assoc]
    rw [hout, show wEnd text (i + 1) + 1 = j from hjv.symm] at harr2
    exact run_value_arr text hno i j p (F3 + 1) out hci hwp (by omega) harr2
  · -- at least one element
    rw [hwE (i + 1)] at hncl helem
    have hctxd : CtxAfter text d := ctxAfter_of_arrRest text hno f d j hrest
    have hdj : wEnd text d + 1 ≤ j := strictArrRest_ge text hno f d j hrest
    have hd1 : wEnd text (i + 1) < d := (strict_lt text f).1 _ _ helem
    have hdd : d ≤ wEnd text d := wEnd_ge text d
    obtain ⟨c0, hc0, hc0cls⟩ : ∃ c0, chAt text (wEnd text (i + 1)) = some c0 ∧
        (c0 = '\x7b' ∨ c0 = '[' ∨ c0 = '"' ∨ c0 = 't' ∨ c0 = 'f' ∨ c0 = 'n' ∨
          c0 = '-' ∨ isDigit c0 = true) := by
      cases f with
      | zero => cases helem
      | succ f2 => exact val_start text f2 _ _ helem
    have hc0ne : ¬ c0 = ']' ∧ ¬ c0 = '.' := by
      rcases hc0cls with h | h | h | h | h | h | h | h
      all_goals first
      | (subst h ; exact ⟨by decide, by decide⟩)
      | (refine ⟨?_, ?_⟩ <;> (intro he ; subst he ; exact absurd h (by decide)))
    obtain ⟨F2, rfl⟩ : ∃ F2, F = F2 + 2 := ⟨F - 2, by omega⟩
    obtain ⟨F3, rfl⟩ : ∃ F3, F2 = F3 + 1 := ⟨F2 - 1, by omega⟩
    have hvrun := ihv f (by omega) (wEnd text (i + 1)) d (wEnd text (i + 1))
      ((out ++ sliceTxt text p i) ++
        '[' :: sliceTxt text (i + 1) (wEnd text (i + 1)))
      F3 helem (wEnd_idem text (i + 1)) hctxd (by omega)
    obtain ⟨hloopRest, hclose⟩ := iha f (by omega) d j
      (((out ++ sliceTxt text p i) ++
        '[' :: sliceTxt text (i + 1) (wEnd text (i + 1))) ++
        sliceTxt text (wEnd text (i + 1)) (wEnd text d))
      F3 hrest (by omega)
    have hstep := run_arrLoop_step text F3 (wEnd text (i + 1))
      ((out ++ sliceTxt text p i) ++
        '[' :: sliceTxt text (i + 1) (wEnd text (i + 1)))
      c0
      ⟨wEnd text d,
        ((out ++ sliceTxt text p i) ++
          '[' :: sliceTxt text (i + 1) (wEnd text (i + 1))) ++
          sliceTxt text (wEnd text (i + 1)) (wEnd text d)⟩
      (j - 1)
      ((((out ++ sliceTxt text p i) ++
        '[' :: sliceTxt text (i + 1) (wEnd text (i + 1))) ++
        sliceTxt text (wEnd text (i + 1)) (wEnd text d)) ++
        sliceTxt text (wEnd text d) (j - 1))
      hc0 hc0ne.1 (wsLen_at_wEnd text (i + 1)) hc0ne.2 hvrun hloopRest
    have harr2 := run_arr_ok text hno (F3 + 1) i (j - 1) (out ++ sliceTxt text p i) _
      hci (by rw [hc0] ; simp [show ¬ c0 = ',' from by
        rcases hc0cls with h | h | h | h | h | h | h | h
        all_goals first
        | (subst h ; decide)
        | (intro he ; subst he ; exact absurd h (by decide))])
      hstep hclose
    have hij : i < j := by omega
    have hout : ((((out ++ sliceTxt text p i) ++
        '[' :: sliceTxt text (i + 1) (wEnd text (i + 1))) ++
        sliceTxt text (wEnd text (i + 1)) (wEnd text d)) ++
        sliceTxt text (wEnd text d) (j - 1)) ++ [']'] =
        (out ++ sliceTxt text p i) ++ sliceTxt text i j := by
      have m1 : sliceTxt text (wEnd text d) (j - 1) ++ [']'] =
          sliceTxt text (wEnd text d) j := by
        have hm := sliceTxt_snoc text (wEnd text d) (j - 1) ']' hclose (by omega)
        rw [show j - 1 + 1 = j from by omega] at hm
        exact hm.symm
      have m2 : sliceTxt text (wEnd text (i + 1)) (wEnd text d) ++
          sliceTxt text (wEnd text d) j = sliceTxt text (wEnd text (i + 1)) j :=
        sliceTxt_append text _ _ _ (by omega) (by omega)
      have m3 : sliceTxt text (i + 1) (wEnd text (i + 1)) ++
          sliceTxt text (wEnd text (i + 1)) j = sliceTxt text (i + 1) j :=
        sliceTxt_append text _ _ _ (by omega) (by omega)
      have c1 : sliceTxt text i j = '[' :: sliceTxt text (i + 1) j :=
        sliceTxt_cons text i j '[' hci (by omega)
      simp [c1, List.append_assoc, m1, m2, m3]
    rw [hout, show (j - 1) + 1 = j from by omega] at harr2
    exact run_value_arr text hno i j p (F3 + 1) out hci hwp (by omega) harr2

theorem objRest_case (text : List Char) (hno : NoSpecialWs text) (f : Nat)
    (ihv : ∀ g, g < f + 1 → ValP text g)
    (iho : ∀ g, g < f + 1 → ObjRestP text g)
    (k j : Nat) (out : List Char) (F : Nat)
    (h : strictRun text (f + 1) (.objRest k) = some j)
    (hF : 2 * (j - k) + 4 ≤ F) :
    run text F (.objLoop false ⟨wEnd text k, out⟩) =
      .ok (true, ⟨j - 1, out ++ sliceTxt text (wEnd text k) (j - 1)⟩) ∧
    chAt text (j - 1) = some '\x7d' := by
  have hwE : ∀ q, q + strictWsCount (text.drop q) = wEnd text q := fun q => by
    unfold wEnd
    rw [wsLen_eq_strictWs text hno q]
  rcases strictObjRest_split text f k j h with ⟨hcl, hj⟩ | ⟨hcm, m, hmem, hrest⟩
  · rw [hwE k] at hcl hj
    obtain ⟨F1, rfl⟩ : ∃ F1, F = F1 + 1 := ⟨F - 1, by omega⟩
    refine ⟨?_, by rw [show j - 1 = wEnd text k from by omega] ; exact hcl⟩
    have hdone := run_objLoop_done text F1 false ⟨wEnd text k, out⟩ hcl
    simpa [show j - 1 = wEnd text k from by omega, sliceTxt_nil] using hdone
  · rw [hwE k] at hcm hmem
    rw [hwE (wEnd text k + 1)] at hmem
    cases f with
    | zero => cases hmem
    | succ f2 =>
      have hctxm : CtxAfter text m := ctxAfter_of_objRest text hno (f2 + 1) m j hrest
      have hmj : wEnd text m + 1 ≤ j := strictObjRest_ge text hno (f2 + 1) m j hrest
      have hkm4 : wEnd text (wEnd text k + 1) + 4 ≤ m :=
        (strict_lt text (f2 + 1)).2.1 _ _ hmem
      have hmm : m ≤ wEnd text m := wEnd_ge text m
      have hwk1 : wEnd text k + 1 ≤ wEnd text (wEnd text k + 1) :=
        wEnd_ge text (wEnd text k + 1)
      have hkk : k ≤ wEnd text k := wEnd_ge text k
      obtain ⟨F1, rfl⟩ : ∃ F1, F = F1 + 1 := ⟨F - 1, by omega⟩
      obtain ⟨n, hck, hn1, hb1, hb2, hkey, hwsb, hcol, hvfun⟩ :=
        member_run text hno f2 (wEnd text (wEnd text k + 1)) m (ihv f2 (by omega))
          hmem hctxm
          (out ++ ',' :: sliceTxt text (wEnd text k + 1) (wEnd text (wEnd text k + 1)))
          F1 (by omega)
      obtain ⟨hloopRest, hclose⟩ := iho (f2 + 1) (by omega) m j
        (((out ++ ',' :: sliceTxt text (wEnd text k + 1) (wEnd text (wEnd text k + 1))) ++
          sliceTxt text (wEnd text (wEnd text k + 1))
            (wEnd text (wEnd text (wEnd text k + 1) + 1 + n)) ++ [':']) ++
          sliceTxt text (wEnd text (wEnd text (wEnd text k + 1) + 1 + n) + 1)
            (wEnd text m))
        F1 hrest (by omega)
      have hstep := run_objLoop_comma text hno F1 (wEnd text k) out
        ⟨wEnd text (wEnd text (wEnd text k + 1) + 1 + n),
          (out ++ ',' :: sliceTxt text (wEnd text k + 1) (wEnd text (wEnd text k + 1))) ++
            sliceTxt text (wEnd text (wEnd text k + 1))
              (wEnd text (wEnd text (wEnd text k + 1) + 1 + n))⟩
        ⟨wEnd text m,
          ((out ++ ',' :: sliceTxt text (wEnd text k + 1) (wEnd text (wEnd text k + 1))) ++
            sliceTxt text (wEnd text (wEnd text k + 1))
              (wEnd text (wEnd text (wEnd text k + 1) + 1 + n)) ++ [':']) ++
            sliceTxt text (wEnd text (wEnd text (wEnd text k + 1) + 1 + n) + 1)
              (wEnd text m)⟩
        (j - 1)
        ((((out ++ ',' :: sliceTxt text (wEnd text k + 1) (wEnd text (wEnd text k + 1))) ++
          sliceTxt text (wEnd text (wEnd text k + 1))
            (wEnd text (wEnd text (wEnd text k + 1) + 1 + n)) ++ [':']) ++
          sliceTxt text (wEnd text (wEnd text (wEnd text k + 1) + 1 + n) + 1)
            (wEnd text m)) ++
          sliceTxt text (wEnd text m) (j - 1))
        hcm hck hkey hwsb hcol
        (hvfun ((out ++ ',' ::
            sliceTxt text (wEnd text k + 1) (wEnd text (wEnd text k + 1))) ++
          sliceTxt text (wEnd text (wEnd text k + 1))
            (wEnd text (wEnd text (wEnd text k + 1) + 1 + n)) ++ [':']))
        hloopRest
      refine ⟨?_, hclose⟩
      have hout : (((out ++ ',' ::
          sliceTxt text (wEnd text k + 1) (wEnd text (wEnd text k + 1))) ++
          sliceTxt text (wEnd text (wEnd text k + 1))
            (wEnd text (wEnd text (wEnd text k + 1) + 1 + n)) ++ [':']) ++
          sliceTxt text (wEnd text (wEnd text (wEnd text k + 1) + 1 + n) + 1)
            (wEnd text m)) ++
          sliceTxt text (wEnd text m) (j - 1) =
          out ++ sliceTxt text (wEnd text k) (j - 1) := by
        have m2 : sliceTxt text (wEnd text (wEnd text (wEnd text k + 1) + 1 + n) + 1)
              (wEnd text m) ++ sliceTxt text (wEnd text m) (j - 1) =
            sliceTxt text (wEnd text (wEnd text (wEnd text k + 1) + 1 + n) + 1) (j - 1) :=
          sliceTxt_append text _ _ _ (by omega) (by omega)
        have m3 : sliceTxt text (wEnd text (wEnd text k + 1))
              (wEnd text (wEnd text (wEnd text k + 1) + 1 + n)) ++
            ':' :: sliceTxt text
              (wEnd text (wEnd text (wEnd text k + 1) + 1 + n) + 1) (j - 1) =
            sliceTxt text (wEnd text (wEnd text k + 1)) (j - 1) := by
          rw [show (':' : Char) :: sliceTxt text
              (wEnd text (wEnd text (wEnd text k + 1) + 1 + n) + 1) (j - 1) =
            [':'] ++ sliceTxt text
              (wEnd text (wEnd text (wEnd text k + 1) + 1 + n) + 1) (j - 1) from rfl]
          rw [← sliceTxt_one text (wEnd text (wEnd text (wEnd text k + 1) + 1 + n)) ':' hcol]
          rw [← List.append_assoc]
          rw [sliceTxt_append text _ _ _ (by omega) (by omega)]
          rw [sliceTxt_append text _ _ _ (by omega) (by omega)]
        have m4 : sliceTxt text (wEnd text k + 1) (wEnd text (wEnd text k + 1)) ++
            sliceTxt text (wEnd text (wEnd text k + 1)) (j - 1) =
            sliceTxt text (wEnd text k + 1) (j - 1) :=
          sliceTxt_append text _ _ _ (by omega) (by omega)
        have c1 : sliceTxt text (wEnd text k) (j - 1) =
            ',' :: sliceTxt text (wEnd text k + 1) (j - 1) :=
          sliceTxt_cons text (wEnd text k) (j - 1) ',' hcm (by omega)
        simp [c1, List.append_assoc, m2, m3, m4]
      rw [hout] at hstep
      exact hstep

theorem arrRest_case (text : List Char) (hno : NoSpecialWs text) (f : Nat)
    (ihv : ∀ g, g < f + 1 → ValP text g)
    (iha : ∀ g, g < f + 1 → ArrRestP text g)
    (k j : Nat) (out : List Char) (F : Nat)
    (h : strictRun text (f + 1) (.arrRest k) = some j)
    (hF : 2 * (j - k) + 4 ≤ F) :
    run text F (.arrLoop false ⟨wEnd text k, out⟩) =
      .ok (true, ⟨j - 1, out ++ sliceTxt text (wEnd text k) (j - 1)⟩) ∧
    chAt text (j - 1) = some ']' := by
  have hwE : ∀ q, q + strictWsCount (text.drop q) = wEnd text q := fun q => by
    unfold wEnd
    rw [wsLen_eq_strictWs text hno q]
  rcases strictArrRest_split text f k j h with ⟨hcl, hj⟩ | ⟨hcm, d, helem, hrest⟩
  · rw [hwE k] at hcl hj
    obtain ⟨F1, rfl⟩ : ∃ F1, F = F1 + 1 := ⟨F - 1, by omega⟩
    refine ⟨?_, by rw [show j - 1 = wEnd text k from by omega] ; exact hcl⟩
    have hdone := run_arrLoop_done text F1 false ⟨wEnd text k, out⟩ hcl
    simpa [show j - 1 = wEnd text k from by omega, sliceTxt_nil] using hdone
  · rw [hwE k] at hcm helem
    rw [hwE (wEnd text k + 1)] at helem
    have hctxd : CtxAfter text d := ctxAfter_of_arrRest text hno f d j hrest
    have hdj : wEnd text d + 1 ≤ j := strictArrRest_ge text hno f d j hrest
    have hd1 : wEnd text (wEnd text k + 1) < d := (strict_lt text f).1 _ _ helem
    have hdd : d ≤ wEnd text d := wEnd_ge text d
    have hwk1 : wEnd text k + 1 ≤ wEnd text (wEnd text k + 1) :=
      wEnd_ge text (wEnd text k + 1)
    have hkk : k ≤ wEnd text k := wEnd_ge text k
    obtain ⟨c0, hc0, hc0cls⟩ : ∃ c0, chAt text (wEnd text (wEnd text k + 1)) = some c0 ∧
        (c0 = '\x7b' ∨ c0 = '[' ∨ c0 = '"' ∨ c0 = 't' ∨ c0 = 'f' ∨ c0 = 'n' ∨
          c0 = '-' ∨ isDigit c0 = true) := by
      cases f with
      | zero => cases helem
      | succ f2 => exact val_start text f2 _ _ helem
    have hc0dot : ¬ c0 = '.' := by
      rcases hc0cls with h2 | h2 | h2 | h2 | h2 | h2 | h2 | h2
      all_goals first
      | (subst h2 ; decide)
      | (intro he ; subst he ; exact absurd h2 (by decide))
    obtain ⟨F1, rfl⟩ : ∃ F1, F = F1 + 1 := ⟨F - 1, by omega⟩
    have hvrun := ihv f (by omega) (wEnd text (wEnd text k + 1)) d
      (wEnd text (wEnd text k + 1))
      (out ++ ',' :: sliceTxt text (wEnd text k + 1) (wEnd text (wEnd text k + 1)))
      F1 helem (wEnd_idem text (wEnd text k + 1)) hctxd (by omega)
    obtain ⟨hloopRest, hclose⟩ := iha f (by omega) d j
      ((out ++ ',' :: sliceTxt text (wEnd text k + 1) (wEnd text (wEnd text k + 1))) ++
        sliceTxt text (wEnd text (wEnd text k + 1)) (wEnd text d))
      F1 hrest (by omega)
    have hstep := run_arrLoop_comma text hno F1 (wEnd text k) out c0
      ⟨wEnd text d,
        (out ++ ',' :: sliceTxt text (wEnd text k + 1) (wEnd text (wEnd text k + 1))) ++
          sliceTxt text (wEnd text (wEnd text k + 1)) (wEnd text d)⟩
      (j - 1)
      (((out ++ ',' :: sliceTxt text (wEnd text k + 1) (wEnd text (wEnd text k + 1))) ++
        sliceTxt text (wEnd text (wEnd text k + 1)) (wEnd text d)) ++
        sliceTxt text (wEnd text d) (j - 1))
      hcm hc0 hc0dot hvrun hloopRest
    refine ⟨?_, hclose⟩
    have hout : ((out ++ ',' ::
        sliceTxt text (wEnd text k + 1) (wEnd text (wEnd text k + 1))) ++
        sliceTxt text (wEnd text (wEnd text k + 1)) (wEnd text d)) ++
        sliceTxt text (wEnd text d) (j - 1) =
        out ++ sliceTxt text (wEnd text k) (j - 1) := by
      have m2 : sliceTxt text (wEnd text (wEnd text k + 1)) (wEnd text d) ++
          sliceTxt text (wEnd text d) (j - 1) =
          sliceTxt text (wEnd text (wEnd text k + 1)) (j - 1) :=
        sliceTxt_append text _ _ _ (by omega) (by omega)
      have m4 : sliceTxt text (wEnd text k + 1) (wEnd text (wEnd text k + 1)) ++
          sliceTxt text (wEnd text (wEnd text k + 1)) (j - 1) =
          sliceTxt text (wEnd text k + 1) (j - 1) :=
        sliceTxt_append text _ _ _ (by omega) (by omega)
      have c1 : sliceTxt text (wEnd text k) (j - 1) =
          ',' :: sliceTxt text (wEnd text k + 1) (j - 1) :=
        sliceTxt_cons text (wEnd text k) (j - 1) ',' hcm (by omega)
      simp [c1, List.append_assoc, m2, m4]
    rw [hout] at hstep
    exact hstep

theorem strict_sim (text : List Char) (hno : NoSpecialWs text) :
    ∀ N : Nat, ValP text N ∧ ObjRestP text N ∧ ArrRestP text N := by
  intro N
  induction N using Nat.strong_induction_on with
  | _ N ih =>
    cases N with
    | zero =>
      refine ⟨?_, ?_, ?_⟩
      · intro i j p out F h ; cases h
      · intro k j out F h ; cases h
      · intro k j out F h ; cases h
    | succ f =>
      have ihv : ∀ g, g < f + 1 → ValP text g := fun g hg => (ih g hg).1
      have iho : ∀ g, g < f + 1 → ObjRestP text g := fun g hg => (ih g hg).2.1
      have iha : ∀ g, g < f + 1 → ArrRestP text g := fun g hg => (ih g hg).2.2
      refine ⟨?_, ?_, ?_⟩
      · intro i j p out F hval hwp hctx hF
        obtain ⟨c, hci, hcls⟩ := val_start text f i j hval
        have hij : i < j := (strict_lt text (f + 1)).1 i j hval
        have hple : p ≤ i := by rw [← hwp] ; exact wEnd_ge text p
        rcases hcls with h1 | h1 | h1 | h1 | h1 | h1 | h1 | h1
        · subst h1
          exact val_case_obj text hno f ihv iho i j p out F hci hval hwp hctx hF
        · subst h1
          exact val_case_arr text hno f ihv iha i j p out F hci hval hwp hctx hF
        · subst h1
          obtain ⟨n, hbody, hj⟩ := strictVal_str_split text f i j hci hval
          subst hj
          obtain ⟨F2, rfl⟩ : ∃ F2, F = F2 + 2 := ⟨F - 2, by omega⟩
          exact run_value_str2 text hno i n p F2 out hci hbody hwp hctx (by omega)
        · subst h1
          obtain ⟨hs, hj⟩ := strictVal_true_split text f i j hci hval
          subst hj
          obtain ⟨F2, rfl⟩ : ∃ F2, F = F2 + 2 := ⟨F - 2, by omega⟩
          refine run_value_kw text hno i 4 p F2 out 't' hci (Or.inl ⟨rfl, rfl⟩)
            (fun s hsi => ?_) hwp hctx
          have h' : sliceTxt text s.i (s.i + 4) = "true".data := by rw [hsi] ; exact hs
          rw [parseKeywords_true text s h', hsi, hs]
        · subst h1
          obtain ⟨hs, hj⟩ := strictVal_false_split text f i j hci hval
          subst hj
          obtain ⟨F2, rfl⟩ : ∃ F2, F = F2 + 2 := ⟨F - 2, by omega⟩
          refine run_value_kw text hno i 5 p F2 out 'f' hci (Or.inr (Or.inl ⟨rfl, rfl⟩))
            (fun s hsi => ?_) hwp hctx
          have h' : sliceTxt text s.i (s.i + 5) = "false".data := by rw [hsi] ; exact hs
          rw [parseKeywords_false text s h', hsi, hs]
        · subst h1
          obtain ⟨hs, hj⟩ := strictVal_null_split text f i j hci hval
          subst hj
          obtain ⟨F2, rfl⟩ : ∃ F2, F = F2 + 2 := ⟨F - 2, by omega⟩
          refine run_value_kw text hno i 4 p F2 out 'n' hci
            (Or.inr (Or.inr ⟨rfl, rfl⟩)) (fun s hsi => ?_) hwp hctx
          have h' : sliceTxt text s.i (s.i + 4) = "null".data := by rw [hsi] ; exact hs
          rw [parseKeywords_null text s h', hsi, hs]
        · obtain ⟨n, hn, hj⟩ := strictVal_num_split text f i j c hci (Or.inl h1) hval
          subst hj
          obtain ⟨F2, rfl⟩ : ∃ F2, F = F2 + 2 := ⟨F - 2, by omega⟩
          exact run_value_num text hno i n p F2 out c hci (Or.inl h1) hn hwp hctx
            (strictNumberLen_pos _ _ hn)
        · obtain ⟨n, hn, hj⟩ := strictVal_num_split text f i j c hci (Or.inr h1) hval
          subst hj
          obtain ⟨F2, rfl⟩ : ∃ F2, F = F2 + 2 := ⟨F - 2, by omega⟩
          exact run_value_num text hno i n p F2 out c hci (Or.inr h1) hn hwp hctx
            (strictNumberLen_pos _ _ hn)
      · intro k j out F h hF
        exact objRest_case text hno f ihv iho k j out F h hF
      · intro k j out F h hF
        exact arrRest_case text hno f ihv iha k j out F h hF

theorem take_wsRun_mem (l : List Char) :
    ∀ c ∈ l.take (whitespaceRun l).2,
      isWhitespace c = true ∨ isSpecialWhitespace c = true := by
  induction l with
  | nil => intro c hc ; simp at hc
  | cons a rest ih =>
    intro c hc
    unfold whitespaceRun at hc
    by_cases ha : isWhitespace a = true
    · rw [if_pos ha] at hc
      simp only [List.take_succ_cons, List.mem_cons] at hc
      rcases hc with rfl | hc
      · exact Or.inl ha
      · exact ih c hc
    · rw [if_neg ha] at hc
      by_cases hs : isSpecialWhitespace a = true
      · rw [if_pos hs] at hc
        simp only [List.take_succ_cons, List.mem_cons] at hc
        rcases hc with rfl | hc
        · exact Or.inr hs
        · exact ih c hc
      · rw [if_neg hs] at hc
        simp at hc

theorem sliceWs_mem (text : List Char) (p : Nat) :
    ∀ c ∈ sliceTxt text p (wEnd text p),
      isWhitespace c = true ∨ isSpecialWhitespace c = true := by
  intro c hc
  rw [sliceTxt_alt] at hc
  have he : wEnd text p - p = (whitespaceRun (text.drop p)).2 := by
    unfold wEnd wsLen ; omega
  rw [he] at hc
  exact take_wsRun_mem (text.drop p) c hc

theorem sliceWs_not_quote (text : List Char) (p : Nat) :
    ¬ '"' ∈ sliceTxt text p (wEnd text p) := by
  intro hmem
  rcases sliceWs_mem text p '"' hmem with h | h <;> exact absurd h (by decide)

theorem lastIndexOf_last (xs ws : List Char) (c : Char) (hws : ¬ c ∈ ws) :
    lastIndexOf (xs ++ c :: ws) c = some xs.length := by
  unfold lastIndexOf
  rw [if_pos (by simp)]
  have hrev : (xs ++ c :: ws).reverse = ws.reverse ++ c :: xs.reverse := by
    simp [List.reverse_append]
  rw [hrev]
  rw [List.indexOf_append_of_not_mem (by simpa using hws)]
  rw [List.indexOf_cons_self]
  simp

theorem stripLast_close (xs ws : List Char) (hws : ¬ '"' ∈ ws) :
    stripLastOccurrence (xs ++ '"' :: ws) '"' true = xs := by
  unfold stripLastOccurrence
  rw [lastIndexOf_last xs ws '"' hws]
  simp only [if_pos trivial, List.append_nil]
  rw [show (xs ++ '"' :: ws).take xs.length = (xs ++ '"' :: ws).take (xs.length) from rfl]
  rw [show xs.length = (xs).length from rfl]
  rw [List.take_left]

theorem removeAt_open (xs : List Char) (c : Char) (ys : List Char) :
    removeAtIndex (xs ++ c :: ys) xs.length 1 = xs ++ ys := by
  unfold removeAtIndex
  rw [List.take_left]
  rw [show xs ++ c :: ys = (xs ++ [c]) ++ ys from by simp]
  rw [show xs.length + 1 = (xs ++ [c]).length from by simp]
  rw [List.drop_left]

theorem chain_le (text : List Char) (k a : Nat) (bodies : List Char) (e : Nat)
    (h : PlusChain text k a bodies e) : a ≤ e := by
  induction h with
  | nil a _ _ => exact Nat.le_refl a
  | cons k a q n rest e hplus hqe hq hbody htail ih =>
    have h1 : a ≤ wEnd text a := wEnd_ge text a
    have h2 : wEnd text a + 1 ≤ q := by rw [← hqe] ; exact wEnd_ge text _
    omega

theorem chain_startCond (text : List Char) (k a : Nat) (bodies : List Char) (e : Nat)
    (h : PlusChain text k a bodies e) : strEndCond text (wEnd text a) = true := by
  cases h with
  | nil a hplus hend => exact hend
  | cons k a q n rest e hplus hqe hq hbody htail =>
    unfold strEndCond
    rw [hplus]
    simp [optIs, isDelimiter]

theorem chain_endOk (text : List Char) (k a : Nat) (bodies : List Char) (e : Nat)
    (h : PlusChain text k a bodies e) :
    ¬ chAt text (wEnd text e) = some '+' ∧ strEndCond text (wEnd text e) = true := by
  induction h with
  | nil a hplus hend => exact ⟨hplus, hend⟩
  | cons k a q n rest e hplus hqe hq hbody htail ih => exact ih

theorem strLoop_chain (text : List Char) (hno : NoSpecialWs text)
    (a E G0 : Nat) (K : List Char) (bres : Bool)
    (hend : strEndCond text (wEnd text a) = true)
    (hcont : ∀ G stuff, G0 ≤ G →
      run text G (.concat ⟨wEnd text a, stuff ++ '"' :: sliceTxt text a (wEnd text a)⟩) =
        .ok (bres, ⟨E, stuff ++ K⟩)) :
    ∀ F p m str out iB oB,
      strictStringBody (text.drop p) = some m →
      p + m = a →
      m + 3 + G0 ≤ F →
      run text F (.strLoop false false .double iB oB str ⟨p, out⟩) =
        .ok (true, ⟨E, out ++ str ++ sliceTxt text p (a - 1) ++ K⟩) := by
  intro F
  induction F with
  | zero => intro p m str out iB oB _ _ hf ; omega
  | succ F ih =>
    intro p m str out iB oB hbody hpa hf
    cases hdp : text.drop p with
    | nil => rw [hdp] at hbody ; cases hbody
    | cons c rest =>
      have hcp : chAt text p = some c := chAt_of_drop text p c rest hdp
      have hlt : p < text.length := chAt_lt text p c hcp
      have hd1 : text.drop (p + 1) = rest := drop_succ_of_chAt text p c rest hdp
      rw [hdp] at hbody
      unfold strictStringBody at hbody
      simp only [run]
      rw [if_neg (by simp only [ge_iff_le, decide_eq_true_eq] ; omega)]
      cases hc2 : chAt text p with
      | none => rw [hc2] at hcp ; cases hcp
      | some c2 =>
        rw [hcp] at hc2
        injection hc2 with hc2
        subst hc2
        simp only []
        by_cases hq : c = '"'
        · -- the closing quote of the string: hand over to the concatenation
          subst hq
          rw [if_pos rfl] at hbody
          injection hbody with hm
          have hm1 : m = 1 := hm.symm
          subst hm1
          have hpa1 : a = p + 1 := by omega
          subst hpa1
          rw [if_pos (show QuoteKind.check QuoteKind.double '"' = true from by decide)]
          rw [pwsc_eq text (p + 1) (out ++ (str ++ ['"'])) hno]
          rw [if_pos (by
            have h2 := hend
            unfold strEndCond at h2
            simp only [Bool.false_or]
            exact h2)]
          rw [show ((out ++ (str ++ ['"'])) ++ sliceTxt text (p + 1) (wEnd text (p + 1))) =
              ((out ++ str) ++ '"' :: sliceTxt text (p + 1) (wEnd text (p + 1))) from by
            simp]
          rw [hcont F (out ++ str) (by omega)]
          rw [mBindOk]
          simp only [pure]
          simp [sliceTxt_nil, List.append_assoc]
          rfl
        · rw [if_neg hq] at hbody
          rw [if_neg (show ¬ QuoteKind.check QuoteKind.double c = true from by
            simp [QuoteKind.check, isDoubleQuote, hq])]
          rw [if_neg (by simp)]
          by_cases hb : c = '\\'
          · -- an escape sequence
            subst hb
            rw [if_pos rfl] at hbody
            rw [if_pos rfl]
            cases rest with
            | nil => cases hbody
            | cons e rest1 =>
              simp only [] at hbody
              have hce : chAt text (p + 1) = some e :=
                chAt_at text p 1 ('\\' :: e :: rest1) e hdp rfl
              have hd2 : text.drop (p + 2) = rest1 := by
                rw [drop_at text p 2 ('\\' :: e :: rest1) hdp]
                simp
              rw [hce]
              simp only []
              by_cases he : (e = '"' || e = '\\' || e = '/' || e = 'b' || e = 'f' ||
                  e = 'n' || e = 'r' || e = 't' : Bool) = true
              · -- a single-character escape
                rw [if_pos he] at hbody
                rw [if_pos he]
                cases h5 : strictStringBody rest1 with
                | none => rw [h5] at hbody ; cases hbody
                | some m1 =>
                  rw [h5] at hbody
                  have h6 : some (m1 + 2) = some m := hbody
                  injection h6 with h6
                  have hm : m = m1 + 2 := h6.symm
                  subst hm
                  have hm1p : 1 ≤ m1 := strictStringBody_pos rest1 m1 h5
                  rw [show skipEscapeStep text false ⟨p + 2, out⟩ = ⟨p + 2, out⟩ from rfl]
                  rw [ih (p + 2) m1 (str ++ sliceTxt text p (p + 2)) out iB oB
                    (by rw [hd2] ; exact h5)
                    (by omega)
                    (by omega)]
                  rw [← sliceTxt_append text p (p + 2) (a - 1)
                    (by omega)
                    (by omega)]
                  simp [List.append_assoc]
              · rw [if_neg he] at hbody
                rw [if_neg he]
                by_cases hu : e = 'u'
                · -- a unicode escape with four hex digits
                  subst hu
                  rw [if_pos rfl] at hbody
                  rw [if_pos rfl]
                  cases rest1 with
                  | nil => cases hbody
                  | cons h1 r1 =>
                    cases r1 with
                    | nil => cases hbody
                    | cons h2 r2 =>
                      cases r2 with
                      | nil => cases hbody
                      | cons h3 r3 =>
                        cases r3 with
                        | nil => cases hbody
                        | cons h4 r4 =>
                          simp only [] at hbody
                          by_cases hx : (isHex h1 && isHex h2 && isHex h3 && isHex h4) = true
                          · rw [if_pos hx] at hbody
                            cases h5 : strictStringBody r4 with
                            | none => rw [h5] at hbody ; cases hbody
                            | some m1 =>
                              rw [h5] at hbody
                              have h6 : some (m1 + 6) = some m := hbody
                              injection h6 with h6
                              have hm : m = m1 + 6 := h6.symm
                              subst hm
                              have hm1p : 1 ≤ m1 := strictStringBody_pos r4 m1 h5
                              simp only [Bool.and_eq_true] at hx
                              obtain ⟨⟨⟨hx1, hx2⟩, hx3⟩, hx4⟩ := hx
                              have hch1 : chAt text (p + 2) = some h1 :=
                                chAt_at text p 2 _ h1 hdp rfl
                              have hch2 : chAt text (p + 3) = some h2 :=
                                chAt_at text p 3 _ h2 hdp rfl
                              have hch3 : chAt text (p + 4) = some h3 :=
                                chAt_at text p 4 _ h3 hdp rfl
                              have hch4 : chAt text (p + 5) = some h4 :=
                                chAt_at text p 5 _ h4 hdp rfl
                              have hd6 : text.drop (p + 6) = r4 := by
                                rw [drop_at text p 6 _ hdp]
                                simp
                              have hj : hexRunLen text p = 6 := by
                                unfold hexRunLen
                                rw [hch1, hch2, hch3, hch4]
                                simp [optIs, hx1, hx2, hx3, hx4]
                              rw [hj]
                              rw [if_pos rfl]
                              rw [show skipEscapeStep text false ⟨p + 6, out⟩ = ⟨p + 6, out⟩
                                from rfl]
                              rw [ih (p + 6) m1 (str ++ sliceTxt text p (p + 6)) out iB oB
                                (by rw [hd6] ; exact h5)
                                (by omega)
                                (by omega)]
                              rw [← sliceTxt_append text p (p + 6) (a - 1)
                                (by omega)
                                (by omega)]
                              simp [List.append_assoc]
                          · rw [if_neg hx] at hbody ; cases hbody
                · rw [if_neg hu] at hbody ; cases hbody
          · -- a regular character
            rw [if_neg hb] at hbody
            rw [if_neg hb]
            by_cases hv : 0x20 ≤ c.toNat
            · rw [if_pos hv] at hbody
              cases h5 : strictStringBody rest with
              | none => rw [h5] at hbody ; cases hbody
              | some m1 =>
                rw [h5] at hbody
                have h6 : some (m1 + 1) = some m := hbody
                injection h6 with h6
                have hm : m = m1 + 1 := h6.symm
                subst hm
                have hm1p : 1 ≤ m1 := strictStringBody_pos rest m1 h5
                rw [if_neg (by simp [hq])]
                rw [if_neg (by simp [notControl_of_valid c hv])]
                rw [if_neg (by simp [isValidStringCharacter] ; omega)]
                rw [show skipEscapeStep text false ⟨p + 1, out⟩ = ⟨p + 1, out⟩ from rfl]
                rw [ih (p + 1) m1 (str ++ [c]) out iB oB
                  (by rw [hd1] ; exact h5)
                  (by omega)
                  (by omega)]
                rw [sliceTxt_cons text p (a - 1) c hcp
                  (by omega)]
                simp [List.append_assoc]
            · rw [if_neg hv] at hbody ; cases hbody

theorem chain_concat (text : List Char) (hno : NoSpecialWs text) :
    ∀ k : Nat,
      (∀ a bodies e processed stuff F,
        PlusChain text k a bodies e →
        3 * (e - a) + 2 ≤ F →
        run text F (.concatLoop processed
            ⟨wEnd text a, stuff ++ '"' :: sliceTxt text a (wEnd text a)⟩) =
          .ok ((processed || decide (0 < k)),
            ⟨wEnd text e, stuff ++ (bodies ++ '"' :: sliceTxt text e (wEnd text e))⟩)) ∧
      (∀ p n out bodies e F,
        chAt text p = some '"' →
        strictStringBody (text.drop (p + 1)) = some n →
        PlusChain text k (p + 1 + n) bodies e →
        3 * (e - p) + 4 ≤ F →
        run text F (.str false ⟨p, out⟩) =
          .ok (true, ⟨wEnd text e,
            out ++ '"' :: (sliceTxt text (p + 1) (p + n) ++
              (bodies ++ '"' :: sliceTxt text e (wEnd text e)))⟩)) := by
  intro k
  induction k using Nat.strong_induction_on with
  | _ k ih =>
    have hloop : ∀ a bodies e processed stuff F,
        PlusChain text k a bodies e →
        3 * (e - a) + 2 ≤ F →
        run text F (.concatLoop processed
            ⟨wEnd text a, stuff ++ '"' :: sliceTxt text a (wEnd text a)⟩) =
          .ok ((processed || decide (0 < k)),
            ⟨wEnd text e, stuff ++ (bodies ++ '"' :: sliceTxt text e (wEnd text e))⟩) := by
      intro a bodies e processed stuff F hch hF
      cases hch with
      | nil a hplus hend =>
        obtain ⟨F1, rfl⟩ : ∃ F1, F = F1 + 1 := ⟨F - 1, by omega⟩
        rw [run]
        rw [if_neg hplus]
        simp
        rfl
      | cons k' a q n rest e hplus hqe hq hbody htail =>
        have hk' : k' < k' + 1 := Nat.lt_succ_self k'
        have hstr2 := (ih k' hk').2
        have hq1 : wEnd text a + 1 ≤ q := by rw [← hqe] ; exact wEnd_ge text _
        have ha1 : a ≤ wEnd text a := wEnd_ge text a
        have hqe2 : q + 1 + n ≤ e := chain_le text k' (q + 1 + n) rest e htail
        have hn1 : 1 ≤ n := strictStringBody_pos _ _ hbody
        obtain ⟨F2, rfl⟩ : ∃ F2, F = F2 + 2 :=
          ⟨F - 2, by omega⟩
        rw [run]
        rw [if_pos hplus]
        have hpw := pwsc_eq text (wEnd text a + 1)
          (stuff ++ '"' :: sliceTxt text a (wEnd text a)) hno
        rw [hqe] at hpw
        have hstrip : stripLastOccurrence
            (stuff ++ '"' :: (sliceTxt text a (wEnd text a) ++
              sliceTxt text (wEnd text a + 1) q)) '"' true = stuff := by
          refine stripLast_close stuff _ ?_
          intro hmem
          rcases List.mem_append.mp hmem with hm | hm
          · exact sliceWs_not_quote text a hm
          · rw [← hqe] at hm
            exact sliceWs_not_quote text (wEnd text a + 1) hm
        have hsr := hstr2 q n stuff rest e (F2 + 1) hq hbody htail (by omega)
        have hplusE := (chain_endOk text k' (q + 1 + n) rest e htail).1
        have hexit : ∀ out2, run text (F2 + 1) (.concatLoop true ⟨wEnd text e, out2⟩) =
            .ok (true, ⟨wEnd text e, out2⟩) := by
          intro out2
          rw [run]
          rw [if_neg hplusE]
          rfl
        have hrm := removeAt_open stuff '"'
          (sliceTxt text (q + 1) (q + n) ++ (rest ++ '"' :: sliceTxt text e (wEnd text e)))
        have hdec : decide (0 < k' + 1) = true := by simp
        simp [mBindOk, hpw, hstrip, hsr, hrm, hexit, hdec, List.append_assoc]
    have hstr : ∀ p n out bodies e F,
        chAt text p = some '"' →
        strictStringBody (text.drop (p + 1)) = some n →
        PlusChain text k (p + 1 + n) bodies e →
        3 * (e - p) + 4 ≤ F →
        run text F (.str false ⟨p, out⟩) =
          .ok (true, ⟨wEnd text e,
            out ++ '"' :: (sliceTxt text (p + 1) (p + n) ++
              (bodies ++ '"' :: sliceTxt text e (wEnd text e)))⟩) := by
      intro p n out bodies e F hcp hbody hch hF
      have hn1 : 1 ≤ n := strictStringBody_pos _ _ hbody
      have hle : p + 1 + n ≤ e := chain_le text k (p + 1 + n) bodies e hch
      have hcont : ∀ G stuff2, 3 * (e - (p + 1 + n)) + 3 ≤ G →
          run text G (.concat ⟨wEnd text (p + 1 + n),
            stuff2 ++ '"' :: sliceTxt text (p + 1 + n) (wEnd text (p + 1 + n))⟩) =
            .ok (decide (0 < k), ⟨wEnd text e,
              stuff2 ++ (bodies ++ '"' :: sliceTxt text e (wEnd text e))⟩) := by
        intro G stuff2 hG
        obtain ⟨G1, rfl⟩ : ∃ G1, G = G1 + 1 := ⟨G - 1, by omega⟩
        rw [run]
        rw [pwsc_at_wEnd]
        rw [hloop (p + 1 + n) bodies e false stuff2 G1 hch (by omega)]
        simp
      obtain ⟨F1, rfl⟩ : ∃ F1, F = F1 + 1 := ⟨F - 1, by omega⟩
      simp only [run]
      rw [if_neg (by rw [hcp] ; simp)]
      cases hc2 : chAt text p with
      | none => rw [hc2] at hcp ; cases hcp
      | some c2 =>
        rw [hcp] at hc2
        injection hc2 with hc2
        subst hc2
        simp only []
        rw [if_pos (show isQuote '"' = true from by decide)]
        rw [show endQuoteKindOf '"' = QuoteKind.double from by decide]
        rw [strLoop_chain text hno (p + 1 + n) (wEnd text e)
          (3 * (e - (p + 1 + n)) + 3)
          (bodies ++ '"' :: sliceTxt text e (wEnd text e)) (decide (0 < k))
          (chain_startCond text k (p + 1 + n) bodies e hch)
          hcont F1 (p + 1) n ['"'] out p out.length hbody rfl (by omega)]
        rw [show p + 1 + n - 1 = p + n from by omega]
        simp [List.append_assoc]
    exact ⟨hloop, hstr⟩

theorem concat_splice_back (text : List Char) (hno : NoSpecialWs text)
    (p : Nat) (stuff : List Char) (processed : Bool) (F : Nat)
    (hplus : chAt text p = some '+')
    (heof : wEnd text (p + 1) = text.length) :
    run text (F + 3) (.concatLoop processed ⟨p, stuff ++ ['"']⟩) =
      .ok (true, ⟨text.length, insertBeforeLastWhitespace stuff ['"']⟩) := by
  rw [show F + 3 = (F + 2) + 1 from rfl]
  rw [run]
  rw [if_pos hplus]
  have hpw := pwsc_eq text (p + 1) (stuff ++ ['"']) hno
  rw [heof] at hpw
  have hstrip : stripLastOccurrence
      (stuff ++ '"' :: sliceTxt text (p + 1) text.length) '"' true = stuff := by
    refine stripLast_close stuff _ ?_
    intro hm
    rw [← heof] at hm
    exact sliceWs_not_quote text (p + 1) hm
  have hnone : chAt text text.length = none := chAt_eof text _ (le_refl _)
  have hsf : run text (F + 2) (.str false ⟨text.length, stuff⟩) =
      .ok (false, ⟨text.length, stuff⟩) := by
    simp only [run]
    rw [if_neg (by rw [hnone] ; simp)]
    rw [hnone]
    rfl
  have hexit : run text (F + 2) (.concatLoop true
      ⟨text.length, insertBeforeLastWhitespace stuff ['"']⟩) =
      .ok (true, ⟨text.length, insertBeforeLastWhitespace stuff ['"']⟩) := by
    simp only [run]
    rw [if_neg (by rw [hnone] ; simp)]
    rfl
  simp [mBindOk, hpw, hstrip, hsf, hexit]

/-! ## Claims -/

/-- C1: the claim that every successful `jsonrepair` output is accepted by a
strict JSON parser fails on this code: on the input `-012`, `parseNumber`
consumes the full run, the leading-zero test `^0\d` does not look past the
minus sign, and the number is emitted verbatim, so `jsonrepair` returns
`-012`, which a strict JSON parser rejects (after `-0` no further digit may
follow). -/
theorem claim1_negative_leading_zero_output_not_strict :
    jsonrepairStr "-012" = .ok "-012" ∧ isStrictJsonDoc "-012".data = false :=
  ⟨rfl, rfl⟩

/-- C2: the claim that comments are recognized and skipped fails on this
code: the comment-skipping loop inside `parseWhitespaceAndSkipComments` is
commented out in the source, so `parseComment` is dead code.  On the input
of the claim the leading block comment is swallowed by the unquoted-string
recognizer as the root value and the following object raises
`Unexpected character` at index 8.  The last two conjuncts document the
divergence: the whitespace-and-comments pass consumes nothing at a comment,
while the (never invoked) `parseComment` would consume it. -/
theorem claim2_comments_are_not_skipped :
    jsonrepairStr "/* c */ \x7b\"x\": NumberLong(\"42\")\x7d" =
      .error (.err ⟨"Unexpected character \"\x7b\"", 8⟩) ∧
    parseWhitespaceAndSkipComments "/* c */".data ⟨0, []⟩ = ⟨0, []⟩ ∧
    parseComment "/* c */".data ⟨0, []⟩ = (true, ⟨7, []⟩) :=
  ⟨rfl, rfl, rfl⟩

/-- C3: idempotence fails on this code: `jsonrepair "01."` repairs the
truncated number through `repairNumberEndingWithNumericSymbol`, which emits
the consumed text plus `0` without the leading-zero check, giving `01.0`;
repairing that output again takes the full-match path of `parseNumber`,
whose `^0\d` test now fires, and yields the quoted string `"01.0"`, so
`jsonrepair (jsonrepair "01.") ≠ jsonrepair "01."`. -/
theorem claim3_repair_not_idempotent_on_truncated_leading_zero :
    jsonrepairStr "01." = .ok "01.0" ∧ jsonrepairStr "01.0" = .ok "\"01.0\"" :=
  ⟨rfl, rfl⟩

/-- C5: the claim fails on this code for inputs containing only comments:
comments are not skipped (the skipping block is commented out in the
source), so the input `//` is repaired as the unquoted string `"//"` rather
than raising the `UnexpectedEnd` error. -/
theorem claim5_counterexample_comment_only_input_succeeds :
    jsonrepairStr "//" = .ok "\"//\"" :=
  rfl

/-- C5 (amended): if the input is empty or contains only whitespace
characters (normal or special), `jsonrepair` raises the
`Unexpected end of json string` error (UnexpectedEnd) with the reported
position equal to the length of the input (comment-only input is excluded
by the counterexample: comments are not skipped by this code). -/
theorem claim5_amended_ws_only_unexpected_end :
    ∀ (text : List Char),
      (∀ c ∈ text, isWhitespace c = true ∨ isSpecialWhitespace c = true) →
      jsonrepair text = .error (.err ⟨"Unexpected end of json string", text.length⟩) := by
  intro text hall
  unfold jsonrepair
  have hf : repairFuel text = (32 * text.length + 254) + 2 := by unfold repairFuel ; ring
  rw [hf]
  unfold jsonrepairFueled
  rw [run_value_eof text _ hall]
  rfl

/-- C5 witness: the amended statement at the concrete input of two
spaces. -/
theorem claim5_witness_two_spaces :
    jsonrepair "  ".data = .error (.err ⟨"Unexpected end of json string", 2⟩) :=
  claim5_amended_ws_only_unexpected_end "  ".data (by decide)

/-- C7: the claim that only the string recognizer moves the cursor backward
fails on this code: `parseUnquotedString` (fuel 9 is ample here), entered at
cursor 1 of the text of two spaces and a comma, scans the whitespace run and
then trims trailing whitespace, stepping the cursor back to 0 — below even
its entry position — so the final cursor is not `≥` the entry cursor. -/
theorem claim7_counterexample_unquoted_moves_back :
    parseUnquotedString "  ,".data 9 ⟨1, []⟩ = .ok (true, ⟨0, ['"', '"']⟩) ∧
    ¬ (∀ s2 : St, parseUnquotedString "  ,".data 9 ⟨1, []⟩ = .ok (true, s2) → 1 ≤ s2.i) :=
  ⟨rfl, fun h => absurd (h ⟨0, ['"', '"']⟩ rfl) (by decide)⟩

/-- C7 (amended): the cursor also moves backward outside the string
recognizer: `parseNumber` rewinds to its saved checkpoint `start` — it
either consumes (returns true) or returns with the state exactly as at
entry — and `parseUnquotedString` steps the cursor back over trailing
whitespace after its scanning loop, as at the concrete input `ab ,` whose
scan reaches index 3 while the final cursor is 2. -/
theorem claim7_amended_rewinds :
    (∀ (text : List Char) (s : St),
      (parseNumber text s).1 = true ∨ (parseNumber text s).2 = s) ∧
    parseUnquotedString "ab ,".data 9 ⟨0, []⟩ = .ok (true, ⟨2, ['"', 'a', 'b', '"']⟩) ∧
    unquotedRunCount "ab ,".data = 3 := by
  refine ⟨fun text s => ?_, rfl, rfl⟩
  have h := parseNumber_shape text s
  unfold NumberShape at h
  rcases h with h | ⟨h, _⟩ | ⟨h, _⟩ | ⟨h, _⟩
  · right ; rw [h]
  · left ; exact h
  · left ; exact h
  · left ; exact h

/-- C8: after a successful string, each following `+` (across whitespace)
concatenates the next string literal into the left one. For every input
without special whitespace: a double-quoted strict string literal followed
by a chain of `k` further plus-joined string literals (`PlusChain`) is
parsed by the string recognizer into one single string literal holding the
concatenation of all the bodies, the closing and opening quotes at every
juncture being stripped; and when no string follows a `+` (only whitespace
up to the end of the input), the concatenation loop consumes the plus,
splices the closing quote back before the trailing whitespace and stops. In
particular `"a" + "b"` repairs to `"ab"` and `"a" +` repairs to `"a"`. -/
theorem claim8_concatenated_strings :
    (∀ (text : List Char), NoSpecialWs text →
      ∀ k p n out bodies e F,
        chAt text p = some '"' →
        strictStringBody (text.drop (p + 1)) = some n →
        PlusChain text k (p + 1 + n) bodies e →
        3 * (e - p) + 4 ≤ F →
        run text F (.str false ⟨p, out⟩) =
          .ok (true, ⟨wEnd text e,
            out ++ '"' :: (sliceTxt text (p + 1) (p + n) ++
              (bodies ++ '"' :: sliceTxt text e (wEnd text e)))⟩)) ∧
    (∀ (text : List Char), NoSpecialWs text →
      ∀ p stuff processed F,
        chAt text p = some '+' →
        wEnd text (p + 1) = text.length →
        run text (F + 3) (.concatLoop processed ⟨p, stuff ++ ['"']⟩) =
          .ok (true, ⟨text.length, insertBeforeLastWhitespace stuff ['"']⟩)) ∧
    jsonrepairStr "\"a\" + \"b\"" = .ok "\"ab\"" ∧
    jsonrepairStr "\"a\" +" = .ok "\"a\"" := by
  refine ⟨?_, ?_, rfl, rfl⟩
  · intro text hno k p n out bodies e F hcp hbody hch hF
    exact (chain_concat text hno k).2 p n out bodies e F hcp hbody hch hF
  · intro text hno p stuff processed F hplus heof
    exact concat_splice_back text hno p stuff processed F hplus heof

/-- Witness for C8 at the chain of three string literals a, b and c joined
by two pluses: the string recognizer returns the single literal abc. -/
theorem claim8_witness_chain :
    run ("\"a\" + \"b\" + \"c\"".data) 49 (.str false ⟨0, []⟩) =
      .ok (true, ⟨15, "\"abc\"".data⟩) := by
  have h := claim8_concatenated_strings.1 ("\"a\" + \"b\" + \"c\"".data)
    (by unfold NoSpecialWs ; decide) 2 0 2 [] _ 15 49 (by decide) (by decide)
    (PlusChain.cons 1 3 6 2 _ 15 (by decide) (by decide) (by decide) (by decide)
      (PlusChain.cons 0 9 12 2 [] 15 (by decide) (by decide) (by decide) (by decide)
        (PlusChain.nil 15 (by decide) (by decide))))
    (by decide)
  rw [h]
  rfl

/-- C9: a number run ending right after `-`, `.`, or `e`/`E` with optional
sign is emitted followed by a fabricated `0` (`-` gives `-0`, `1.` gives
`1.0`, `1e` gives `1e0`, and the claim's example `["x", 1.]` gives
`["x", 1.0]`), and this is the only numeric fabrication: `parseNumber`
either leaves the output unchanged, or appends the consumed slice verbatim
or quoted, or appends the consumed slice plus `0`, the latter only when the
character before the final cursor is `-`, `.`, `e`, `E` or `+` and the run
ends there (end of input, whitespace or delimiter). -/
theorem claim9_number_truncation_zero :
    jsonrepairStr "[\"x\", 1.]" = .ok "[\"x\", 1.0]" ∧
    jsonrepairStr "-" = .ok "-0" ∧
    jsonrepairStr "1." = .ok "1.0" ∧
    jsonrepairStr "1e" = .ok "1e0" ∧
    ∀ (text : List Char) (s : St),
      (parseNumber text s).2.output = s.output ∨
      (parseNumber text s).2.output = s.output ++ sliceTxt text s.i (parseNumber text s).2.i ∨
      (parseNumber text s).2.output =
        s.output ++ jsStringify (sliceTxt text s.i (parseNumber text s).2.i) ∨
      ((parseNumber text s).2.output =
        s.output ++ sliceTxt text s.i (parseNumber text s).2.i ++ ['0'] ∧
       optIs (fun c => c = '-' || c = '.' || c = 'e' || c = 'E' || c = '+')
         (chAt text ((parseNumber text s).2.i - 1)) = true ∧
       atEndOfNumber text (parseNumber text s).2.i = true) := by
  refine ⟨rfl, rfl, rfl, rfl, fun text s => ?_⟩
  have h := parseNumber_shape text s
  unfold NumberShape at h
  rcases h with h | ⟨_, h⟩ | ⟨_, h⟩ | ⟨_, h, h2, h3⟩
  · left ; rw [h]
  · right ; left ; exact h
  · right ; right ; left ; exact h
  · right ; right ; right ; exact ⟨h, h2, h3⟩

/-- C10: when `parseString` is entered at a backslash that is not followed
by a quote-like character, it fails but leaves the cursor advanced past the
backslash, which is therefore silently dropped; in particular the top-level
input of a backslash followed by `foo` repairs to the JSON string `"foo"`
with no backslash in the output. -/
theorem claim10_backslash_dropped :
    (∀ (text : List Char) (fuel : Nat) (s : St),
      chAt text s.i = some '\\' →
      optIs isQuote (chAt text (s.i + 1)) = false →
      parseString text (fuel + 1) false s = .ok (false, ⟨s.i + 1, s.output⟩)) ∧
    jsonrepairStr "\\foo" = .ok "\"foo\"" := by
  refine ⟨fun text fuel s h h2 => ?_, rfl⟩
  unfold parseString
  cases hc : chAt text (s.i + 1) with
  | none => simp [run, h, hc] ; rfl
  | some c =>
    have hq : isQuote c = false := by simpa [hc, optIs] using h2
    simp [run, h, hc, hq] ; rfl

/-- C10 witness: the general statement at the concrete input of a backslash
followed by `x`. -/
theorem claim10_witness_concrete :
    parseString "\\x".data 6 false ⟨0, []⟩ = .ok (false, ⟨1, []⟩) :=
  claim10_backslash_dropped.1 "\\x".data 5 ⟨0, []⟩ rfl rfl

/-- C6: on the claim's input of two newline-separated objects, the repaired
output is the two objects joined by a spliced comma and wrapped in brackets
with surrounding newlines; and in general every successful run of
`parseNewlineDelimitedJSON` wraps the entire output in `[` and `]` with
surrounding newlines. -/
theorem claim6_ndjson_array_wrap :
    jsonrepairStr "\x7b\"a\": 1\x7d\n\x7b\"a\": 2\x7d" =
      .ok "[\n\x7b\"a\": 1\x7d,\n\x7b\"a\": 2\x7d\n]" ∧
    ∀ (text : List Char) (fuel : Nat) (s s2 : St),
      parseNewlineDelimitedJSON text fuel s = .ok s2 →
      ∃ core, s2.output = '[' :: '\n' :: core ++ ['\n', ']'] := by
  refine ⟨rfl, fun text fuel s s2 h => ?_⟩
  unfold parseNewlineDelimitedJSON at h
  cases hr : run text fuel (.ndjsonLoop true s) with
  | error e => rw [hr] at h ; cases h
  | ok p =>
    rw [hr] at h
    refine ⟨stripLastOccurrence p.2.output ',' false, ?_⟩
    cases h
    rfl

/-- C6 witness: the wrapping statement at the concrete NDJSON input of the
two values 1 and 2. -/
theorem claim6_witness_concrete :
    ∃ core, (⟨3, "[\n1,\n2\n]".data⟩ : St).output = '[' :: '\n' :: core ++ ['\n', ']'] :=
  claim6_ndjson_array_wrap.2 "1\n2".data 100 ⟨0, []⟩ ⟨3, "[\n1,\n2\n]".data⟩ rfl

/-- C4: for every input that is a single strict-JSON document (per RFC 8259,
possibly surrounded by whitespace) and contains no special whitespace
characters, `jsonrepair` succeeds and returns the input unchanged. -/
theorem claim4_identity_on_valid_json (text : List Char)
    (hdoc : isStrictJsonDoc text = true) (hno : NoSpecialWs text) :
    jsonrepair text = .ok text := by
  unfold isStrictJsonDoc at hdoc
  simp only [] at hdoc
  cases hval : strictRun text (2 * text.length + 2) (SReq.val (strictWsCount text)) with
  | none => rw [hval] at hdoc ; cases hdoc
  | some j =>
    rw [hval] at hdoc
    simp only [decide_eq_true_eq] at hdoc
    have hw0 : wEnd text 0 = strictWsCount text := by
      unfold wEnd
      rw [wsLen_eq_strictWs text hno 0]
      simp
    have hwj : wEnd text j = text.length := by
      unfold wEnd
      rw [wsLen_eq_strictWs text hno j]
      omega
    have hij : strictWsCount text < j := (strict_lt text _).1 _ _ hval
    have hjlen : j ≤ text.length := by
      have := hdoc ; omega
    have hctx : CtxAfter text j := by
      unfold CtxAfter
      rw [hwj]
      exact Or.inl (chAt_eof text _ (le_refl _))
    have hrun := (strict_sim text hno (2 * text.length + 2)).1
      (strictWsCount text) j 0 [] (repairFuel text) hval hw0 hctx
      (by unfold repairFuel ; omega)
    rw [hwj, sliceTxt_full] at hrun
    simp only [List.nil_append] at hrun
    have hend : chAt text text.length = none := chAt_eof text _ (le_refl _)
    have hpc := parseCharacter_no text ',' ⟨text.length, text⟩ (by rw [hend] ; simp)
    have hcl : closersLoop text (text.length + 1) ⟨text.length, text⟩ =
        ⟨text.length, text⟩ := by
      unfold closersLoop
      rw [show (⟨text.length, text⟩ : St).i = text.length from rfl, hend]
      simp
    unfold jsonrepair jsonrepairFueled
    rw [hrun]
    simp only [Bool.not_true, Bool.false_eq_true, if_false, hpc]
    rw [hend]
    simp only [optIs, Bool.false_and, Bool.false_eq_true, if_false]
    unfold jsonrepairEnd
    rw [hcl]
    simp

/-- Witness for C4 at the concrete document made of an open brace, the key
"a", a colon, a space, the digit 1 and a close brace. -/
theorem claim4_witness_concrete :
    isStrictJsonDoc ("\x7b\"a\": 1\x7d".data) = true ∧
    NoSpecialWs ("\x7b\"a\": 1\x7d".data) ∧
    jsonrepair ("\x7b\"a\": 1\x7d".data) = .ok ("\x7b\"a\": 1\x7d".data) :=
  ⟨by decide, by unfold NoSpecialWs ; decide,
    claim4_identity_on_valid_json _ (by decide) (by unfold NoSpecialWs ; decide)⟩

end JsonRepair
